import Mathlib

/-!
# Traversability maps of `slam-maps`

A shallow embedding of `src/grid/TraversabilityMap3d.hpp`, of the ray checker of
`test/tools/test_voxel_traversal.cpp`, of the overlay setters and the free-space loop of
`viz/MLSMapVisualization.cpp`, and of the parts of the library that these and the other
tests only include: the archive records, the frame data of a local map, the grid storage
with its dense and its sparse backend, and the voxel traversal, each modelled from the
specification.

* Nodes are heap entities.  A pointer is a natural number, `0` is `nullptr`, and the
  heap is a list of slots: address `k + 1` names slot `k`.  `new` appends a slot,
  `delete` empties one.  An emptied slot is never handed out again, so a dangling
  pointer stays recognisable.
* `float` and `double` values are exact rationals.  Arithmetic in `double` is exact:
  its rounding, infinities and NaN are outside the model.  The conversion to `float` that
  ends `getNodePosition` is modelled, as rounding to the nearest single-precision value.
* Values of type `int` are integers; a sum outside the range of `int` is undefined
  behaviour and yields no value.
* Every operation on the heap or the maps returns `Except Fault`.  `Fault.outOfRange` is
  the exception of the bounds-checked cell access, `Fault.invalidPointer` stands for the
  undefined behaviour of dereferencing or deleting a pointer that is not live.
-/

namespace maps.grid

/-- Integer cell coordinate `(x, y)`. -/
structure Index where
  x : Int
  y : Int
  deriving DecidableEq, Repr

/-- The enum `TraversabilityNodeBase::TYPE`. -/
inductive TYPE where
  | OBSTACLE
  | TRAVERSABLE
  | UNKNOWN
  | HOLE
  | UNSET
  | FRONTIER
  deriving DecidableEq, Repr

/-- The null pointer.  Node pointers are natural numbers. -/
def nullptr : Nat := 0

/-- The data members of `TraversabilityNodeBase`. -/
structure TraversabilityNodeBase where
  connections : List Nat
  height : ℚ
  idx : Index
  type : TYPE
  mIsExpanded : Bool
  deriving DecidableEq

/-- What goes wrong: an exception (`archiveError` is the exception of the archive library
on malformed input), or undefined behaviour on a pointer. -/
inductive Fault where
  | outOfRange
  | runtimeError
  | invalidPointer
  | noSuchMap
  | archiveError
  deriving DecidableEq, Repr

/-- The node heap: slot `k` is the node at address `k + 1`, `none` once deleted. -/
abbrev Heap := List (Option TraversabilityNodeBase)

/-- The node a pointer refers to, if the pointer is live. -/
def Heap.lookup (h : Heap) : Nat → Option TraversabilityNodeBase
  | 0 => none
  | k + 1 => h[k]?.join

/-- Dereference `*p`: undefined behaviour unless `p` is live. -/
def Heap.deref (h : Heap) (p : Nat) : Except Fault TraversabilityNodeBase :=
  match h.lookup p with
  | some n => .ok n
  | none => .error .invalidPointer

/-- The expression `new Node(n)`: the node goes to a slot no pointer was handed out for. -/
def Heap.alloc (h : Heap) (n : TraversabilityNodeBase) : Heap × Nat :=
  (h ++ [some n], h.length + 1)

/-- The statement `delete p`: nothing for `nullptr`, frees a live node, undefined otherwise. -/
def Heap.delete (h : Heap) (p : Nat) : Except Fault Heap :=
  match p with
  | 0 => .ok h
  | k + 1 =>
    match h.lookup (k + 1) with
    | some _ => .ok (h.set k none)
    | none => .error .invalidPointer

/-- Write through a live pointer: `*p = n`. -/
def Heap.store (h : Heap) (p : Nat) (n : TraversabilityNodeBase) : Except Fault Heap :=
  match p with
  | 0 => .error .invalidPointer
  | k + 1 =>
    match h.lookup (k + 1) with
    | some _ => .ok (h.set k (some n))
    | none => .error .invalidPointer

/-- Run `f` over a list from left to right, threading the state, stopping at the first
fault: the shape of a range-based `for` loop. -/
def forEach {σ α : Type} (f : σ → α → Except Fault σ) : σ → List α → Except Fault σ
  | s, [] => .ok s
  | s, a :: as =>
    match f s a with
    | .ok s' => forEach f s' as
    | .error e => .error e

/-- A world position (`base::Vector3d`). -/
structure Vector3d where
  x : ℚ
  y : ℚ
  z : ℚ
  deriving DecidableEq

/-- An affine transform (`base::Transform3d`), as the list of its matrix coefficients. -/
structure Transform3d where
  coeffs : List ℚ
  deriving DecidableEq

/-- One cell of the grid, `LevelList<T>` for a pointer type `T`. -/
abbrev LevelList := List Nat

/-- Modelled from the spec: `LevelList<T>::insert`, of the included header
`MultiLevelGridMap.hpp`.  A cell is an ordered collection of layered values and `insert`
adds one value to it; the order kept here is the order of insertion. -/
def LevelList.insert (l : LevelList) (p : Nat) : LevelList :=
  l ++ [p]

/-- The data members of `TraversabilityMap3d<T>`, with those of its base classes
`MultiLevelGridMap<T>` and `Grid`: the extents, the resolution, the shared frame data
(a reference into the frame store), the cells, and the ownership flag. -/
structure TraversabilityMap3d where
  numCells : Nat × Nat
  resolution : ℚ × ℚ
  localMapData : Nat
  cells : Index → LevelList
  ownsNodePointers : Bool

namespace TraversabilityMap3d

/-- The constructor `TraversabilityMap3d(num_cells, resolution, data)`: no node, owning. -/
def construct (numCells : Nat × Nat) (resolution : ℚ × ℚ) (data : Nat) : TraversabilityMap3d :=
  { numCells := numCells, resolution := resolution, localMapData := data,
    cells := fun _ => [], ownsNodePointers := true }

/-- An index is valid iff both components lie in `[0, num_cells)`. -/
def inGrid (m : TraversabilityMap3d) (idx : Index) : Bool :=
  decide (0 ≤ idx.x) && decide (idx.x < (m.numCells.1 : Int)) &&
    decide (0 ≤ idx.y) && decide (idx.y < (m.numCells.2 : Int))

/-- Modelled from the spec: `MultiLevelGridMap<T>::at`, of the included header
`MultiLevelGridMap.hpp`, the bounds-checked cell access; an index outside the grid is an
error. -/
def cellAt (m : TraversabilityMap3d) (idx : Index) : Except Fault LevelList :=
  if m.inGrid idx then .ok (m.cells idx) else .error .outOfRange

/-- Replace the content of one cell. -/
def setCell (m : TraversabilityMap3d) (idx : Index) (l : LevelList) : TraversabilityMap3d :=
  { m with cells := fun i => if i = idx then l else m.cells i }

/-- The statement `m.at(idx).insert(p)`. -/
def insertAt (m : TraversabilityMap3d) (idx : Index) (p : Nat) :
    Except Fault TraversabilityMap3d :=
  match m.cellAt idx with
  | .ok l => .ok (m.setCell idx (l.insert p))
  | .error e => .error e

/-- Modelled from the spec: the iterators of `MultiLevelGridMap<T>`, of the included header
`MultiLevelGridMap.hpp`, traverse the cells in row-major order. -/
def indices (m : TraversabilityMap3d) : List Index :=
  (List.range m.numCells.2).flatMap fun (y : Nat) =>
    (List.range m.numCells.1).map fun (x : Nat) => { x := Int.ofNat x, y := Int.ofNat y }

/-- Every node pointer stored in the map, in traversal order. -/
def nodes (m : TraversabilityMap3d) : List Nat :=
  m.indices.flatMap m.cells

/-- Modelled from the spec: `MultiLevelGridMap<T>::clear`, of the included header
`MultiLevelGridMap.hpp`, empties every cell to the default state. -/
def clearCells (m : TraversabilityMap3d) : TraversabilityMap3d :=
  { m with cells := fun _ => [] }

/-- Modelled from the spec: `resize`, inherited from the grid classes of the included
headers, changes the extents, preserves the overlapping region and discards the rest. -/
def resize (m : TraversabilityMap3d) (numCells : Nat × Nat) : TraversabilityMap3d :=
  { m with numCells := numCells, cells := fun i => if m.inGrid i then m.cells i else [] }

/-- The setter `setResolution`. -/
def setResolution (m : TraversabilityMap3d) (resolution : ℚ × ℚ) : TraversabilityMap3d :=
  { m with resolution := resolution }

/-- The method `setMapOwnsNodePointers`. -/
def setMapOwnsNodePointers (m : TraversabilityMap3d) (owns : Bool) : TraversabilityMap3d :=
  { m with ownsNodePointers := owns }

/-- Modelled from the spec: `toGrid`, inherited from the grid classes of the included
headers, returns success=false when the position cannot be mapped.  The projection through
the frame and the resolution is the parameter `project`; the index it yields must lie in
the grid. -/
def toGrid (m : TraversabilityMap3d) (project : Vector3d → Option Index) (pos : Vector3d) :
    Option Index :=
  match project pos with
  | some idx => if m.inGrid idx then some idx else none
  | none => none

end TraversabilityMap3d

/-- The largest finite `double`, `std::numeric_limits<double>::max()`. -/
def DBL_MAX : ℚ := (2 ^ 53 - 1) * 2 ^ 971

/-- One iteration of the scan of `getClosestNode`, on the pair `(minDist, node)`.  The
distance `|height - z|` is computed and compared as an exact rational; the rounding of the
subtraction in `double` is outside the model. -/
def closestStep (h : Heap) (z : ℚ) (acc : ℚ × Nat) (currNode : Nat) : Except Fault (ℚ × Nat) :=
  match h.deref currNode with
  | .ok n =>
    let curDist := |n.height - z|
    if curDist < acc.1 then .ok (curDist, currNode) else .ok acc
  | .error e => .error e

/-- The method `TraversabilityMap3d::getClosestNode`. -/
def TraversabilityMap3d.getClosestNode (m : TraversabilityMap3d)
    (project : Vector3d → Option Index) (h : Heap) (pos : Vector3d) : Except Fault Nat :=
  match m.toGrid project pos with
  | some idx =>
    match m.cellAt idx with
    | .ok l =>
      match forEach (closestStep h pos.z) (DBL_MAX, nullptr) l with
      | .ok acc => .ok acc.2
      | .error e => .error e
    | .error e => .error e
  | none => .ok nullptr

/-- The objects of a program run: the node heap, the frame store and the maps. A map is
named by its position in `maps`. -/
structure World where
  heap : Heap
  frames : Nat → Transform3d
  maps : List TraversabilityMap3d

/-- The map object with a given name. -/
def World.getMap (s : World) (a : Nat) : Except Fault TraversabilityMap3d :=
  match s.maps[a]? with
  | some m => .ok m
  | none => .error .noSuchMap

/-- Delete every node of one cell, then `l.clear()`: the body of the loop of `clear`. -/
def clearStep (acc : Heap × TraversabilityMap3d) (idx : Index) :
    Except Fault (Heap × TraversabilityMap3d) :=
  match forEach Heap.delete acc.1 (acc.2.cells idx) with
  | .ok h => .ok (h, acc.2.setCell idx [])
  | .error e => .error e

/-- The method `TraversabilityMap3d::clear`, on the map named `a`. -/
def TraversabilityMap3d.clear (s : World) (a : Nat) : Except Fault World :=
  match s.getMap a with
  | .ok m =>
    match (if m.ownsNodePointers then forEach clearStep (s.heap, m) m.indices
           else .ok (s.heap, m)) with
    | .ok (h, m') => .ok { s with heap := h, maps := s.maps.set a m'.clearCells }
    | .error e => .error e
  | .error e => .error e

/-- The innermost loop of `cast`: `for (auto &p : this->at(idx)) out.at(idx).insert(p)`. -/
def castCell (m : TraversabilityMap3d) (idx : Index) (out : TraversabilityMap3d) :
    Except Fault TraversabilityMap3d :=
  match m.cellAt idx with
  | .ok l => forEach (fun o p => o.insertAt idx p) out l
  | .error e => .error e

/-- The method `TraversabilityMap3d::cast`. -/
def TraversabilityMap3d.cast (m : TraversabilityMap3d) : Except Fault TraversabilityMap3d :=
  let out := TraversabilityMap3d.construct m.numCells m.resolution m.localMapData
  match forEach (fun o (y : Nat) =>
      forEach (fun o (x : Nat) => castCell m { x := Int.ofNat x, y := Int.ofNat y } o) o
        (List.range m.numCells.1)) out (List.range m.numCells.2) with
  | .ok o => .ok (o.setMapOwnsNodePointers false)
  | .error e => .error e

/-- The statement `p->connections.push_back(q)`. -/
def pushBack (h : Heap) (p q : Nat) : Except Fault Heap :=
  match h.deref p with
  | .ok node => h.store p { node with connections := node.connections ++ [q] }
  | .error e => .error e

/-- The state of the first pass of `doDeepCopy`: the heap, the map `out`, and the table
`inToOut`.  A key that was never assigned reads as `nullptr`, which is what
`std::map::operator[]` yields for it. -/
abbrev CopyState := Heap × TraversabilityMap3d × (Nat → Nat)

/-- Body of the first pass of `doDeepCopy`, for one node `n`: copy-construct a new node,
drop its connections, insert it at the cell of the node's own index, record it. -/
def cloneStep (acc : CopyState) (n : Nat) : Except Fault CopyState :=
  match acc.1.deref n with
  | .ok node =>
    let r := acc.1.alloc { node with connections := [] }
    match acc.2.1.insertAt node.idx r.2 with
    | .ok out => .ok (r.1, out, Function.update acc.2.2 n r.2)
    | .error e => .error e
  | .error e => .error e

/-- Body of the second pass of `doDeepCopy`, for one node `n`. -/
def connectStep (inToOut : Nat → Nat) (h : Heap) (n : Nat) : Except Fault Heap :=
  match h.deref n with
  | .ok node =>
    forEach (fun h' neighbour => pushBack h' (inToOut n) (inToOut neighbour)) h node.connections
  | .error e => .error e

/-- The method `TraversabilityMap3d::doDeepCopy(in, out)`; it returns the heap and `out`. -/
def doDeepCopy (h : Heap) (inp out : TraversabilityMap3d) :
    Except Fault (Heap × TraversabilityMap3d) :=
  match forEach (fun acc idx => forEach cloneStep acc (inp.cells idx))
      (h, out, fun _ => nullptr) inp.indices with
  | .ok (h1, out1, inToOut) =>
    match forEach (fun h' idx => forEach (connectStep inToOut) h' (inp.cells idx))
        h1 inp.indices with
    | .ok h2 => .ok (h2, out1)
    | .error e => .error e
  | .error e => .error e

/-- The copy assignment `TraversabilityMap3d::operator=`: the map named `this` is assigned
the map named `other`. -/
def operatorAssign (s : World) (this other : Nat) : Except Fault World :=
  match TraversabilityMap3d.clear s this with
  | .ok s1 =>
    match s1.getMap this with
    | .ok t =>
      match s1.getMap other with
      | .ok o =>
        let t1 := (t.setResolution o.resolution).resize o.numCells
        let frames := Function.update s1.frames t1.localMapData (s1.frames o.localMapData)
        match doDeepCopy s1.heap o t1 with
        | .ok (h, t2) => .ok { heap := h, frames := frames, maps := s1.maps.set this t2 }
        | .error e => .error e
      | .error e => .error e
    | .error e => .error e
  | .error e => .error e

/-- The distance `fabs(p->getHeight() - z)` that `getClosestNode` computes for a node. -/
def Heap.dist (h : Heap) (z : ℚ) (p : Nat) : ℚ :=
  match h.lookup p with
  | some n => |n.height - z|
  | none => 0

/-- The copy of a node that the first pass of `doDeepCopy` allocates: the same scalar
fields, no connection. -/
def TraversabilityNodeBase.withoutConnections (n : TraversabilityNodeBase) :
    TraversabilityNodeBase :=
  { n with connections := [] }

/-- The `Index` field of the node a pointer refers to. -/
def Heap.idxOf (h : Heap) (p : Nat) : Option Index :=
  (h.lookup p).map (·.idx)

/-- The connection list of the node a pointer refers to. -/
def Heap.connectionsOf (h : Heap) (p : Nat) : List Nat :=
  match h.lookup p with
  | some n => n.connections
  | none => []

/-- The addresses, counted from `a`, of those nodes of a list whose `Index` field is `i`:
what the first pass of `doDeepCopy` inserts into the cell `i` when the first new node is
allocated at `a`. -/
def cloneAddrs (h : Heap) (i : Index) : Nat → List Nat → List Nat
  | _, [] => []
  | a, p :: ps => (if h.idxOf p = some i then [a] else []) ++ cloneAddrs h i (a + 1) ps

/-- What the second pass of `doDeepCopy` appends to the connection list of the node at `q`
while it walks the nodes `M`. -/
def addedConnections (h : Heap) (f : Nat → Nat) : List Nat → Nat → List Nat
  | [], _ => []
  | p :: ps, q =>
    (if f p = q then (h.connectionsOf p).map f else []) ++ addedConnections h f ps q

/-- What `doDeepCopy h inp out` leaves behind when it returns the heap `h2` and the map
`out2`, with `f` the final table `inToOut`. -/
structure DeepCopied (h : Heap) (inp out : TraversabilityMap3d) (h2 : Heap)
    (out2 : TraversabilityMap3d) (f : Nat → Nat) : Prop where
  live : ∀ p ∈ inp.nodes, ∃ n, h.lookup p = some n ∧ out.inGrid n.idx = true
  length : h2.length = h.length + inp.nodes.length
  old : ∀ x, x ≤ h.length → h2.lookup x = h.lookup x
  new : ∀ k (hk : k < inp.nodes.length),
    h2.lookup (h.length + 1 + k) = (h.lookup (inp.nodes.get ⟨k, hk⟩)).map fun n =>
      { n with connections := addedConnections h f inp.nodes (h.length + 1 + k) }
  numCells : out2.numCells = out.numCells
  resolution : out2.resolution = out.resolution
  localMapData : out2.localMapData = out.localMapData
  ownsNodePointers : out2.ownsNodePointers = out.ownsNodePointers
  cells : ∀ i, out2.cells i = out.cells i ++ cloneAddrs h i (h.length + 1) inp.nodes
  table_out : ∀ q, q ∉ inp.nodes → f q = nullptr
  table_in : ∀ q ∈ inp.nodes, h.length < f q ∧ f q ≤ h.length + inp.nodes.length
  table_nodup : inp.nodes.Nodup →
    ∀ k (hk : k < inp.nodes.length), f (inp.nodes.get ⟨k, hk⟩) = h.length + 1 + k

/-- The map that `operator=` hands to `doDeepCopy` as `out`: the cleared destination with
the resolution and the extents of the source. -/
def assignTarget (this other : TraversabilityMap3d) : TraversabilityMap3d :=
  (this.clearCells.setResolution other.resolution).resize other.numCells

/-- The node at `p'` in the heap `h'` is a fresh copy of the node at `p` in the heap `h`:
`p'` names no node of `h`, and the two nodes agree on height, `Index`, type and
expansion flag. -/
def IsCloneOf (h h' : Heap) (p p' : Nat) : Prop :=
  h.lookup p' = none ∧
    ∃ n n', h.lookup p = some n ∧ h'.lookup p' = some n' ∧ n'.height = n.height ∧
      n'.idx = n.idx ∧ n'.type = n.type ∧ n'.mIsExpanded = n.mIsExpanded

/-- The destination `this` of an assignment can be cleared without harm to the source
`other`: if it owns its nodes, they are live, each is stored once, and none of them is a
node of `other`. -/
def SafeDestination (s : World) (this : Nat) (other : TraversabilityMap3d) : Prop :=
  ∃ t, s.getMap this = .ok t ∧
    (t.ownsNodePointers = true →
      t.nodes.Nodup ∧ ∀ p ∈ t.nodes, s.heap.lookup p ≠ none ∧ p ∉ other.nodes)

/-- Modelled from the spec: `TraversabilityNodeBase::setHeight` (declared in the header,
defined elsewhere) overwrites the height of the node. -/
def setHeight (h : Heap) (p : Nat) (newHeight : ℚ) : Except Fault Heap :=
  match h.deref p with
  | .ok n => h.store p { n with height := newHeight }
  | .error e => .error e

/-- One primitive value in an archive. -/
inductive Field where
  | float (v : ℚ)
  | index (i : Index)
  | type (t : TYPE)
  | bool (b : Bool)
  deriving DecidableEq

/-- The member `TraversabilityNodeBase::serialize` when saving: height, `Index`, type and
expansion flag, in this order; the connections are not written. -/
def TraversabilityNodeBase.serialize (n : TraversabilityNodeBase) : List Field :=
  [.float n.height, .index n.idx, .type n.type, .bool n.mIsExpanded]

/-- The member `TraversabilityNodeBase::serialize` when loading, on a default-constructed
node: the four fields are read in the same order, the node has no connection. -/
def TraversabilityNodeBase.deserialize : List Field → Option TraversabilityNodeBase
  | [.float h, .index i, .type t, .bool b] =>
    some { connections := [], height := h, idx := i, type := t, mIsExpanded := b }
  | _ => none

/-- Modelled from the spec: what the archive library, which the header only calls, holds
for one node pointer.  The node table is made of the `object` records, in the order they
are written; a pointer to a node that is already in the table is written as its position
in the table. -/
inductive PointerRecord where
  | null
  | object (fields : List Field)
  | reference (position : Nat)
  deriving DecidableEq

/-- Modelled from the spec: the persisted layout of a traversability map, as the archive
library and the `serialize` of the base class `MultiLevelGridMap<T>` produce it.  The frame
and the grid geometry, then for each cell in row-major order its entries (which carry the
node table), then the node count, then for each node one record with the node and its
connections (the edge list). -/
structure Archive where
  frame : Transform3d
  numCells : Nat × Nat
  resolution : ℚ × ℚ
  cells : List (List PointerRecord)
  count : Nat
  helpers : List (PointerRecord × List PointerRecord)

/-- Modelled from the spec: the archive library saving one pointer.  `saved` lists the
nodes already in the node table, by position. -/
def savePointer (h : Heap) (saved : List Nat) (p : Nat) :
    Except Fault (List Nat × PointerRecord) :=
  if p = nullptr then .ok (saved, .null)
  else if p ∈ saved then .ok (saved, .reference (saved.indexOf p))
  else
    match h.deref p with
    | .ok n => .ok (saved ++ [p], .object n.serialize)
    | .error e => .error e

/-- Saving a sequence of pointers, one after the other. -/
def savePointers (h : Heap) (saved : List Nat) :
    List Nat → Except Fault (List Nat × List PointerRecord)
  | [] => .ok (saved, [])
  | p :: ps =>
    match savePointer h saved p with
    | .ok r =>
      match savePointers h r.1 ps with
      | .ok r' => .ok (r'.1, r.2 :: r'.2)
      | .error e => .error e
    | .error e => .error e

/-- Modelled from the spec: the `serialize` of the base class `MultiLevelGridMap<T>`
writes, for one cell, its entries. -/
def saveCell (h : Heap) (acc : List Nat × List (List PointerRecord)) (cell : LevelList) :
    Except Fault (List Nat × List (List PointerRecord)) :=
  match savePointers h acc.1 cell with
  | .ok r => .ok (r.1, acc.2 ++ [r.2])
  | .error e => .error e

/-- Body of the last loop of `save`, for one node: a `SerializationHelper` with the node
and its connections is written. -/
def saveHelper (h : Heap) (acc : List Nat × List (PointerRecord × List PointerRecord))
    (node : Nat) : Except Fault (List Nat × List (PointerRecord × List PointerRecord)) :=
  match h.deref node with
  | .ok n =>
    match savePointer h acc.1 node with
    | .ok r =>
      match savePointers h r.1 n.connections with
      | .ok r' => .ok (r'.1, acc.2 ++ [(r.2, r'.2)])
      | .error e => .error e
    | .error e => .error e
  | .error e => .error e

/-- The method `TraversabilityMap3d::save`.  The node count is a `uint64_t`; a heap holds
fewer than `2 ^ 64` nodes. -/
def TraversabilityMap3d.save (s : World) (m : TraversabilityMap3d) : Except Fault Archive :=
  match forEach (fun acc idx => saveCell s.heap acc (m.cells idx)) ([], []) m.indices with
  | .ok base =>
    let size := (m.indices.map fun idx => (m.cells idx).length).sum
    match forEach (fun acc idx => forEach (saveHelper s.heap) acc (m.cells idx))
        (base.1, []) m.indices with
    | .ok r =>
      .ok { frame := s.frames m.localMapData, numCells := m.numCells,
            resolution := m.resolution, cells := base.2, count := size, helpers := r.2 }
    | .error e => .error e
  | .error e => .error e

/-- Modelled from the spec: the archive library loading one pointer.  `loaded` lists the
nodes of the node table that exist already, by position; an `object` record creates the
next one. -/
def loadPointer (h : Heap) (loaded : List Nat) :
    PointerRecord → Except Fault (Heap × List Nat × Nat)
  | .null => .ok (h, loaded, nullptr)
  | .object fields =>
    match TraversabilityNodeBase.deserialize fields with
    | some n =>
      let r := h.alloc n
      .ok (r.1, loaded ++ [r.2], r.2)
    | none => .error .archiveError
  | .reference position =>
    match loaded[position]? with
    | some p => .ok (h, loaded, p)
    | none => .error .archiveError

/-- Loading a sequence of pointers, one after the other. -/
def loadPointers (h : Heap) (loaded : List Nat) :
    List PointerRecord → Except Fault (Heap × List Nat × List Nat)
  | [] => .ok (h, loaded, [])
  | t :: ts =>
    match loadPointer h loaded t with
    | .ok r =>
      match loadPointers r.1 r.2.1 ts with
      | .ok r' => .ok (r'.1, r'.2.1, r.2.2 :: r'.2.2)
      | .error e => .error e
    | .error e => .error e

/-- Modelled from the spec: the `serialize` of the base class `MultiLevelGridMap<T>`
reads the entries of one cell. -/
def loadCell (acc : Heap × List Nat × List LevelList) (cell : List PointerRecord) :
    Except Fault (Heap × List Nat × List LevelList) :=
  match loadPointers acc.1 acc.2.1 cell with
  | .ok r => .ok (r.1, r.2.1, acc.2.2 ++ [r.2.2])
  | .error e => .error e

/-- Modelled from the spec: `TraversabilityNodeBase::addConnection` (declared in the
header, defined elsewhere) appends an edge. -/
def addConnection (h : Heap) (node n : Nat) : Except Fault Heap :=
  pushBack h node n

/-- Body of the loop of `load`: one `SerializationHelper` is read, then its connections
are set back on its node. -/
def loadHelper (acc : Heap × List Nat) (helper : PointerRecord × List PointerRecord) :
    Except Fault (Heap × List Nat) :=
  match loadPointer acc.1 acc.2 helper.1 with
  | .ok r =>
    match loadPointers r.1 r.2.1 helper.2 with
    | .ok r' =>
      match forEach (fun h n => addConnection h r.2.2 n) r'.1 r'.2.2 with
      | .ok h' => .ok (h', r'.2.1)
      | .error e => .error e
    | .error e => .error e
  | .error e => .error e

/-- The cells of a loaded map: the `k`-th list goes to the `k`-th cell in row-major
order. -/
def cellsOfList (indices : List Index) (cells : List LevelList) (idx : Index) : LevelList :=
  ((indices.zip cells).lookup idx).getD []

/-- The method `TraversabilityMap3d::load`, on a newly declared map.  `data` names the
frame data that the archive library allocates for the map.  Reading past the end of the
archive is an error of the archive library. -/
def TraversabilityMap3d.load (s : World) (data : Nat) (ar : Archive) : Except Fault World :=
  let m := TraversabilityMap3d.construct ar.numCells ar.resolution data
  match forEach loadCell (s.heap, [], []) ar.cells with
  | .ok base =>
    if ar.helpers.length < ar.count then .error .archiveError
    else
      match forEach loadHelper (base.1, base.2.1) (ar.helpers.take ar.count) with
      | .ok r =>
        .ok { heap := r.1, frames := Function.update s.frames data ar.frame,
              maps := s.maps ++ [{ m with cells := cellsOfList m.indices base.2.2 }] }
      | .error e => .error e
  | .error e => .error e

/-- The record that `save` writes for a pointer to a live node that is not yet in the
node table. -/
def objectOf (h : Heap) (p : Nat) : PointerRecord :=
  match h.lookup p with
  | some n => .object n.serialize
  | none => .null

/-- The record that `save` writes for a node and its connections once all of them are in
the node table `saved`: positions only. -/
def helperOf (h : Heap) (saved : List Nat) (p : Nat) : PointerRecord × List PointerRecord :=
  (.reference (saved.indexOf p),
    (h.connectionsOf p).map fun q => .reference (saved.indexOf q))

/-- The archive of a map whose nodes are live, each stored once, with all connections
inside the map. -/
def archiveOf (s : World) (m : TraversabilityMap3d) : Archive :=
  { frame := s.frames m.localMapData, numCells := m.numCells, resolution := m.resolution,
    cells := m.indices.map fun i => (m.cells i).map (objectOf s.heap),
    count := m.nodes.length,
    helpers := m.nodes.map (helperOf s.heap m.nodes) }

/-- The address lists that `load` produces for a list of cells when the first node is
allocated at `a`: consecutive addresses, cell after cell. -/
def cellSegments : Nat → List LevelList → List LevelList
  | _, [] => []
  | a, cell :: cells => List.range' a cell.length :: cellSegments (a + cell.length) cells

/-- The nodes at `p` in `h` and at `p'` in `h'` agree on height, `Index`, type and
expansion flag. -/
def SameFields (h h' : Heap) (p p' : Nat) : Prop :=
  ∃ n n', h.lookup p = some n ∧ h'.lookup p' = some n' ∧ n'.height = n.height ∧
    n'.idx = n.idx ∧ n'.type = n.type ∧ n'.mIsExpanded = n.mIsExpanded

/-- Where `load`, started in the state `t`, puts the copy of the node `q` of the map `m`:
the nodes are allocated in the order of the node table. -/
def loadedAt (t : World) (m : TraversabilityMap3d) (q : Nat) : Nat :=
  t.heap.length + 1 + m.nodes.indexOf q

/-- What `save` may write for the pointer `p`: a null, a position in the node table, or
the record of the node itself, which holds the node's height, `Index`, type and expansion
flag, in this order, and nothing else. -/
def WrittenAs (h : Heap) (p : Nat) (r : PointerRecord) : Prop :=
  (p = nullptr ∧ r = .null) ∨ (∃ k, r = .reference k) ∨
    ∃ n, h.lookup p = some n ∧
      r = .object [.float n.height, .index n.idx, .type n.type, .bool n.mIsExpanded]

/-- Whether a pointer record is a node record of its own. -/
def PointerRecord.isObject : PointerRecord → Bool
  | .object _ => true
  | _ => false

/-- Reading one pointer record when the node table holds `n` nodes: the size of the node
table afterwards, or `none` when the archive library cannot read the record (a node record
without the four fields, or a position that no node of the table has). -/
def PointerRecord.readable (n : Nat) : PointerRecord → Option Nat
  | .null => some n
  | .object fields =>
    match TraversabilityNodeBase.deserialize fields with
    | some _ => some (n + 1)
    | none => none
  | .reference position => if position < n then some n else none

/-- Reading a sequence of pointer records, one after the other. -/
def readableRecords : Nat → List PointerRecord → Option Nat
  | n, [] => some n
  | n, r :: rs =>
    match r.readable n with
    | some n' => readableRecords n' rs
    | none => none

/-- Reading one connection record: the node, then its connections.  A record that gives
connections to the null pointer cannot be read back, `addConnection` has no node to act
on. -/
def readableHelper (n : Nat) : PointerRecord × List PointerRecord → Option Nat
  | (.null, _ :: _) => none
  | (node, conns) =>
    match node.readable n with
    | some n' => readableRecords n' conns
    | none => none

/-- Reading a sequence of connection records, one after the other. -/
def readableHelpers : Nat → List (PointerRecord × List PointerRecord) → Option Nat
  | n, [] => some n
  | n, r :: rs =>
    match readableHelper n r with
    | some n' => readableHelpers n' rs
    | none => none

/-- The number of nodes that the cells of an archive hold: the node table as it stands when
the connection records begin. -/
def Archive.cellNodes (ar : Archive) : Nat :=
  (ar.cells.flatten.filter PointerRecord.isObject).length

/-- An archive that `load` can read to its end: the records of the cells, then `count`
connection records, each position naming a node read before it. -/
def Archive.readable (ar : Archive) : Bool :=
  decide (ar.count ≤ ar.helpers.length) &&
    match readableRecords 0 ar.cells.flatten with
    | some n => (readableHelpers n (ar.helpers.take ar.count)).isSome
    | none => false

/-- Every node of the node table is live. -/
def Loaded (h : Heap) (loaded : List Nat) : Prop :=
  ∀ p ∈ loaded, h.lookup p ≠ none

/-- The node table of a load that started on a heap of `b` slots: its nodes are the new
nodes, in the order of their addresses. -/
def Fresh (b : Nat) (h : Heap) (loaded : List Nat) : Prop :=
  h.length = b + loaded.length ∧ loaded = List.range' (b + 1) loaded.length

/-- The heap `h'` continues `h`: no node is lost, the scalar fields of a node stay, and a
connection list is only extended. -/
structure Heap.Grows (h h' : Heap) : Prop where
  length : h.length ≤ h'.length
  keeps : ∀ x n, h.lookup x = some n → ∃ n', h'.lookup x = some n' ∧
    n'.withoutConnections = n.withoutConnections ∧ n.connections <+: n'.connections

/-! ## Program runs -/

/-- The calls a program makes on its maps. -/
inductive Op where
  /-- Declare a map with the constructor `TraversabilityMap3d(num_cells, resolution, data)`. -/
  | construct (numCells : Nat × Nat) (resolution : ℚ × ℚ) (data : Nat)
  /-- The map builder's `m.at(idx).insert(new Node(height, idx))` on the map named `a`. -/
  | insertNew (a : Nat) (height : ℚ) (idx : Index)
  /-- The assignment `this = other`. -/
  | assign (this other : Nat)
  /-- Declare a map initialised with `a.cast<X>()`. -/
  | cast (a : Nat)
  /-- The call `a.clear()`. -/
  | clear (a : Nat)

/-- Modelled from the spec: the constructor `TraversabilityNodeBase(height, idx)` (declared
in the header, defined elsewhere).  A newly created node is `UNSET`, not expanded, and has
no connection. -/
def TraversabilityNodeBase.construct (height : ℚ) (idx : Index) : TraversabilityNodeBase :=
  { connections := [], height := height, idx := idx, type := .UNSET, mIsExpanded := false }

/-- One call of a program. -/
def step (s : World) : Op → Except Fault World
  | .construct numCells resolution data =>
    .ok { s with maps := s.maps ++ [TraversabilityMap3d.construct numCells resolution data] }
  | .insertNew a height idx =>
    match s.getMap a with
    | .ok m =>
      let r := s.heap.alloc (TraversabilityNodeBase.construct height idx)
      match m.insertAt idx r.2 with
      | .ok m' => .ok { s with heap := r.1, maps := s.maps.set a m' }
      | .error e => .error e
    | .error e => .error e
  | .assign this other => operatorAssign s this other
  | .cast a =>
    match s.getMap a with
    | .ok m =>
      match m.cast with
      | .ok out => .ok { s with maps := s.maps ++ [out] }
      | .error e => .error e
    | .error e => .error e
  | .clear a => TraversabilityMap3d.clear s a

/-- A program run: the calls one after the other. -/
def run (s : World) (ops : List Op) : Except Fault World :=
  forEach step s ops

/-- The state of a program before it declares any map. -/
def World.initial : World :=
  { heap := [], frames := fun _ => ⟨[]⟩, maps := [] }

/-- The map named `a` stores the pointer `p` in one of its cells. -/
def World.stores (s : World) (a p : Nat) : Prop :=
  ∃ m, s.getMap a = .ok m ∧ p ∈ m.nodes

/-- The map named `a` stores the pointer `p` and its `ownsNodePointers` flag is true. -/
def World.owns (s : World) (a p : Nat) : Prop :=
  ∃ m, s.getMap a = .ok m ∧ m.ownsNodePointers = true ∧ p ∈ m.nodes

/-- The single-owner invariant: every live node stored in a cell of some map is stored in
exactly one map whose `ownsNodePointers` flag is true. -/
def SingleOwner (s : World) : Prop :=
  ∀ p a, s.heap.lookup p ≠ none → s.stores a p → ∃ o, s.owns o p ∧ ∀ o', s.owns o' p → o' = o

/-- A run that assigns an owning map to an aliasing view of it: declare a map (named 0),
let the builder insert a node into it, declare a view of it with `cast` (named 1), and
assign the map to the view. -/
def leakRun : List Op :=
  [.construct (1, 1) (1, 1) 0, .insertNew 0 0 ⟨0, 0⟩, .cast 0, .assign 1 0]

/-- The state that `leakRun` reaches. -/
def leakWorld : World :=
  match run World.initial leakRun with
  | .ok s => s
  | .error _ => World.initial

/-! ## The ray checker of the voxel traversal test -/

/-- Modelled from the spec: `RayElement`, declared in the included header
`VoxelTraversal.hpp`: one (x, y) column of a ray and the run of voxels, from `z_first` to
`z_last`, that the ray visits in it.  The members are of type `int`. -/
structure RayElement where
  idx : Index
  z_first : Int
  z_last : Int
  deriving DecidableEq

/-- The least value of type `int`. -/
def INT_MIN : Int := -2147483648

/-- The largest value of type `int`. -/
def INT_MAX : Int := 2147483647

/-- The sum of two `int`s.  A sum outside the range of `int` is undefined behaviour: no
value. -/
def addInt (a b : Int) : Option Int :=
  if INT_MIN ≤ a + b ∧ a + b ≤ INT_MAX then some (a + b) else none

/-- The type `Eigen::Vector3i`: three `int`s. -/
structure Vector3i where
  x : Int
  y : Int
  z : Int
  deriving DecidableEq

/-- The sum of two `Eigen::Vector3i`, component by component. -/
def Vector3i.add (a b : Vector3i) : Option Vector3i :=
  match addInt a.x b.x, addInt a.y b.y, addInt a.z b.z with
  | some x, some y, some z => some ⟨x, y, z⟩
  | _, _, _ => none

/-- The operator `||`: the right operand is evaluated only when the left one is false. -/
def shortCircuitOr (a : Option Bool) (b : Unit → Option Bool) : Option Bool :=
  match a with
  | some true => some true
  | some false => b ()
  | none => none

/-- One operand of the disjunction in `checkRayElements`: the call
`checkRayElements(ray_start + 1, ray_end, new_idx + step)`, where `check` is the check of
the rest of the ray. -/
def tryStep (check : Vector3i → Option Bool) (new_idx step : Vector3i) : Option Bool :=
  match new_idx.add step with
  | some next_idx => check next_idx
  | none => none

/-- The function `checkRayElements` of `test_voxel_traversal.cpp`, on the elements from
`ray_start` to `ray_end`. -/
def checkRayElements : List RayElement → Vector3i → Option Bool
  | [], _ => some true
  | e :: rest, next_idx =>
    if next_idx.x ≠ e.idx.x then some false
    else if next_idx.y ≠ e.idx.y then some false
    else if next_idx.z ≠ e.z_first then some false
    else
      let new_idx : Vector3i := ⟨next_idx.x, next_idx.y, e.z_last⟩
      shortCircuitOr (tryStep (checkRayElements rest) new_idx ⟨1, 0, 0⟩) fun _ =>
        shortCircuitOr (tryStep (checkRayElements rest) new_idx ⟨0, 1, 0⟩) fun _ =>
          shortCircuitOr (tryStep (checkRayElements rest) new_idx ⟨-1, 0, 0⟩) fun _ =>
            tryStep (checkRayElements rest) new_idx ⟨0, -1, 0⟩

/-- The function `checkRay` of `test_voxel_traversal.cpp`. -/
def checkRay (ray : List RayElement) : Option Bool :=
  match ray with
  | [] => some false
  | front :: _ => checkRayElements ray ⟨front.idx.x, front.idx.y, front.z_first⟩

/-- The adjacency of two consecutive ray elements, in the words of the specification: the
column of `q` is the column of `p` moved by +1 or -1 in exactly one of x or y, and
`q.z_first` equals `p.z_last`. -/
def Adjacent (p q : RayElement) : Prop :=
  ((q.idx.x = p.idx.x + 1 ∧ q.idx.y = p.idx.y) ∨ (q.idx.x = p.idx.x - 1 ∧ q.idx.y = p.idx.y) ∨
    (q.idx.x = p.idx.x ∧ q.idx.y = p.idx.y + 1) ∨ (q.idx.x = p.idx.x ∧ q.idx.y = p.idx.y - 1)) ∧
  q.z_first = p.z_last

instance (p q : RayElement) : Decidable (Adjacent p q) := by
  show Decidable (_ ∧ _)
  infer_instance

/-- The column of the element has a neighbour of type `int` on every side, and the end of
its run is an `int`: no step of `checkRayElements` from it overflows. -/
def RayElement.InRange (e : RayElement) : Prop :=
  INT_MIN < e.idx.x ∧ e.idx.x < INT_MAX ∧ INT_MIN < e.idx.y ∧ e.idx.y < INT_MAX ∧
    INT_MIN ≤ e.z_last ∧ e.z_last ≤ INT_MAX

instance (e : RayElement) : Decidable e.InRange := by
  show Decidable (_ ∧ _)
  infer_instance

/-- What `checkRayElements` decides for the elements that are left and the voxel
`next_idx` it expects next: the first element, if there is one, is in the column of
`next_idx` and starts at its height, and the elements are adjacent from there on. -/
def Follows (next_idx : Vector3i) : List RayElement → Prop
  | [] => True
  | e :: rest =>
    (next_idx.x = e.idx.x ∧ next_idx.y = e.idx.y ∧ next_idx.z = e.z_first) ∧
      List.Chain' Adjacent (e :: rest)

/-! ## Voxel traversal -/

/-- Modelled from the spec: what `computeRay` of the included header `VoxelTraversal.hpp`
tracks for one axis: the signed step direction, the value of the ray parameter at which
the ray next crosses a voxel boundary on this axis (none when the ray never does), and the
increase of the parameter from one boundary to the next.  The ray parameter runs from 0 at
the origin to 1 at the measurement. -/
structure RayAxis where
  step : Int
  tMax : Option ℚ
  tDelta : ℚ

/-- Modelled from the spec: the state of an axis at the origin of the ray, in
`computeRay` of the included header `VoxelTraversal.hpp`: the first boundary is the face
of the origin cell that the ray moves towards. -/
def RayAxis.init (resolution origin origin_center measurement : ℚ) : RayAxis :=
  let direction := measurement - origin
  if 0 < direction then
    { step := 1, tMax := some ((origin_center + resolution / 2 - origin) / direction),
      tDelta := resolution / direction }
  else if direction < 0 then
    { step := -1, tMax := some ((origin_center - resolution / 2 - origin) / direction),
      tDelta := resolution / -direction }
  else { step := 0, tMax := none, tDelta := 0 }

/-- The axis after the ray has crossed its next boundary. -/
def RayAxis.advance (a : RayAxis) : RayAxis :=
  { a with tMax := a.tMax.map (· + a.tDelta) }

/-- The upcoming boundary of `a` is at least as near as that of `b`. -/
def RayAxis.before (a b : RayAxis) : Bool :=
  match a.tMax, b.tMax with
  | some s, some t => decide (s ≤ t)
  | some _, none => true
  | none, _ => false

/-- The three axes. -/
inductive AxisName where
  | x
  | y
  | z
  deriving DecidableEq

/-- Modelled from the spec: the axis with the nearest upcoming boundary, in `computeRay`
of the included header `VoxelTraversal.hpp`; on a tie x goes before y and y before z. -/
def nearestAxis (ax ay az : RayAxis) : Option AxisName :=
  if ax.before ay && ax.before az then some .x
  else if ay.before az then some .y
  else if az.tMax.isSome then some .z
  else none

/-- The state of the traversal: the current voxel, the three axes, the elements that are
finished, and the element of the current column. -/
structure RayState where
  idx : Vector3i
  ax : RayAxis
  ay : RayAxis
  az : RayAxis
  ray : List RayElement
  current : RayElement

/-- Modelled from the spec: one step of `computeRay` of the included header
`VoxelTraversal.hpp`: advance along the axis with the nearest upcoming boundary; a step in
z is folded into the run of the current element, a step in x or y starts a new element at
the current height. -/
def rayStep (s : RayState) : Option RayState :=
  match nearestAxis s.ax s.ay s.az with
  | some .x =>
    some { idx := ⟨s.idx.x + s.ax.step, s.idx.y, s.idx.z⟩, ax := s.ax.advance, ay := s.ay,
           az := s.az, ray := s.ray ++ [s.current],
           current := ⟨⟨s.idx.x + s.ax.step, s.idx.y⟩, s.idx.z, s.idx.z⟩ }
  | some .y =>
    some { idx := ⟨s.idx.x, s.idx.y + s.ay.step, s.idx.z⟩, ax := s.ax, ay := s.ay.advance,
           az := s.az, ray := s.ray ++ [s.current],
           current := ⟨⟨s.idx.x, s.idx.y + s.ay.step⟩, s.idx.z, s.idx.z⟩ }
  | some .z =>
    some { idx := ⟨s.idx.x, s.idx.y, s.idx.z + s.az.step⟩, ax := s.ax, ay := s.ay,
           az := s.az.advance, ray := s.ray,
           current := { s.current with z_last := s.idx.z + s.az.step } }
  | none => none

/-- Modelled from the spec: the loop of `computeRay` of the included header
`VoxelTraversal.hpp`; it stops in the cell of the measurement, or when no boundary is
ahead, or after `fuel` steps, and returns what it has. -/
def rayLoop (measurement_idx : Vector3i) : Nat → RayState → List RayElement
  | 0, s => s.ray ++ [s.current]
  | fuel + 1, s =>
    if s.idx = measurement_idx then s.ray ++ [s.current]
    else
      match rayStep s with
      | some s' => rayLoop measurement_idx fuel s'
      | none => s.ray ++ [s.current]

/-- Modelled from the spec: `VoxelTraversal::computeRay` of the included header
`VoxelTraversal.hpp`, the incremental boundary-crossing traversal from the cell of the
origin to the cell of the measurement, in exact arithmetic.  A ray between two cells
crosses as many voxel boundaries as the cells are steps apart, and the traversal takes no
more steps than that. -/
def computeRay (resolution origin : Vector3d) (origin_idx : Vector3i)
    (origin_center measurement : Vector3d) (measurement_idx : Vector3i) : List RayElement :=
  rayLoop measurement_idx
    ((measurement_idx.x - origin_idx.x).natAbs + (measurement_idx.y - origin_idx.y).natAbs +
      (measurement_idx.z - origin_idx.z).natAbs)
    { idx := origin_idx,
      ax := RayAxis.init resolution.x origin.x origin_center.x measurement.x,
      ay := RayAxis.init resolution.y origin.y origin_center.y measurement.y,
      az := RayAxis.init resolution.z origin.z origin_center.z measurement.z,
      ray := [],
      current := ⟨⟨origin_idx.x, origin_idx.y⟩, origin_idx.z, origin_idx.z⟩ }

/-- The step direction of an axis that has a boundary ahead is +1 or -1. -/
def RayAxis.Valid (a : RayAxis) : Prop :=
  a.tMax.isSome = true → a.step = 1 ∨ a.step = -1

/-- What the loop of `computeRay` keeps true: the elements so far are adjacent, the current
element is in the column of the current voxel and its run ends at the height of the
current voxel, and the axes x and y are valid. -/
structure RayState.Inv (s : RayState) : Prop where
  chain : List.Chain' Adjacent (s.ray ++ [s.current])
  column : s.current.idx = ⟨s.idx.x, s.idx.y⟩
  height : s.current.z_last = s.idx.z
  validX : s.ax.Valid
  validY : s.ay.Valid

/-! ## Local maps and their frame data -/

/-- Modelled from the spec: the frame data `LocalMapData` of the included header
`LocalMap.hpp`: the identifier string, the offset transform, the map-type tag and the
coordinate-reference tag. -/
structure LocalMapData where
  id : String
  offset : Transform3d
  map_type : Nat
  EPSG_code : String

/-- The frame data objects of a program run.  A `boost::shared_ptr<LocalMapData>` is the
position of its object in this list; an object lives as long as a holder refers to it, so
no position is ever removed. -/
abbrev DataStore := List LocalMapData

/-- Modelled from the spec: the class `LocalMap` of the included header `LocalMap.hpp`
holds its frame data by reference. -/
structure LocalMap where
  data_ptr : Nat
  deriving DecidableEq

namespace LocalMap

/-- Modelled from the spec: the constructor `LocalMap(data)` of the included header
`LocalMap.hpp` keeps the shared pointer it is given: the new map holds the very frame data
object `data` refers to. -/
def ofData (data : Nat) : LocalMap :=
  { data_ptr := data }

/-- Modelled from the spec: reading `getId()` of the included header `LocalMap.hpp` yields
the identifier of the frame data the map holds. -/
def getId (store : DataStore) (m : LocalMap) : Option String :=
  (store[m.data_ptr]?).map (·.id)

/-- Modelled from the spec: reading `getOffset()` of the included header `LocalMap.hpp`
yields the offset of the frame data the map holds. -/
def getOffset (store : DataStore) (m : LocalMap) : Option Transform3d :=
  (store[m.data_ptr]?).map (·.offset)

/-- Modelled from the spec: the statement `m.getId() = id`; `getId()` of the included
header `LocalMap.hpp` returns a reference into the frame data the map holds. -/
def setId (store : DataStore) (m : LocalMap) (id : String) : Option DataStore :=
  match store[m.data_ptr]? with
  | some d => some (store.set m.data_ptr { d with id := id })
  | none => none

/-- Modelled from the spec: the statement `m.getOffset() = offset`; `getOffset()` of the
included header `LocalMap.hpp` returns a reference into the frame data the map holds. -/
def setOffset (store : DataStore) (m : LocalMap) (offset : Transform3d) : Option DataStore :=
  match store[m.data_ptr]? with
  | some d => some (store.set m.data_ptr { d with offset := offset })
  | none => none

end LocalMap

/-! ## Grid storage -/

/-- An index is in bounds of the extents `n` iff both components lie in `[0, n)`. -/
def inBounds (n : Nat × Nat) (idx : Index) : Bool :=
  decide (0 ≤ idx.x) && decide (idx.x < (n.1 : Int)) &&
    decide (0 ≤ idx.y) && decide (idx.y < (n.2 : Int))

/-- The position of a cell in a flat array of the extents `n`, row after row. -/
def flatPosition (n : Nat × Nat) (idx : Index) : Nat :=
  idx.y.toNat * n.1 + idx.x.toNat

/-- The index of the cell at a position of a flat array of the extents `n`. -/
def flatIndex (n : Nat × Nat) (pos : Nat) : Index :=
  { x := Int.ofNat (pos % n.1), y := Int.ofNat (pos / n.1) }

/-- The extents that an `Index` names as a new number of cells. -/
def extentsOf (new_number_cells : Index) : Nat × Nat :=
  (new_number_cells.x.toNat, new_number_cells.y.toNat)

/-- The index that is `idx` cells further than `j`. -/
def Index.shift (j idx : Index) : Index :=
  { x := j.x + idx.x, y := j.y + idx.y }

/-- Modelled from the spec: the dense backend of `GridCellAccessInterface`, the class
`GridCell` that `test_serialization.cpp` uses and whose header is only included: the
extents, the default value, and a flat array with one value per cell in row-major
order. -/
structure GridCell (α : Type) where
  num_cells : Nat × Nat
  default_value : α
  cells : List α

/-- Modelled from the spec: the sparse backend of `GridCellAccessInterface`, whose header
is not among the sources: the extents, the default value, and the cells that are
populated; a cell is allocated when it is first written. -/
structure SparseGrid (α : Type) where
  num_cells : Nat × Nat
  default_value : α
  cells : Index → Option α

/-- The operations of `GridCellAccessInterface` that change a storage. -/
inductive GridOp (α : Type) where
  /-- The statement `storage.at(idx) = v`. -/
  | write (idx : Index) (v : α)
  /-- The call `storage.clear()`. -/
  | clear
  /-- The call `storage.resize(new_number_cells)`. -/
  | resize (new_number_cells : Index)
  /-- The call `storage.moveBy(idx)`. -/
  | moveBy (idx : Index)

namespace GridCell

/-- Modelled from the spec: the constructor `GridCell(num_cells, default_value)` of the
included header `GridCell.hpp`; a newly created cell holds the default value. -/
def construct {α : Type} (num_cells : Nat × Nat) (default_value : α) : GridCell α :=
  { num_cells := num_cells, default_value := default_value,
    cells := List.replicate (num_cells.1 * num_cells.2) default_value }

/-- Modelled from the spec: `at` of the included header `GridCell.hpp`, read access; it
checks the index against `getNumCells()`. -/
def cellAt {α : Type} (g : GridCell α) (idx : Index) : Except Fault α :=
  if inBounds g.num_cells idx then
    match g.cells[flatPosition g.num_cells idx]? with
    | some v => .ok v
    | none => .error .outOfRange
  else .error .outOfRange

/-- Modelled from the spec: `at` of the included header `GridCell.hpp`, write access: the
statement `storage.at(idx) = v`. -/
def setAt {α : Type} (g : GridCell α) (idx : Index) (v : α) : Except Fault (GridCell α) :=
  if inBounds g.num_cells idx then
    .ok { g with cells := g.cells.set (flatPosition g.num_cells idx) v }
  else .error .outOfRange

/-- Modelled from the spec: `clear` of the included header `GridCell.hpp` empties every
cell to the default state. -/
def clear {α : Type} (g : GridCell α) : GridCell α :=
  { g with cells := List.replicate (g.num_cells.1 * g.num_cells.2) g.default_value }

/-- A new array of the extents `n` in which the cell `j` holds what the cell `source j` of
`g` holds, and the default value when `source j` is no cell of `g`. -/
def relocate {α : Type} (g : GridCell α) (n : Nat × Nat) (source : Index → Index) :
    GridCell α :=
  { num_cells := n, default_value := g.default_value,
    cells := (List.range (n.1 * n.2)).map fun pos =>
      if inBounds g.num_cells (source (flatIndex n pos)) then
        (g.cells[flatPosition g.num_cells (source (flatIndex n pos))]?).getD g.default_value
      else g.default_value }

/-- Modelled from the spec: `resize` of the included header `GridCell.hpp` changes the
extents, preserves the overlapping region and discards the rest; the positions in the
array are those of the new extents. -/
def resize {α : Type} (g : GridCell α) (new_number_cells : Index) : GridCell α :=
  g.relocate (extentsOf new_number_cells) id

/-- Modelled from the spec: `moveBy` of the included header `GridCell.hpp` shifts the
addressable window by `idx`: the cell that was at `j + idx` is at `j`, and a cell that
comes into view holds the default value. -/
def moveBy {α : Type} (g : GridCell α) (idx : Index) : GridCell α :=
  g.relocate g.num_cells fun j => j.shift idx

/-- One operation on a dense storage. -/
def step {α : Type} (g : GridCell α) : GridOp α → Except Fault (GridCell α)
  | .write idx v => g.setAt idx v
  | .clear => .ok g.clear
  | .resize new_number_cells => .ok (g.resize new_number_cells)
  | .moveBy idx => .ok (g.moveBy idx)

end GridCell

namespace SparseGrid

/-- Modelled from the spec: the constructor of the sparse backend; no cell is
populated. -/
def construct {α : Type} (num_cells : Nat × Nat) (default_value : α) : SparseGrid α :=
  { num_cells := num_cells, default_value := default_value, cells := fun _ => none }

/-- Modelled from the spec: `at` of the sparse backend, read access; it checks the index
against `getNumCells()`, and a cell that is not populated reads as the default value. -/
def cellAt {α : Type} (g : SparseGrid α) (idx : Index) : Except Fault α :=
  if inBounds g.num_cells idx then .ok ((g.cells idx).getD g.default_value)
  else .error .outOfRange

/-- Modelled from the spec: `at` of the sparse backend, write access: the statement
`storage.at(idx) = v` populates the cell. -/
def setAt {α : Type} (g : SparseGrid α) (idx : Index) (v : α) : Except Fault (SparseGrid α) :=
  if inBounds g.num_cells idx then
    .ok { g with cells := fun j => if j = idx then some v else g.cells j }
  else .error .outOfRange

/-- Modelled from the spec: `clear` of the sparse backend empties every cell to the
default state. -/
def clear {α : Type} (g : SparseGrid α) : SparseGrid α :=
  { g with cells := fun _ => none }

/-- Modelled from the spec: `resize` of the sparse backend changes the extents, preserves
the overlapping region and discards the rest. -/
def resize {α : Type} (g : SparseGrid α) (new_number_cells : Index) : SparseGrid α :=
  { g with num_cells := extentsOf new_number_cells,
           cells := fun j => if inBounds g.num_cells j then g.cells j else none }

/-- Modelled from the spec: `moveBy` of the sparse backend shifts the addressable window
by `idx`: the cell that was at `j + idx` is at `j`, and a cell that comes into view is not
populated. -/
def moveBy {α : Type} (g : SparseGrid α) (idx : Index) : SparseGrid α :=
  { g with cells := fun j =>
      if inBounds g.num_cells (j.shift idx) then g.cells (j.shift idx) else none }

/-- One operation on a sparse storage. -/
def step {α : Type} (g : SparseGrid α) : GridOp α → Except Fault (SparseGrid α)
  | .write idx v => g.setAt idx v
  | .clear => .ok g.clear
  | .resize new_number_cells => .ok (g.resize new_number_cells)
  | .moveBy idx => .ok (g.moveBy idx)

end SparseGrid

/-- The two backends of `GridCellAccessInterface`. -/
inductive Backend where
  | dense
  | sparse
  deriving DecidableEq

/-- A grid storage: an object of one of the two backends. -/
inductive GridStorage (α : Type) where
  | dense (g : GridCell α)
  | sparse (g : SparseGrid α)

namespace GridStorage

/-- A newly constructed storage of the given backend. -/
def construct {α : Type} (b : Backend) (num_cells : Nat × Nat) (default_value : α) :
    GridStorage α :=
  match b with
  | .dense => .dense (GridCell.construct num_cells default_value)
  | .sparse => .sparse (SparseGrid.construct num_cells default_value)

/-- The method `getDefaultValue` of `GridCellAccessInterface`. -/
def getDefaultValue {α : Type} : GridStorage α → α
  | .dense g => g.default_value
  | .sparse g => g.default_value

/-- The method `getNumCells` of `GridCellAccessInterface`. -/
def getNumCells {α : Type} : GridStorage α → Nat × Nat
  | .dense g => g.num_cells
  | .sparse g => g.num_cells

/-- The method `at` of `GridCellAccessInterface`, read access. -/
def cellAt {α : Type} : GridStorage α → Index → Except Fault α
  | .dense g, idx => g.cellAt idx
  | .sparse g, idx => g.cellAt idx

/-- One operation on a storage. -/
def step {α : Type} : GridStorage α → GridOp α → Except Fault (GridStorage α)
  | .dense g, op =>
    match g.step op with
    | .ok g' => .ok (.dense g')
    | .error e => .error e
  | .sparse g, op =>
    match g.step op with
    | .ok g' => .ok (.sparse g')
    | .error e => .error e

/-- A sequence of operations, from left to right. -/
def run {α : Type} (g : GridStorage α) (ops : List (GridOp α)) :
    Except Fault (GridStorage α) :=
  forEach step g ops

end GridStorage

/-- The effect of one operation on whether a write has named the cell `idx`. -/
def GridOp.markWritten {α : Type} (idx : Index) (w : Bool) : GridOp α → Bool
  | .write i _ => w || decide (i = idx)
  | .clear => false
  | .resize _ => w
  | .moveBy _ => w

/-- Whether a sequence of operations, applied to a newly constructed storage, has written
the cell `idx` with `at` since construction or since its last `clear`. -/
def GridOp.written {α : Type} (idx : Index) (ops : List (GridOp α)) : Bool :=
  ops.foldl (GridOp.markWritten idx) false

/-- The effect of one operation on the set of touched cells: a write touches its cell, a
`clear` leaves no cell touched, and `moveBy` carries the touched cells along with the
content. -/
def GridOp.touch {α : Type} (touched : Index → Bool) : GridOp α → Index → Bool
  | .write i _ => fun j => touched j || decide (i = j)
  | .clear => fun _ => false
  | .resize _ => touched
  | .moveBy idx => fun j => touched (j.shift idx)

/-- The cells that a sequence of operations, applied to a newly constructed storage, has
touched since construction or since the last `clear`: those a write has named, and those
onto which `moveBy` has shifted a touched cell. -/
def GridOp.touched {α : Type} (ops : List (GridOp α)) : Index → Bool :=
  ops.foldl GridOp.touch fun _ => false

/-- Whether an operation is a call of `moveBy`. -/
def GridOp.isMoveBy {α : Type} : GridOp α → Bool
  | .moveBy _ => true
  | _ => false

/-- What a run keeps true of a dense storage with the default value `d`: the array has
one entry per cell, and every cell in bounds that is not touched holds `d`. -/
structure GridCell.Inv {α : Type} (d : α) (g : GridCell α) (touched : Index → Bool) :
    Prop where
  default : g.default_value = d
  length : g.cells.length = g.num_cells.1 * g.num_cells.2
  cell : ∀ j, inBounds g.num_cells j = true → touched j = false →
    g.cells[flatPosition g.num_cells j]? = some d

/-- What a run keeps true of a sparse storage with the default value `d`: every cell that
is not touched reads as `d`. -/
structure SparseGrid.Inv {α : Type} (d : α) (g : SparseGrid α) (touched : Index → Bool) :
    Prop where
  default : g.default_value = d
  cell : ∀ j, touched j = false → (g.cells j).getD d = d

/-- What a run keeps true of a storage of either backend. -/
def GridStorage.Inv {α : Type} (d : α) : GridStorage α → (Index → Bool) → Prop
  | .dense g, touched => g.Inv d touched
  | .sparse g, touched => g.Inv d touched

/-! ## The visualization of MLS maps -/

/-- The option members of the class `MLSMapVisualization` of `viz/MLSMapVisualization.cpp`
(the colours and the data pointer play no part in the setters below).  The signal
`propertyChanged` and the dirty mark belong to the plugin base class of the library
`vizkit3d`: `emitted` records the names the signal was emitted with, in order, and no slot
is run. -/
structure MLSMapVisualization where
  showUncertainty : Bool
  showNegative : Bool
  estimateNormals : Bool
  showNormals : Bool
  cycleHeightColor : Bool
  cycleColorInterval : ℚ
  showPatchExtents : Bool
  uncertaintyScale : ℚ
  emitted : List String
  dirty : Bool

namespace MLSMapVisualization

/-- The constructor `MLSMapVisualization::MLSMapVisualization`. -/
def construct : MLSMapVisualization :=
  { showUncertainty := false, showNegative := false, estimateNormals := false,
    showNormals := false, cycleHeightColor := true, cycleColorInterval := 1,
    showPatchExtents := false, uncertaintyScale := 1, emitted := [], dirty := false }

/-- The statement `emit propertyChanged(name)`. -/
def propertyChanged (s : MLSMapVisualization) (name : String) : MLSMapVisualization :=
  { s with emitted := s.emitted ++ [name] }

/-- The call `setDirty()`. -/
def setDirty (s : MLSMapVisualization) : MLSMapVisualization :=
  { s with dirty := true }

/-- The getter `isUncertaintyShown`. -/
def isUncertaintyShown (s : MLSMapVisualization) : Bool :=
  s.showUncertainty

/-- The getter `areNormalsShown`. -/
def areNormalsShown (s : MLSMapVisualization) : Bool :=
  s.showNormals

/-- The getter `arePatchExtentsShown`. -/
def arePatchExtentsShown (s : MLSMapVisualization) : Bool :=
  s.showPatchExtents

mutual

/-- The setter `MLSMapVisualization::setShowUncertainty`. -/
def setShowUncertainty (enabled : Bool) (s : MLSMapVisualization) : MLSMapVisualization :=
  let s1 := { s with showUncertainty := enabled }
  let s2 :=
    if _h : (enabled && (s1.arePatchExtentsShown || s1.areNormalsShown)) = true then
      setShowNormals false (setShowPatchExtents false s1)
    else s1
  (s2.propertyChanged "show_uncertainty").setDirty
termination_by enabled.toNat
decreasing_by
  all_goals simp_all

/-- The setter `MLSMapVisualization::setShowNormals`. -/
def setShowNormals (enabled : Bool) (s : MLSMapVisualization) : MLSMapVisualization :=
  let s1 := { s with showNormals := enabled }
  let s2 :=
    if _h : (enabled && (s1.arePatchExtentsShown || s1.isUncertaintyShown)) = true then
      setShowUncertainty false (setShowPatchExtents false s1)
    else s1
  (s2.propertyChanged "show_normals").setDirty
termination_by enabled.toNat
decreasing_by
  all_goals simp_all

/-- The setter `MLSMapVisualization::setShowPatchExtents`. -/
def setShowPatchExtents (value : Bool) (s : MLSMapVisualization) : MLSMapVisualization :=
  let s1 := { s with showPatchExtents := value }
  let s2 :=
    if _h : (value && (s1.areNormalsShown || s1.isUncertaintyShown)) = true then
      setShowUncertainty false (setShowNormals false s1)
    else s1
  (s2.propertyChanged "show_patch_extents").setDirty
termination_by value.toNat
decreasing_by
  all_goals simp_all

end

end MLSMapVisualization

/-- A call of one of the three overlay setters. -/
inductive SetterCall where
  | setShowUncertainty (enabled : Bool)
  | setShowNormals (enabled : Bool)
  | setShowPatchExtents (value : Bool)

/-- One setter call on a visualization. -/
def MLSMapVisualization.call (s : MLSMapVisualization) : SetterCall → MLSMapVisualization
  | .setShowUncertainty enabled => s.setShowUncertainty enabled
  | .setShowNormals enabled => s.setShowNormals enabled
  | .setShowPatchExtents value => s.setShowPatchExtents value

/-- A sequence of setter calls, from left to right. -/
def MLSMapVisualization.calls (s : MLSMapVisualization) (l : List SetterCall) :
    MLSMapVisualization :=
  l.foldl MLSMapVisualization.call s

/-- At most one of the flags `showUncertainty`, `showNormals` and `showPatchExtents` is
true. -/
def MLSMapVisualization.AtMostOneOverlay (s : MLSMapVisualization) : Prop :=
  s.showUncertainty.toNat + s.showNormals.toNat + s.showPatchExtents.toNat ≤ 1

instance (s : MLSMapVisualization) : Decidable s.AtMostOneOverlay := by
  show Decidable (_ ≤ _)
  infer_instance

/-- Body of the loop over the voxel cells of one column in
`DataHold::visualizeNegativeInformation`.  `cell_it` is an entry of the tree of the column:
the z-index and the log-odds of the voxel cell.  The vector `free_cells` is a list whose
last entry is `back()`; the increment `back().second++` yields the sum that the test
before it has computed. -/
def DataHold.free_cells_step (free_space_logodds : ℚ) (free_cells : List (Int × Int))
    (cell_it : Int × ℚ) : Option (List (Int × Int)) :=
  if cell_it.2 < free_space_logodds then
    match free_cells.getLast? with
    | none => some (free_cells ++ [(cell_it.1, cell_it.1)])
    | some back =>
      match addInt back.2 1 with
      | some next =>
        if next ≠ cell_it.1 then some (free_cells ++ [(cell_it.1, cell_it.1)])
        else some (free_cells.dropLast ++ [(back.1, next)])
      | none => none
  else some free_cells

/-- The loop over the voxel cells of one column in
`DataHold::visualizeNegativeInformation`, on the entries that are left. -/
def DataHold.free_cells_loop (free_space_logodds : ℚ) :
    List (Int × Int) → List (Int × ℚ) → Option (List (Int × Int))
  | free_cells, [] => some free_cells
  | free_cells, cell_it :: rest =>
    match DataHold.free_cells_step free_space_logodds free_cells cell_it with
    | some free_cells' => DataHold.free_cells_loop free_space_logodds free_cells' rest
    | none => none

/-- The vector `free_cells` that `DataHold::visualizeNegativeInformation` builds for one
column; `tree` lists the entries of the tree of the column in the order of iteration. -/
def DataHold.free_cells (free_space_logodds : ℚ) (tree : List (Int × ℚ)) :
    Option (List (Int × Int)) :=
  DataHold.free_cells_loop free_space_logodds [] tree

/-- What the loop over a column keeps true of the pairs `runs` built from the entries
`seen`: each pair is a range, the ranges cover exactly the z-indices of the entries whose
log-odds are below the threshold, each pair starts more than one above the end of the pair
before it, and the end of each pair is the z-index of an entry. -/
structure FreeRuns (thr : ℚ) (seen : List (Int × ℚ)) (runs : List (Int × Int)) : Prop where
  le : ∀ p ∈ runs, p.1 ≤ p.2
  cover : ∀ z : Int, (∃ p ∈ runs, p.1 ≤ z ∧ z ≤ p.2) ↔ ∃ c ∈ seen, c.1 = z ∧ c.2 < thr
  gap : List.Chain' (fun p q : Int × Int => p.2 + 1 < q.1) runs
  last : ∀ p ∈ runs, ∃ c ∈ seen, c.1 = p.2

/-! ## Sample data -/

/-- Three nodes of one column, at heights 0, 2 and 5. -/
def columnHeap : Heap :=
  [some { connections := [2], height := 0, idx := ⟨0, 0⟩, type := .TRAVERSABLE,
          mIsExpanded := false },
   some { connections := [1, 3], height := 2, idx := ⟨0, 0⟩, type := .TRAVERSABLE,
          mIsExpanded := true },
   some { connections := [2], height := 5, idx := ⟨0, 0⟩, type := .OBSTACLE,
          mIsExpanded := false }]

/-- A map of one cell that holds the three nodes of `columnHeap` and owns them. -/
def columnMap : TraversabilityMap3d :=
  { numCells := (1, 1), resolution := (1, 1), localMapData := 0,
    cells := fun i => if i = ⟨0, 0⟩ then [1, 2, 3] else [], ownsNodePointers := true }

/-- The owning map `columnMap` (named 0) and an aliasing view of it (named 1). -/
def columnWorld : World :=
  { heap := columnHeap, frames := fun _ => ⟨[]⟩,
    maps := [columnMap, columnMap.setMapOwnsNodePointers false] }

/-- A projection that sends every position to the cell `(0, 0)`. -/
def projectOrigin : Vector3d → Option Index := fun _ => some ⟨0, 0⟩

/-- One node at height 0. -/
def groundHeap : Heap :=
  [some { connections := [], height := 0, idx := ⟨0, 0⟩, type := .TRAVERSABLE,
          mIsExpanded := false }]

/-- A map of one cell that holds the node of `groundHeap`. -/
def groundMap : TraversabilityMap3d :=
  { numCells := (1, 1), resolution := (1, 1), localMapData := 0,
    cells := fun i => if i = ⟨0, 0⟩ then [1] else [], ownsNodePointers := true }

/-- Five nodes a, b, c, d, e in a line, joined a-b, b-c, c-d, d-e in both directions,
with the cross edge a-d; the node at address `k + 1` belongs to the cell `(k, 0)`. -/
def lineHeap : Heap :=
  [some ⟨[2, 4], 0, ⟨0, 0⟩, .TRAVERSABLE, true⟩,
   some ⟨[1, 3], 1 / 2, ⟨1, 0⟩, .TRAVERSABLE, true⟩,
   some ⟨[2, 4], 1, ⟨2, 0⟩, .TRAVERSABLE, false⟩,
   some ⟨[3, 5, 1], 3 / 2, ⟨3, 0⟩, .FRONTIER, false⟩,
   some ⟨[4], 2, ⟨4, 0⟩, .OBSTACLE, false⟩]

/-- The cells of the map that holds the five nodes of `lineHeap`. -/
def lineCells (i : Index) : LevelList :=
  if i = ⟨0, 0⟩ then [1]
  else if i = ⟨1, 0⟩ then [2]
  else if i = ⟨2, 0⟩ then [3]
  else if i = ⟨3, 0⟩ then [4]
  else if i = ⟨4, 0⟩ then [5]
  else []

/-- A map of five cells in a row that holds the five nodes of `lineHeap` and owns them. -/
def lineMap : TraversabilityMap3d :=
  { numCells := (5, 1), resolution := (1 / 10, 1 / 10), localMapData := 0,
    cells := lineCells, ownsNodePointers := true }

/-- The map `lineMap` (named 0) and a default-constructed map (named 1). -/
def lineWorld : World :=
  { heap := lineHeap, frames := fun _ => ⟨[]⟩,
    maps := [lineMap, TraversabilityMap3d.construct (0, 0) (1, 1) 1] }

/-- Three nodes.  The node at address 1 carries the `Index` `(1, 0)` and the connections
`[2, 3]`; the node at address 3 carries no connection. -/
def strayHeap : Heap :=
  [some ⟨[2, 3], 0, ⟨1, 0⟩, .TRAVERSABLE, false⟩,
   some ⟨[1], 1, ⟨1, 0⟩, .TRAVERSABLE, true⟩,
   some ⟨[], 2, ⟨0, 0⟩, .OBSTACLE, false⟩]

/-- A map of two cells in a row over `strayHeap`: the cell `(0, 0)` stores the node at
address 1, whose own `Index` is `(1, 0)`, the cell `(1, 0)` stores the node at address 2,
and no cell stores the node at address 3, the second connection of the node at address 1. -/
def strayMap : TraversabilityMap3d :=
  { numCells := (2, 1), resolution := (1, 1), localMapData := 0,
    cells := fun i => if i = ⟨0, 0⟩ then [1] else if i = ⟨1, 0⟩ then [2] else [],
    ownsNodePointers := true }

/-- The map `strayMap` (named 0) and a default-constructed map (named 1). -/
def strayWorld : World :=
  { heap := strayHeap, frames := fun _ => ⟨[]⟩,
    maps := [strayMap, TraversabilityMap3d.construct (0, 0) (1, 1) 1] }

/-- What `save` writes for `strayMap` in `strayWorld`: two cells with one node each, and
two connection records; the second connection of the first node is written as the record
of a third node, which no cell holds. -/
def strayArchive : Archive :=
  { frame := ⟨[]⟩, numCells := (2, 1), resolution := (1, 1),
    cells := [[.object [.float 0, .index ⟨1, 0⟩, .type .TRAVERSABLE, .bool false]],
              [.object [.float 1, .index ⟨1, 0⟩, .type .TRAVERSABLE, .bool true]]],
    count := 2,
    helpers := [(.reference 0,
                  [.reference 1, .object [.float 2, .index ⟨0, 0⟩, .type .OBSTACLE, .bool false]]),
                (.reference 1, [.reference 0])] }

/-- The cells of `strayArchive` with one connection record: the edge to a node that no
cell holds, followed by an edge to the position 7, which no node has. -/
def danglingArchive : Archive :=
  { strayArchive with
    count := 1,
    helpers := [(.reference 0,
                  [.object [.float 2, .index ⟨0, 0⟩, .type .OBSTACLE, .bool false],
                   .reference 7])] }

/-- A ray of three elements: one step in x, then one step in y, with touching runs. -/
def sampleRay : List RayElement :=
  [⟨⟨0, 0⟩, 0, 2⟩, ⟨⟨1, 0⟩, 2, 3⟩, ⟨⟨1, 1⟩, 3, 3⟩]

/-- A ray whose second element lies diagonally from the first. -/
def diagonalRay : List RayElement :=
  [⟨⟨0, 0⟩, 0, 2⟩, ⟨⟨1, 1⟩, 2, 3⟩]

/-- One frame data object, as `test_local_map_constuctor` sets it up. -/
def sampleStore : DataStore :=
  [{ id := "local_map_data", offset := ⟨[1, 0, 0, 0]⟩, map_type := 0, EPSG_code := "" }]

/-- The operations of `test_gridcell_serialization` on its storage of 2 x 3 cells, with a
write, a `clear` and a `resize` to the same extents added in front. -/
def sampleOps : List (GridOp ℚ) :=
  [.write ⟨1, 2⟩ 7, .clear, .resize ⟨2, 3⟩, .write ⟨0, 0⟩ 0, .write ⟨1, 1⟩ 1]

/-- A write to the middle cell of a row of three cells, then a shift of the window by one
cell. -/
def shiftOps : List (GridOp ℚ) :=
  [.write ⟨1, 0⟩ 7, .moveBy ⟨1, 0⟩]

/-- The voxel cells of one column, by z-index, with their log-odds. -/
def sampleColumn : List (Int × ℚ) :=
  [(-1, -2), (0, -1), (1, 3), (2, -5), (4, -1), (5, -1)]

/-! ## Loops -/

theorem forEach_append {σ α : Type} (f : σ → α → Except Fault σ) (s : σ) (l₁ l₂ : List α) :
    forEach f s (l₁ ++ l₂) =
      match forEach f s l₁ with
      | .ok s' => forEach f s' l₂
      | .error e => .error e := by
  induction l₁ generalizing s with
  | nil => rfl
  | cons a as ih =>
    simp only [List.cons_append, forEach]
    cases f s a with
    | ok s' => exact ih s'
    | error e => rfl

theorem forEach_flatMap {σ α β : Type} (f : σ → β → Except Fault σ) (F : α → List β) (s : σ)
    (l : List α) :
    forEach (fun s' a => forEach f s' (F a)) s l = forEach f s (l.flatMap F) := by
  induction l generalizing s with
  | nil => rfl
  | cons a as ih =>
    simp only [forEach, List.flatMap_cons, forEach_append]
    cases forEach f s (F a) with
    | ok s' => exact ih s'
    | error e => rfl

theorem forEach_map {σ α β : Type} (f : σ → β → Except Fault σ) (g : α → β) (s : σ)
    (l : List α) :
    forEach (fun s' a => f s' (g a)) s l = forEach f s (l.map g) := by
  induction l generalizing s with
  | nil => rfl
  | cons a as ih =>
    simp only [forEach, List.map_cons]
    cases f s (g a) with
    | ok s' => exact ih s'
    | error e => rfl

/-! ## The heap -/

theorem Heap.lookup_succ (h : Heap) (k : Nat) : h.lookup (k + 1) = h[k]?.join := rfl

theorem Heap.lookup_le_length {h : Heap} {p : Nat} {n : TraversabilityNodeBase}
    (hp : h.lookup p = some n) : 0 < p ∧ p ≤ h.length := by
  cases p with
  | zero => simp [Heap.lookup] at hp
  | succ k =>
    refine ⟨Nat.succ_pos k, ?_⟩
    by_contra hlt
    have hk : h.length ≤ k := Nat.le_of_lt_succ (Nat.lt_of_not_le hlt)
    simp [Heap.lookup, List.getElem?_eq_none hk] at hp

theorem Heap.lookup_append_left (h t : Heap) {p : Nat} (hp : p ≤ h.length) :
    Heap.lookup (h ++ t) p = h.lookup p := by
  cases p with
  | zero => rfl
  | succ k =>
    have hk : k < h.length := hp
    simp [Heap.lookup, List.getElem?_append_left hk]

theorem Heap.lookup_append_right (h t : Heap) (k : Nat) :
    Heap.lookup (h ++ t) (h.length + 1 + k) = t[k]?.join := by
  have : h.length + 1 + k = (h.length + k) + 1 := by omega
  rw [this, Heap.lookup_succ]
  simp [List.getElem?_append_right]

theorem Heap.lookup_gt_length {h : Heap} {p : Nat} (hp : h.length < p) : h.lookup p = none := by
  cases hq : h.lookup p with
  | none => rfl
  | some n => exact absurd (Heap.lookup_le_length hq).2 (Nat.not_le_of_lt hp)

theorem Heap.lookup_set (h : Heap) (k : Nat) (v : Option TraversabilityNodeBase) (p : Nat) :
    Heap.lookup (h.set k v) p =
      if p = k + 1 ∧ k < h.length then v else h.lookup p := by
  cases p with
  | zero => simp [Heap.lookup]
  | succ j =>
    simp only [Heap.lookup, List.getElem?_set, Nat.add_right_cancel_iff]
    by_cases hkj : k = j
    · subst hkj
      by_cases hk : k < h.length
      · simp [hk]
      · simp [hk, List.getElem?_eq_none (Nat.le_of_not_lt hk)]
    · have hjk : ¬ j = k := fun e => hkj e.symm
      simp [hkj, hjk]

/-! ## The grid -/

theorem TraversabilityMap3d.mem_indices (m : TraversabilityMap3d) (idx : Index) :
    idx ∈ m.indices ↔ m.inGrid idx = true := by
  simp only [TraversabilityMap3d.indices, List.mem_flatMap, List.mem_range, List.mem_map,
    TraversabilityMap3d.inGrid, Bool.and_eq_true, decide_eq_true_eq, Int.ofNat_eq_coe]
  constructor
  · rintro ⟨y, hy, x, hx, rfl⟩
    simp only [Int.ofNat_lt, hx, hy, and_true]
    omega
  · rintro ⟨⟨⟨hx0, hx⟩, hy0⟩, hy⟩
    refine ⟨idx.y.toNat, by omega, idx.x.toNat, by omega, ?_⟩
    cases idx with
    | mk x y =>
      simp only [Index.mk.injEq]
      simp only at hx0 hy0
      constructor <;> omega

theorem TraversabilityMap3d.nodup_indices (m : TraversabilityMap3d) : m.indices.Nodup := by
  simp only [TraversabilityMap3d.indices]
  rw [List.nodup_flatMap]
  refine ⟨fun y _ => ?_, ?_⟩
  · refine (List.nodup_range _).map ?_
    intro x₁ x₂ hx
    simpa using hx
  · refine (List.nodup_range _).pairwise_of_forall_ne ?_
    intro y₁ _ y₂ _ hne
    simp only [Function.onFun, List.disjoint_left, List.mem_map, List.mem_range]
    rintro i ⟨x₁, _, rfl⟩ ⟨x₂, _, h⟩
    simp only [Index.mk.injEq, Int.ofNat_eq_coe, Int.ofNat_inj] at h
    exact hne h.2.symm

theorem TraversabilityMap3d.setCell_setCell (m : TraversabilityMap3d) (idx : Index)
    (l₁ l₂ : LevelList) : (m.setCell idx l₁).setCell idx l₂ = m.setCell idx l₂ := by
  simp only [TraversabilityMap3d.setCell, TraversabilityMap3d.mk.injEq, true_and, and_true]
  funext i
  by_cases hi : i = idx <;> simp [hi]

theorem TraversabilityMap3d.insertAt_inGrid {m : TraversabilityMap3d} {idx : Index}
    (hin : m.inGrid idx = true) (p : Nat) :
    m.insertAt idx p = .ok (m.setCell idx (m.cells idx ++ [p])) := by
  simp [TraversabilityMap3d.insertAt, TraversabilityMap3d.cellAt, hin, LevelList.insert]

theorem TraversabilityMap3d.insertAt_ok {m out : TraversabilityMap3d} {idx : Index} {p : Nat}
    (h : m.insertAt idx p = .ok out) :
    m.inGrid idx = true ∧ out = m.setCell idx (m.cells idx ++ [p]) := by
  by_cases hin : m.inGrid idx = true
  · rw [TraversabilityMap3d.insertAt_inGrid hin] at h
    exact ⟨hin, (Except.ok.inj h).symm⟩
  · simp [TraversabilityMap3d.insertAt, TraversabilityMap3d.cellAt, hin] at h

/-! ## `cast` -/

theorem forEach_insertAt (out : TraversabilityMap3d) (idx : Index)
    (hin : out.inGrid idx = true) (l : LevelList) :
    forEach (fun o p => o.insertAt idx p) out l = .ok (out.setCell idx (out.cells idx ++ l)) := by
  induction l generalizing out with
  | nil =>
    simp only [forEach, List.append_nil]
    congr 1
    cases out with
    | mk nc res data cells owns =>
      simp only [TraversabilityMap3d.setCell, TraversabilityMap3d.mk.injEq, true_and, and_true]
      funext i
      by_cases hi : i = idx <;> simp [hi]
  | cons p ps ih =>
    simp only [forEach, TraversabilityMap3d.insertAt_inGrid hin]
    rw [ih _ (by simpa [TraversabilityMap3d.setCell, TraversabilityMap3d.inGrid] using hin)]
    rw [TraversabilityMap3d.setCell_setCell]
    simp [TraversabilityMap3d.setCell]

theorem forEach_castCell (m : TraversabilityMap3d) (I : List Index) (hI : I.Nodup)
    (out : TraversabilityMap3d) (hnum : out.numCells = m.numCells)
    (hgrid : ∀ i ∈ I, m.inGrid i = true) :
    ∃ o, forEach (fun o idx => castCell m idx o) out I = .ok o ∧
      o.numCells = out.numCells ∧ o.resolution = out.resolution ∧
      o.localMapData = out.localMapData ∧ o.ownsNodePointers = out.ownsNodePointers ∧
      ∀ i, o.cells i = if i ∈ I then out.cells i ++ m.cells i else out.cells i := by
  induction I generalizing out with
  | nil => exact ⟨out, rfl, rfl, rfl, rfl, rfl, fun i => by simp⟩
  | cons idx I ih =>
    have hin : m.inGrid idx = true := hgrid idx (List.mem_cons_self _ _)
    have hout : out.inGrid idx = true := by
      simpa [TraversabilityMap3d.inGrid, hnum] using hin
    have hstep : castCell m idx out = .ok (out.setCell idx (out.cells idx ++ m.cells idx)) := by
      simp only [castCell, TraversabilityMap3d.cellAt, hin, if_true]
      exact forEach_insertAt out idx hout _
    obtain ⟨o, ho, h1, h2, h3, h4, h5⟩ :=
      ih (List.nodup_cons.mp hI).2 (out.setCell idx (out.cells idx ++ m.cells idx)) hnum
        (fun i hi => hgrid i (List.mem_cons_of_mem _ hi))
    refine ⟨o, ?_, h1, h2, h3, h4, fun i => ?_⟩
    · simp only [forEach, hstep]
      exact ho
    · rw [h5 i]
      have hnot : idx ∉ I := (List.nodup_cons.mp hI).1
      by_cases hi : i = idx
      · subst hi
        simp [hnot, TraversabilityMap3d.setCell]
      · simp [hi, TraversabilityMap3d.setCell]

theorem TraversabilityMap3d.cast_loops (m out : TraversabilityMap3d) :
    forEach (fun o (y : Nat) =>
      forEach (fun o (x : Nat) => castCell m { x := Int.ofNat x, y := Int.ofNat y } o) o
        (List.range m.numCells.1)) out (List.range m.numCells.2) =
      forEach (fun o idx => castCell m idx o) out m.indices := by
  have hinner : ∀ (y : Nat) (o : TraversabilityMap3d),
      forEach (fun o (x : Nat) => castCell m { x := Int.ofNat x, y := Int.ofNat y } o) o
        (List.range m.numCells.1) =
      forEach (fun o idx => castCell m idx o) o
        ((List.range m.numCells.1).map fun (x : Nat) =>
          ({ x := Int.ofNat x, y := Int.ofNat y } : Index)) := fun y o =>
    forEach_map (fun o idx => castCell m idx o) _ o _
  simp only [hinner]
  exact forEach_flatMap (fun o idx => castCell m idx o) _ out _

/-- C6: `cast` completes for every map and yields a map with the same number of cells,
resolution and frame data, whose cell at every index is the cell of the source (the same
pointers, no node is created or copied) and whose `ownsNodePointers` flag is false. -/
theorem cast_is_non_owning_alias (m : TraversabilityMap3d) :
    ∃ out, m.cast = .ok out ∧ out.numCells = m.numCells ∧ out.resolution = m.resolution ∧
      out.localMapData = m.localMapData ∧ (∀ idx, out.cellAt idx = m.cellAt idx) ∧
      out.nodes = m.nodes ∧ out.ownsNodePointers = false := by
  obtain ⟨o, ho, h1, h2, h3, _, h5⟩ :=
    forEach_castCell m m.indices m.nodup_indices
      (TraversabilityMap3d.construct m.numCells m.resolution m.localMapData) rfl
      (fun i hi => (m.mem_indices i).mp hi)
  have hcells : ∀ idx, m.inGrid idx = true → o.cells idx = m.cells idx := by
    intro idx hin
    rw [h5 idx]
    simp [(m.mem_indices idx).mpr hin, TraversabilityMap3d.construct]
  have hnum : o.numCells = m.numCells := h1
  refine ⟨o.setMapOwnsNodePointers false, ?_, h1, h2, h3, ?_, ?_, rfl⟩
  · simp only [TraversabilityMap3d.cast, TraversabilityMap3d.cast_loops, ho]
  · intro idx
    simp only [TraversabilityMap3d.cellAt, TraversabilityMap3d.setMapOwnsNodePointers,
      TraversabilityMap3d.inGrid, hnum]
    by_cases hin : m.inGrid idx = true
    · have := hcells idx hin
      simp only [TraversabilityMap3d.inGrid] at hin
      simp [hin, this]
    · simp only [TraversabilityMap3d.inGrid] at hin
      simp [hin]
  · simp only [TraversabilityMap3d.nodes, TraversabilityMap3d.indices,
      TraversabilityMap3d.setMapOwnsNodePointers, hnum]
    have := fun i hi => hcells i ((m.mem_indices i).mp hi)
    simp only [TraversabilityMap3d.indices] at this
    exact List.flatMap_congr this

/-! ## `clear` -/

theorem Heap.delete_ok {h h' : Heap} {p : Nat} (hd : h.delete p = .ok h') :
    h'.length = h.length ∧ h'.lookup p = none ∧ ∀ q, q ≠ p → h'.lookup q = h.lookup q := by
  cases p with
  | zero =>
    have : h' = h := (Except.ok.inj hd).symm
    subst this
    exact ⟨rfl, rfl, fun _ _ => rfl⟩
  | succ k =>
    simp only [Heap.delete] at hd
    cases hl : h.lookup (k + 1) with
    | none => simp [hl] at hd
    | some n =>
      simp only [hl] at hd
      have : h' = h.set k none := (Except.ok.inj hd).symm
      subst this
      have hk : k < h.length := (Heap.lookup_le_length hl).2
      refine ⟨by simp, by simp [Heap.lookup_set, hk], fun q hq => ?_⟩
      simp [Heap.lookup_set, hq]

theorem Heap.delete_live {h : Heap} {p : Nat} (hp : h.lookup p ≠ none) :
    ∃ h', h.delete p = .ok h' := by
  cases p with
  | zero => exact ⟨h, rfl⟩
  | succ k =>
    cases hl : h.lookup (k + 1) with
    | none => exact absurd hl hp
    | some n => exact ⟨h.set k none, by simp [Heap.delete, hl]⟩

theorem forEach_delete_ok {ps : List Nat} {h h' : Heap} (hd : forEach Heap.delete h ps = .ok h') :
    h'.length = h.length ∧ (∀ p ∈ ps, h'.lookup p = none) ∧
      (∀ q, q ∉ ps → h'.lookup q = h.lookup q) ∧
      ∀ q n, h'.lookup q = some n → h.lookup q = some n := by
  induction ps generalizing h with
  | nil =>
    have : h' = h := (Except.ok.inj hd).symm
    subst this
    exact ⟨rfl, fun _ hp => absurd hp (List.not_mem_nil _), fun _ _ => rfl, fun _ _ hq => hq⟩
  | cons p ps ih =>
    simp only [forEach] at hd
    cases h1eq : h.delete p with
    | error e => simp [h1eq] at hd
    | ok h1 =>
      simp only [h1eq] at hd
      obtain ⟨hlen, hnone, hframe, hsub⟩ := ih hd
      obtain ⟨hlen1, hnone1, hframe1⟩ := Heap.delete_ok h1eq
      have hsub1 : ∀ q n, h1.lookup q = some n → h.lookup q = some n := by
        intro q n hq
        by_cases hqp : q = p
        · subst hqp
          rw [hnone1] at hq
          exact absurd hq (by simp)
        · rw [← hframe1 q hqp]
          exact hq
      refine ⟨hlen.trans hlen1, ?_, ?_, fun q n hq => hsub1 q n (hsub q n hq)⟩
      · intro q hq
        rcases List.mem_cons.mp hq with rfl | hq'
        · cases hl : h'.lookup q with
          | none => rfl
          | some n =>
            have := hsub q n hl
            rw [hnone1] at this
            exact absurd this (by simp)
        · exact hnone q hq'
      · intro q hq
        have hqp : q ≠ p := fun e => hq (e ▸ List.mem_cons_self _ _)
        have hq' : q ∉ ps := fun e => hq (List.mem_cons_of_mem _ e)
        rw [hframe q hq', hframe1 q hqp]

theorem forEach_delete_was_live {ps : List Nat} {h h' : Heap}
    (hd : forEach Heap.delete h ps = .ok h') :
    ∀ p ∈ ps, p ≠ nullptr → h.lookup p ≠ none := by
  induction ps generalizing h with
  | nil => exact fun _ hp => absurd hp (List.not_mem_nil _)
  | cons q qs ih =>
    simp only [forEach] at hd
    cases h1eq : h.delete q with
    | error e => simp [h1eq] at hd
    | ok h1 =>
      simp only [h1eq] at hd
      intro p hp hp0
      rcases List.mem_cons.mp hp with rfl | hp'
      · cases p with
        | zero => exact absurd rfl hp0
        | succ k =>
          intro hnone
          simp [Heap.delete, hnone] at h1eq
      · obtain ⟨n, hn⟩ := Option.ne_none_iff_exists'.mp (ih hd p hp' hp0)
        by_cases hpq : p = q
        · subst hpq
          rw [(Heap.delete_ok h1eq).2.1] at hn
          exact absurd hn (by simp)
        · rw [(Heap.delete_ok h1eq).2.2 p hpq] at hn
          simp [hn]

theorem forEach_delete_live {ps : List Nat} (hnd : ps.Nodup) {h : Heap}
    (hlive : ∀ p ∈ ps, h.lookup p ≠ none) : ∃ h', forEach Heap.delete h ps = .ok h' := by
  induction ps generalizing h with
  | nil => exact ⟨h, rfl⟩
  | cons p ps ih =>
    obtain ⟨h1, h1eq⟩ := Heap.delete_live (hlive p (List.mem_cons_self _ _))
    obtain ⟨hnot, hnd'⟩ := List.nodup_cons.mp hnd
    have hlive1 : ∀ q ∈ ps, h1.lookup q ≠ none := by
      intro q hq
      have hqp : q ≠ p := fun e => hnot (e ▸ hq)
      rw [(Heap.delete_ok h1eq).2.2 q hqp]
      exact hlive q (List.mem_cons_of_mem _ hq)
    obtain ⟨h', hh'⟩ := ih hnd' hlive1
    exact ⟨h', by simp only [forEach, h1eq, hh']⟩

theorem forEach_clearStep (I : List Index) (hI : I.Nodup) (h : Heap) (m : TraversabilityMap3d) :
    forEach clearStep (h, m) I =
      match forEach Heap.delete h (I.flatMap m.cells) with
      | .ok h' => .ok (h', { m with cells := fun i => if i ∈ I then [] else m.cells i })
      | .error e => .error e := by
  induction I generalizing h m with
  | nil => simp [forEach]
  | cons idx I ih =>
    obtain ⟨hnot, hI'⟩ := List.nodup_cons.mp hI
    simp only [forEach, clearStep, List.flatMap_cons, forEach_append]
    cases forEach Heap.delete h (m.cells idx) with
    | error e => rfl
    | ok h1 =>
      simp only []
      rw [ih hI']
      have hcells : I.flatMap (m.setCell idx []).cells = I.flatMap m.cells := by
        refine List.flatMap_congr fun i hi => ?_
        have : i ≠ idx := fun e => hnot (e ▸ hi)
        simp [TraversabilityMap3d.setCell, this]
      rw [hcells]
      cases forEach Heap.delete h1 (I.flatMap m.cells) with
      | error e => rfl
      | ok h2 =>
        simp only [TraversabilityMap3d.setCell, Except.ok.injEq, Prod.mk.injEq, true_and,
          TraversabilityMap3d.mk.injEq, and_true]
        funext i
        by_cases hi : i = idx
        · simp [hi]
        · simp [hi]

theorem TraversabilityMap3d.clear_eq {s : World} {a : Nat} {m : TraversabilityMap3d}
    (hm : s.getMap a = .ok m) :
    TraversabilityMap3d.clear s a =
      match (if m.ownsNodePointers then forEach Heap.delete s.heap m.nodes else .ok s.heap) with
      | .ok h' => .ok { heap := h', frames := s.frames, maps := s.maps.set a m.clearCells }
      | .error e => .error e := by
  simp only [TraversabilityMap3d.clear, hm]
  by_cases hown : m.ownsNodePointers = true
  · rw [if_pos hown, if_pos hown, forEach_clearStep m.indices m.nodup_indices,
      TraversabilityMap3d.nodes]
    cases forEach Heap.delete s.heap (m.indices.flatMap m.cells) with
    | error e => rfl
    | ok h' => rfl
  · rw [if_neg hown, if_neg hown]

theorem World.getMap_ok {s : World} {a : Nat} {m : TraversabilityMap3d}
    (hm : s.getMap a = .ok m) : s.maps[a]? = some m := by
  simp only [World.getMap] at hm
  cases hg : s.maps[a]? with
  | none => simp [hg] at hm
  | some m' =>
    simp only [hg] at hm
    rw [Except.ok.inj hm]

theorem World.getMap_of_get? {s : World} {a : Nat} {m : TraversabilityMap3d}
    (hm : s.maps[a]? = some m) : s.getMap a = .ok m := by
  simp [World.getMap, hm]

theorem World.getMap_set_self {s : World} {a : Nat} {m : TraversabilityMap3d} (h : Heap)
    (f : Nat → Transform3d) (hm : s.getMap a = .ok m) (m' : TraversabilityMap3d) :
    World.getMap { heap := h, frames := f, maps := s.maps.set a m' } a = .ok m' := by
  have hlt : a < s.maps.length := by
    exact (List.getElem?_eq_some_iff.mp (World.getMap_ok hm)).1
  simp [World.getMap, List.getElem?_set, hlt]

theorem World.getMap_set_ne (s : World) {a b : Nat} (hab : b ≠ a) (h : Heap)
    (f : Nat → Transform3d) (m' : TraversabilityMap3d) :
    World.getMap { heap := h, frames := f, maps := s.maps.set a m' } b = s.getMap b := by
  have : ¬ a = b := fun e => hab e.symm
  simp [World.getMap, List.getElem?_set, this]

/-- C7: clearing (or destroying, the destructor only calls `clear`) a map whose
`ownsNodePointers` flag is false completes and deallocates nothing: the heap is the same,
so every node keeps its fields and connections, every other map is unchanged, and every
cell of the cleared map is empty. -/
theorem clear_non_owning_keeps_nodes (s : World) (a : Nat) (m : TraversabilityMap3d)
    (hm : s.getMap a = .ok m) (hown : m.ownsNodePointers = false) :
    ∃ s', TraversabilityMap3d.clear s a = .ok s' ∧ s'.heap = s.heap ∧
      s'.frames = s.frames ∧ (∀ b, b ≠ a → s'.getMap b = s.getMap b) ∧
      ∃ m', s'.getMap a = .ok m' ∧ (∀ idx, m'.cells idx = []) ∧
        m'.numCells = m.numCells ∧ m'.ownsNodePointers = false := by
  refine ⟨{ heap := s.heap, frames := s.frames, maps := s.maps.set a m.clearCells }, ?_, rfl, rfl,
    fun b hb => World.getMap_set_ne s hb _ _ _, m.clearCells,
    World.getMap_set_self _ _ hm _, fun _ => rfl, rfl, hown⟩
  rw [TraversabilityMap3d.clear_eq hm]
  simp [hown]

theorem clear_non_owning_keeps_nodes_witness :
    columnWorld.getMap 1 = .ok (columnMap.setMapOwnsNodePointers false) ∧
    ∃ s', TraversabilityMap3d.clear columnWorld 1 = .ok s' ∧ s'.heap = columnWorld.heap ∧
      s'.frames = columnWorld.frames ∧ (∀ b, b ≠ 1 → s'.getMap b = columnWorld.getMap b) ∧
      ∃ m', s'.getMap 1 = .ok m' ∧ (∀ idx, m'.cells idx = []) ∧
        m'.numCells = (columnMap.setMapOwnsNodePointers false).numCells ∧
        m'.ownsNodePointers = false :=
  ⟨rfl, clear_non_owning_keeps_nodes columnWorld 1 _ rfl rfl⟩

/-- C8: clearing a map whose `ownsNodePointers` flag is true frees everything.  Whenever
`clear` completes, every pointer that was stored in a cell of the map referred to a live
node before (or was null) and refers to no live node any more, nodes stored nowhere in the
map are untouched, and every cell of the map is empty.  It does complete when the stored
pointers are live nodes, each stored once. -/
theorem clear_owning_frees_all (s : World) (a : Nat) (m : TraversabilityMap3d)
    (hm : s.getMap a = .ok m) (hown : m.ownsNodePointers = true) :
    (∀ s', TraversabilityMap3d.clear s a = .ok s' →
      (∀ p ∈ m.nodes, p ≠ nullptr → s.heap.lookup p ≠ none) ∧
      (∀ p ∈ m.nodes, s'.heap.lookup p = none) ∧
      (∀ q, q ∉ m.nodes → s'.heap.lookup q = s.heap.lookup q) ∧
      ∃ m', s'.getMap a = .ok m' ∧ ∀ idx, m'.cells idx = []) ∧
    ((∀ p ∈ m.nodes, s.heap.lookup p ≠ none) → m.nodes.Nodup →
      ∃ s', TraversabilityMap3d.clear s a = .ok s') := by
  rw [TraversabilityMap3d.clear_eq hm, if_pos hown]
  constructor
  · intro s' hs'
    cases hd : forEach Heap.delete s.heap m.nodes with
    | error e => simp [hd] at hs'
    | ok h' =>
      simp only [hd] at hs'
      have := Except.ok.inj hs'
      subst this
      obtain ⟨_, hnone, hframe, _⟩ := forEach_delete_ok hd
      exact ⟨forEach_delete_was_live hd, hnone, hframe, m.clearCells,
        World.getMap_set_self _ _ hm _, fun _ => rfl⟩
  · intro hlive hnd
    obtain ⟨h', hh'⟩ := forEach_delete_live hnd hlive
    exact ⟨{ heap := h', frames := s.frames, maps := s.maps.set a m.clearCells },
      by simp only [hh']⟩

theorem clear_owning_frees_all_witness :
    columnWorld.getMap 0 = .ok columnMap ∧
    (∀ s', TraversabilityMap3d.clear columnWorld 0 = .ok s' →
      (∀ p ∈ columnMap.nodes, p ≠ nullptr → columnWorld.heap.lookup p ≠ none) ∧
      (∀ p ∈ columnMap.nodes, s'.heap.lookup p = none) ∧
      (∀ q, q ∉ columnMap.nodes → s'.heap.lookup q = columnWorld.heap.lookup q) ∧
      ∃ m', s'.getMap 0 = .ok m' ∧ ∀ idx, m'.cells idx = []) ∧
    (∃ s', TraversabilityMap3d.clear columnWorld 0 = .ok s') ∧
    ∃ s', TraversabilityMap3d.clear columnWorld 0 = .ok s' ∧ s'.heap = [none, none, none] :=
  ⟨rfl, (clear_owning_frees_all columnWorld 0 columnMap rfl rfl).1,
    (clear_owning_frees_all columnWorld 0 columnMap rfl rfl).2 (by decide) (by decide),
    _, rfl, rfl⟩

/-! ## `getClosestNode` -/

theorem TraversabilityMap3d.toGrid_some {m : TraversabilityMap3d}
    {project : Vector3d → Option Index} {pos : Vector3d} {idx : Index}
    (hg : m.toGrid project pos = some idx) : m.cellAt idx = .ok (m.cells idx) := by
  simp only [TraversabilityMap3d.toGrid] at hg
  cases hp : project pos with
  | none => simp [hp] at hg
  | some i =>
    simp only [hp] at hg
    by_cases hin : m.inGrid i = true
    · simp only [hin, if_true, Option.some.injEq] at hg
      subst hg
      simp [TraversabilityMap3d.cellAt, hin]
    · simp [hin] at hg

/-- C5: `getClosestNode` returns `nullptr`, and raises nothing, for every position that
`toGrid` cannot map to an index and for every position whose mapped cell holds no node. -/
theorem getClosestNode_nullptr (m : TraversabilityMap3d) (project : Vector3d → Option Index)
    (h : Heap) (pos : Vector3d)
    (hc : m.toGrid project pos = none ∨
      ∃ idx, m.toGrid project pos = some idx ∧ m.cellAt idx = .ok []) :
    m.getClosestNode project h pos = .ok nullptr := by
  rcases hc with hnone | ⟨idx, hsome, hcell⟩
  · simp [TraversabilityMap3d.getClosestNode, hnone]
  · simp [TraversabilityMap3d.getClosestNode, hsome, hcell, forEach]

theorem getClosestNode_nullptr_witness :
    (columnMap.toGrid (fun _ => none) ⟨0, 0, 0⟩ = none ∧
      columnMap.getClosestNode (fun _ => none) columnHeap ⟨0, 0, 0⟩ = .ok nullptr) ∧
    (columnMap.clearCells.toGrid projectOrigin ⟨0, 0, 0⟩ = some ⟨0, 0⟩ ∧
      columnMap.clearCells.cellAt ⟨0, 0⟩ = .ok [] ∧
      columnMap.clearCells.getClosestNode projectOrigin columnHeap ⟨0, 0, 0⟩ = .ok nullptr) :=
  ⟨⟨rfl, getClosestNode_nullptr _ _ _ _ (Or.inl rfl)⟩,
   ⟨rfl, rfl, getClosestNode_nullptr _ _ _ _ (Or.inr ⟨⟨0, 0⟩, rfl, rfl⟩)⟩⟩

theorem closestStep_live {h : Heap} {z : ℚ} {p : Nat} {n : TraversabilityNodeBase}
    (hp : h.lookup p = some n) (acc : ℚ × Nat) :
    closestStep h z acc p = .ok (if h.dist z p < acc.1 then (h.dist z p, p) else acc) := by
  simp only [closestStep, Heap.deref, Heap.dist, hp]
  by_cases hlt : |n.height - z| < acc.1 <;> simp [hlt]

theorem forEach_closestStep (h : Heap) (z : ℚ) (l : List Nat) (acc : ℚ × Nat)
    (hlive : ∀ p ∈ l, h.lookup p ≠ none) :
    ∃ r, forEach (closestStep h z) acc l = .ok r ∧ r.1 ≤ acc.1 ∧
      (∀ p ∈ l, r.1 ≤ h.dist z p) ∧
      (r = acc ∨ (r.2 ∈ l ∧ r.1 = h.dist z r.2 ∧ r.1 < acc.1)) := by
  induction l generalizing acc with
  | nil => exact ⟨acc, rfl, le_refl _, fun _ hp => absurd hp (List.not_mem_nil _), Or.inl rfl⟩
  | cons p ps ih =>
    obtain ⟨n, hn⟩ := Option.ne_none_iff_exists'.mp (hlive p (List.mem_cons_self _ _))
    have hlive' : ∀ q ∈ ps, h.lookup q ≠ none := fun q hq => hlive q (List.mem_cons_of_mem _ hq)
    simp only [forEach, closestStep_live hn]
    by_cases hlt : h.dist z p < acc.1
    · simp only [hlt, if_true]
      obtain ⟨r, hr, hle, hmin, hcase⟩ := ih (h.dist z p, p) hlive'
      refine ⟨r, hr, le_trans hle (le_of_lt hlt), ?_, Or.inr ?_⟩
      · intro q hq
        rcases List.mem_cons.mp hq with rfl | hq'
        · exact hle
        · exact hmin q hq'
      · rcases hcase with rfl | ⟨hmem, hd, hlt'⟩
        · exact ⟨List.mem_cons_self _ _, rfl, hlt⟩
        · exact ⟨List.mem_cons_of_mem _ hmem, hd, lt_trans hlt' hlt⟩
    · simp only [hlt, if_false]
      obtain ⟨r, hr, hle, hmin, hcase⟩ := ih acc hlive'
      refine ⟨r, hr, hle, ?_, ?_⟩
      · intro q hq
        rcases List.mem_cons.mp hq with rfl | hq'
        · exact le_trans hle (not_lt.mp hlt)
        · exact hmin q hq'
      · rcases hcase with rfl | ⟨hmem, hd, hlt'⟩
        · exact Or.inl rfl
        · exact Or.inr ⟨List.mem_cons_of_mem _ hmem, hd, hlt'⟩

/-- The scan of `getClosestNode` finds a nearest node whenever some node of the mapped
cell lies closer to `pos.z` than `DBL_MAX`: the result is a node of the cell and no node of
the cell is closer. -/
theorem getClosestNode_nearest (m : TraversabilityMap3d) (project : Vector3d → Option Index)
    (h : Heap) (pos : Vector3d) (idx : Index) (hg : m.toGrid project pos = some idx)
    (hlive : ∀ p ∈ m.cells idx, h.lookup p ≠ none)
    (hnear : ∃ p ∈ m.cells idx, h.dist pos.z p < DBL_MAX) :
    ∃ n, m.getClosestNode project h pos = .ok n ∧ n ∈ m.cells idx ∧
      ∀ p ∈ m.cells idx, h.dist pos.z n ≤ h.dist pos.z p := by
  obtain ⟨r, hr, _, hmin, hcase⟩ := forEach_closestStep h pos.z (m.cells idx) (DBL_MAX, nullptr) hlive
  have hres : m.getClosestNode project h pos = .ok r.2 := by
    simp only [TraversabilityMap3d.getClosestNode, hg, TraversabilityMap3d.toGrid_some hg, hr]
  rcases hcase with rfl | ⟨hmem, hd, _⟩
  · obtain ⟨p, hp, hlt⟩ := hnear
    exact absurd (hmin p hp) (not_le.mpr hlt)
  · exact ⟨r.2, hres, hmem, fun p hp => hd ▸ hmin p hp⟩

theorem DBL_MAX_pos : 0 < DBL_MAX := by
  unfold DBL_MAX
  norm_num

/-- The example of the specification: in a column with nodes at heights 0, 2 and 5 the
query at `z = 2.3` returns the node at height 2. -/
theorem getClosestNode_column_example :
    columnMap.getClosestNode projectOrigin columnHeap ⟨0, 0, 23 / 10⟩ = .ok 2 := by
  have h1 : columnHeap.lookup 1 = some ⟨[2], 0, ⟨0, 0⟩, .TRAVERSABLE, false⟩ := rfl
  have h2 : columnHeap.lookup 2 = some ⟨[1, 3], 2, ⟨0, 0⟩, .TRAVERSABLE, true⟩ := rfl
  have h3 : columnHeap.lookup 3 = some ⟨[2], 5, ⟨0, 0⟩, .OBSTACLE, false⟩ := rfl
  have hg : columnMap.toGrid projectOrigin ⟨0, 0, 23 / 10⟩ = some ⟨0, 0⟩ := rfl
  have hc : columnMap.cellAt ⟨0, 0⟩ = .ok [1, 2, 3] := rfl
  have d1 : columnHeap.dist (23 / 10) 1 = 23 / 10 := by
    simp only [Heap.dist, h1]; norm_num [abs_of_nonneg]
  have d2 : columnHeap.dist (23 / 10) 2 = 3 / 10 := by
    simp only [Heap.dist, h2]; norm_num [abs_of_nonneg, abs_of_neg]
  have d3 : columnHeap.dist (23 / 10) 3 = 27 / 10 := by
    simp only [Heap.dist, h3]; norm_num [abs_of_nonneg]
  have hmax : (23 / 10 : ℚ) < DBL_MAX := by unfold DBL_MAX; norm_num
  simp only [TraversabilityMap3d.getClosestNode, hg, hc, forEach, closestStep_live h1,
    closestStep_live h2, closestStep_live h3, d1, d2, d3, hmax, if_true]
  norm_num

/-- C4, on the failing input: the cell holds a node at height 0 and the query is at
`z = DBL_MAX`; the distance is `DBL_MAX`, which is not below the initial `minDist`, so
`getClosestNode` returns `nullptr` although the cell is not empty. -/
theorem getClosestNode_misses_node_at_DBL_MAX :
    groundMap.toGrid projectOrigin ⟨0, 0, DBL_MAX⟩ = some ⟨0, 0⟩ ∧
    groundMap.cellAt ⟨0, 0⟩ = .ok [1] ∧ groundHeap.lookup 1 ≠ none ∧
    groundMap.getClosestNode projectOrigin groundHeap ⟨0, 0, DBL_MAX⟩ = .ok nullptr := by
  have h1 : groundHeap.lookup 1 = some ⟨[], 0, ⟨0, 0⟩, .TRAVERSABLE, false⟩ := rfl
  have hg : groundMap.toGrid projectOrigin ⟨0, 0, DBL_MAX⟩ = some ⟨0, 0⟩ := rfl
  have hc : groundMap.cellAt ⟨0, 0⟩ = .ok [1] := rfl
  have d1 : groundHeap.dist DBL_MAX 1 = DBL_MAX := by
    simp only [Heap.dist, h1, zero_sub, abs_neg]
    exact abs_of_pos DBL_MAX_pos
  refine ⟨hg, hc, by simp [h1], ?_⟩
  simp only [TraversabilityMap3d.getClosestNode, hg, hc, forEach, closestStep_live h1, d1,
    lt_irrefl, if_false]

/-! ## `doDeepCopy`, first pass -/

theorem cloneStep_ok {acc r : CopyState} {p : Nat} (h : cloneStep acc p = .ok r) :
    ∃ n, acc.1.lookup p = some n ∧ acc.2.1.inGrid n.idx = true ∧
      r = (acc.1 ++ [some n.withoutConnections],
        acc.2.1.setCell n.idx (acc.2.1.cells n.idx ++ [acc.1.length + 1]),
        Function.update acc.2.2 p (acc.1.length + 1)) := by
  simp only [cloneStep, Heap.deref] at h
  cases hl : acc.1.lookup p with
  | none => simp [hl] at h
  | some n =>
    simp only [hl, Heap.alloc] at h
    cases hins : acc.2.1.insertAt n.idx (acc.1.length + 1) with
    | error e => simp [hins] at h
    | ok out =>
      simp only [hins] at h
      obtain ⟨hin, hout⟩ := TraversabilityMap3d.insertAt_ok hins
      exact ⟨n, rfl, hin, by rw [← Except.ok.inj h, hout]; rfl⟩

theorem cloneStep_live {acc : CopyState} {p : Nat} {n : TraversabilityNodeBase}
    (hl : acc.1.lookup p = some n) (hin : acc.2.1.inGrid n.idx = true) :
    cloneStep acc p = .ok (acc.1 ++ [some n.withoutConnections],
        acc.2.1.setCell n.idx (acc.2.1.cells n.idx ++ [acc.1.length + 1]),
        Function.update acc.2.2 p (acc.1.length + 1)) := by
  simp only [cloneStep, Heap.deref, hl, Heap.alloc, TraversabilityMap3d.insertAt_inGrid hin]
  rfl

theorem cloneAddrs_congr {h h' : Heap} (i : Index) (a : Nat) {L : List Nat}
    (hL : ∀ p ∈ L, h'.lookup p = h.lookup p) : cloneAddrs h' i a L = cloneAddrs h i a L := by
  induction L generalizing a with
  | nil => rfl
  | cons p ps ih =>
    simp only [cloneAddrs, Heap.idxOf, hL p (List.mem_cons_self _ _)]
    rw [ih (a + 1) fun q hq => hL q (List.mem_cons_of_mem _ hq)]

theorem forEach_cloneStep_ok (L : List Nat) (h : Heap) (out : TraversabilityMap3d)
    (f : Nat → Nat) (r : CopyState) (hbound : ∀ p ∈ L, p ≤ h.length)
    (hr : forEach cloneStep (h, out, f) L = .ok r) :
    (∀ p ∈ L, ∃ n, h.lookup p = some n ∧ out.inGrid n.idx = true) ∧
    r.1 = h ++ L.map (fun p => (h.lookup p).map TraversabilityNodeBase.withoutConnections) ∧
    r.2.1.numCells = out.numCells ∧ r.2.1.resolution = out.resolution ∧
    r.2.1.localMapData = out.localMapData ∧
    r.2.1.ownsNodePointers = out.ownsNodePointers ∧
    (∀ i, r.2.1.cells i = out.cells i ++ cloneAddrs h i (h.length + 1) L) ∧
    (∀ q, q ∉ L → r.2.2 q = f q) ∧
    (∀ q ∈ L, h.length < r.2.2 q ∧ r.2.2 q ≤ h.length + L.length) ∧
    (L.Nodup → ∀ k (hk : k < L.length), r.2.2 (L.get ⟨k, hk⟩) = h.length + 1 + k) := by
  induction L generalizing h out f with
  | nil =>
    have : r = (h, out, f) := (Except.ok.inj hr).symm
    subst this
    refine ⟨fun _ hp => absurd hp (List.not_mem_nil _), by simp, rfl, rfl, rfl, rfl,
      fun i => by simp [cloneAddrs], fun _ _ => rfl, fun _ hq => absurd hq (List.not_mem_nil _),
      fun _ k hk => absurd hk (Nat.not_lt_zero k)⟩
  | cons p ps ih =>
    simp only [forEach] at hr
    cases hstep : cloneStep (h, out, f) p with
    | error e => simp [hstep] at hr
    | ok acc1 =>
      simp only [hstep] at hr
      obtain ⟨n, hn, hin, hacc⟩ := cloneStep_ok hstep
      simp only at hn hin hacc
      subst hacc
      have hbound' : ∀ q ∈ ps, q ≤ (h ++ [some n.withoutConnections]).length := by
        intro q hq
        have := hbound q (List.mem_cons_of_mem _ hq)
        simp only [List.length_append, List.length_singleton]
        omega
      have hold : ∀ q ∈ ps, Heap.lookup (h ++ [some n.withoutConnections]) q = h.lookup q :=
        fun q hq => Heap.lookup_append_left h _ (hbound q (List.mem_cons_of_mem _ hq))
      obtain ⟨hlive, hheap, h1, h2, h3, h4, hcells, hf1, hf2, hf3⟩ := ih _ _ _ hbound' hr
      have hlen : (h ++ [some n.withoutConnections]).length = h.length + 1 := by simp
      refine ⟨?_, ?_, h1, h2, h3, h4, ?_, ?_, ?_, ?_⟩
      · intro q hq
        rcases List.mem_cons.mp hq with rfl | hq'
        · exact ⟨n, hn, hin⟩
        · obtain ⟨n', hn', hin'⟩ := hlive q hq'
          rw [hold q hq'] at hn'
          exact ⟨n', hn', by simpa [TraversabilityMap3d.inGrid, TraversabilityMap3d.setCell] using hin'⟩
      · rw [hheap, List.map_cons, hn, Option.map_some', List.append_assoc, List.singleton_append]
        congr 2
        exact List.map_congr_left fun q hq => by rw [hold q hq]
      · intro i
        rw [hcells i, hlen, cloneAddrs_congr i _ hold]
        simp only [cloneAddrs, Heap.idxOf, hn, Option.map_some', Option.some.injEq,
          TraversabilityMap3d.setCell]
        by_cases hi : i = n.idx
        · subst hi
          simp
        · have hi' : ¬ n.idx = i := fun e => hi e.symm
          simp [hi, hi']
      · intro q hq
        have hqp : q ≠ p := fun e => hq (e ▸ List.mem_cons_self _ _)
        rw [hf1 q fun e => hq (List.mem_cons_of_mem _ e)]
        simp [Function.update, hqp]
      · intro q hq
        by_cases hq' : q ∈ ps
        · have := hf2 q hq'
          simp only [hlen, List.length_cons] at this ⊢
          omega
        · have hqp : q = p := by
            rcases List.mem_cons.mp hq with e | e
            · exact e
            · exact absurd e hq'
          subst hqp
          rw [hf1 q hq']
          simp only [Function.update_same, List.length_cons]
          omega
      · intro hnd k hk
        obtain ⟨hnot, hnd'⟩ := List.nodup_cons.mp hnd
        cases k with
        | zero =>
          simp only [List.get_eq_getElem, List.getElem_cons_zero]
          rw [hf1 p hnot]
          simp
        | succ j =>
          have hj : j < ps.length := by simpa using hk
          have := hf3 hnd' j hj
          simp only [List.get_eq_getElem, List.getElem_cons_succ] at this ⊢
          rw [this, hlen]
          omega

theorem forEach_cloneStep_live (L : List Nat) (h : Heap) (out : TraversabilityMap3d)
    (f : Nat → Nat)
    (hlive : ∀ p ∈ L, ∃ n, h.lookup p = some n ∧ out.inGrid n.idx = true) :
    ∃ r, forEach cloneStep (h, out, f) L = .ok r := by
  induction L generalizing h out f with
  | nil => exact ⟨_, rfl⟩
  | cons p ps ih =>
    obtain ⟨n, hn, hin⟩ := hlive p (List.mem_cons_self _ _)
    have hstep := @cloneStep_live (h, out, f) p n hn hin
    simp only [forEach, hstep]
    refine ih _ _ _ fun q hq => ?_
    obtain ⟨n', hn', hin'⟩ := hlive q (List.mem_cons_of_mem _ hq)
    refine ⟨n', ?_, by simpa [TraversabilityMap3d.inGrid, TraversabilityMap3d.setCell] using hin'⟩
    rw [Heap.lookup_append_left h _ (Heap.lookup_le_length hn').2]
    exact hn'

/-! ## `doDeepCopy`, second pass -/

theorem pushBack_live {h : Heap} {t : Nat} {nt : TraversabilityNodeBase}
    (ht : h.lookup t = some nt) (q : Nat) :
    ∃ h', pushBack h t q = .ok h' ∧ h'.length = h.length ∧
      ∀ x, h'.lookup x =
        if x = t then some { nt with connections := nt.connections ++ [q] } else h.lookup x := by
  cases t with
  | zero => simp [Heap.lookup] at ht
  | succ k =>
    have hk : k < h.length := (Heap.lookup_le_length ht).2
    refine ⟨h.set k (some { nt with connections := nt.connections ++ [q] }), ?_, by simp, ?_⟩
    · simp [pushBack, Heap.deref, Heap.store, ht]
    · intro x
      simp [Heap.lookup_set, hk]

theorem forEach_pushBack {h : Heap} {t : Nat} {nt : TraversabilityNodeBase} (f : Nat → Nat)
    (ht : h.lookup t = some nt) (conns : List Nat) :
    ∃ h', forEach (fun h' nb => pushBack h' t (f nb)) h conns = .ok h' ∧
      h'.length = h.length ∧
      ∀ x, h'.lookup x =
        if x = t then some { nt with connections := nt.connections ++ conns.map f }
        else h.lookup x := by
  induction conns generalizing h nt with
  | nil =>
    refine ⟨h, rfl, rfl, fun x => ?_⟩
    by_cases hx : x = t
    · subst hx
      simp [ht]
    · simp [hx]
  | cons c cs ih =>
    obtain ⟨h1, hpush, hlen1, hlook1⟩ := pushBack_live ht (f c)
    have ht1 : h1.lookup t = some { nt with connections := nt.connections ++ [f c] } := by
      rw [hlook1 t]
      simp
    obtain ⟨h', hh', hlen', hlook'⟩ := ih ht1
    refine ⟨h', by simp only [forEach, hpush, hh'], hlen'.trans hlen1, fun x => ?_⟩
    rw [hlook' x]
    by_cases hx : x = t
    · simp [hx]
    · simp [hx, hlook1 x]

theorem connectStep_live {h : Heap} {f : Nat → Nat} {n : Nat} {nn nt : TraversabilityNodeBase}
    (hn : h.lookup n = some nn) (ht : h.lookup (f n) = some nt) :
    ∃ h', connectStep f h n = .ok h' ∧ h'.length = h.length ∧
      ∀ x, h'.lookup x =
        if x = f n then some { nt with connections := nt.connections ++ nn.connections.map f }
        else h.lookup x := by
  obtain ⟨h', hh', hlen, hlook⟩ := forEach_pushBack f ht nn.connections
  exact ⟨h', by simp only [connectStep, Heap.deref, hn, hh'], hlen, hlook⟩

theorem addedConnections_congr {h h' : Heap} (f : Nat → Nat) (x : Nat) {M : List Nat}
    (hM : ∀ p ∈ M, h'.lookup p = h.lookup p) :
    addedConnections h' f M x = addedConnections h f M x := by
  induction M with
  | nil => rfl
  | cons p ps ih =>
    simp only [addedConnections, Heap.connectionsOf, hM p (List.mem_cons_self _ _)]
    rw [ih fun q hq => hM q (List.mem_cons_of_mem _ hq)]

theorem forEach_connectStep (f : Nat → Nat) (M : List Nat) (h : Heap)
    (hsrc : ∀ p ∈ M, h.lookup p ≠ none) (hdst : ∀ p ∈ M, h.lookup (f p) ≠ none)
    (hsep : ∀ p ∈ M, ∀ p' ∈ M, f p' ≠ p) :
    ∃ h', forEach (connectStep f) h M = .ok h' ∧ h'.length = h.length ∧
      ∀ x, h'.lookup x = (h.lookup x).map fun n =>
        { n with connections := n.connections ++ addedConnections h f M x } := by
  induction M generalizing h with
  | nil =>
    refine ⟨h, rfl, rfl, fun x => ?_⟩
    cases h.lookup x <;> simp [addedConnections]
  | cons p ps ih =>
    obtain ⟨nn, hnn⟩ := Option.ne_none_iff_exists'.mp (hsrc p (List.mem_cons_self _ _))
    obtain ⟨nt, hnt⟩ := Option.ne_none_iff_exists'.mp (hdst p (List.mem_cons_self _ _))
    obtain ⟨h1, hstep, hlen1, hlook1⟩ := connectStep_live hnn hnt
    have hkeep : ∀ q ∈ ps, h1.lookup q = h.lookup q := by
      intro q hq
      have hne : q ≠ f p :=
        fun e => hsep q (List.mem_cons_of_mem _ hq) p (List.mem_cons_self _ _) e.symm
      rw [hlook1 q]
      simp [hne]
    have hsrc1 : ∀ q ∈ ps, h1.lookup q ≠ none := fun q hq => by
      rw [hkeep q hq]
      exact hsrc q (List.mem_cons_of_mem _ hq)
    have hdst1 : ∀ q ∈ ps, h1.lookup (f q) ≠ none := fun q hq => by
      rw [hlook1 (f q)]
      by_cases he : f q = f p
      · simp [he]
      · simp only [he, if_false]
        exact hdst q (List.mem_cons_of_mem _ hq)
    have hsep1 : ∀ q ∈ ps, ∀ q' ∈ ps, f q' ≠ q := fun q hq q' hq' =>
      hsep q (List.mem_cons_of_mem _ hq) q' (List.mem_cons_of_mem _ hq')
    obtain ⟨h', hh', hlen', hlook'⟩ := ih h1 hsrc1 hdst1 hsep1
    refine ⟨h', by simp only [forEach, hstep, hh'], hlen'.trans hlen1, fun x => ?_⟩
    rw [hlook' x, hlook1 x, addedConnections_congr f x hkeep]
    simp only [addedConnections, Heap.connectionsOf, hnn]
    by_cases hx : x = f p
    · subst hx
      simp [hnt]
    · have hx' : ¬ f p = x := fun e => hx e.symm
      simp [hx, hx']

theorem addedConnections_mem {h : Heap} {f : Nat → Nat} {M : List Nat} {x c : Nat}
    (hc : c ∈ addedConnections h f M x) :
    ∃ p ∈ M, f p = x ∧ ∃ q ∈ h.connectionsOf p, c = f q := by
  induction M with
  | nil => simp [addedConnections] at hc
  | cons p ps ih =>
    simp only [addedConnections, List.mem_append] at hc
    rcases hc with hc | hc
    · by_cases hfp : f p = x
      · simp only [hfp, if_true, List.mem_map] at hc
        obtain ⟨q, hq, rfl⟩ := hc
        exact ⟨p, List.mem_cons_self _ _, hfp, q, hq, rfl⟩
      · simp [hfp] at hc
    · obtain ⟨p', hp', hfp', hq⟩ := ih hc
      exact ⟨p', List.mem_cons_of_mem _ hp', hfp', hq⟩

theorem addedConnections_eq_nil {h : Heap} {f : Nat → Nat} {M : List Nat} {x : Nat}
    (hx : ∀ p ∈ M, f p ≠ x) : addedConnections h f M x = [] := by
  cases hl : addedConnections h f M x with
  | nil => rfl
  | cons c cs =>
    have hc : c ∈ addedConnections h f M x := by simp [hl]
    obtain ⟨p, hp, hfp, _⟩ := addedConnections_mem hc
    exact absurd hfp (hx p hp)

theorem addedConnections_of_injOn {h : Heap} {f : Nat → Nat} {M : List Nat} (hnd : M.Nodup)
    (hinj : ∀ p ∈ M, ∀ p' ∈ M, f p = f p' → p = p') {p : Nat} (hp : p ∈ M) :
    addedConnections h f M (f p) = (h.connectionsOf p).map f := by
  induction M with
  | nil => exact absurd hp (List.not_mem_nil _)
  | cons p0 ps ih =>
    obtain ⟨hnot, hnd'⟩ := List.nodup_cons.mp hnd
    simp only [addedConnections]
    rcases List.mem_cons.mp hp with rfl | hp'
    · have hnil : addedConnections h f ps (f p) = [] := by
        refine addedConnections_eq_nil fun q hq hfq => ?_
        have := hinj q (List.mem_cons_of_mem _ hq) p (List.mem_cons_self _ _) hfq
        exact hnot (this ▸ hq)
      simp [hnil]
    · have hne : f p0 ≠ f p := by
        intro e
        have := hinj p0 (List.mem_cons_self _ _) p hp e
        exact hnot (this ▸ hp')
      simp only [hne, if_false, List.nil_append]
      exact ih hnd' (fun a ha b hb => hinj a (List.mem_cons_of_mem _ ha) b
        (List.mem_cons_of_mem _ hb)) hp'

/-! ## `doDeepCopy` -/

theorem doDeepCopy_eq (h : Heap) (inp out : TraversabilityMap3d) :
    doDeepCopy h inp out =
      match forEach cloneStep (h, out, fun _ => nullptr) inp.nodes with
      | .ok r =>
        match forEach (connectStep r.2.2) r.1 inp.nodes with
        | .ok h2 => .ok (h2, r.2.1)
        | .error e => .error e
      | .error e => .error e := by
  simp only [doDeepCopy, forEach_flatMap, TraversabilityMap3d.nodes]
  cases forEach cloneStep (h, out, fun _ => nullptr) (inp.indices.flatMap inp.cells) with
  | error e => rfl
  | ok r =>
    obtain ⟨h1, out1, f⟩ := r
    rfl

theorem Heap.lookup_append_map (h : Heap) (g : Nat → Option TraversabilityNodeBase)
    {L : List Nat} (k : Nat) (hk : k < L.length) :
    Heap.lookup (h ++ L.map g) (h.length + 1 + k) = g (L.get ⟨k, hk⟩) := by
  rw [Heap.lookup_append_right]
  simp [hk]

theorem firstPass_lookup_new {h : Heap} {L : List Nat} (k : Nat) (hk : k < L.length) :
    Heap.lookup (h ++ L.map fun p => (h.lookup p).map TraversabilityNodeBase.withoutConnections)
      (h.length + 1 + k) =
      (h.lookup (L.get ⟨k, hk⟩)).map TraversabilityNodeBase.withoutConnections := by
  rw [Heap.lookup_append_right]
  simp [hk]

/-- The second pass completes on whatever the first pass returns. -/
theorem secondPass_after_firstPass {h : Heap} {inp out : TraversabilityMap3d} {r : CopyState}
    (hbound : ∀ p ∈ inp.nodes, p ≤ h.length)
    (hr : forEach cloneStep (h, out, fun _ => nullptr) inp.nodes = .ok r) :
    ∃ h2, forEach (connectStep r.2.2) r.1 inp.nodes = .ok h2 ∧
      DeepCopied h inp out h2 r.2.1 r.2.2 := by
  obtain ⟨hlive, hheap, h1, h2, h3, h4, hcells, hf1, hf2, hf3⟩ :=
    forEach_cloneStep_ok inp.nodes h out _ r hbound hr
  have hold : ∀ x, x ≤ h.length → r.1.lookup x = h.lookup x := by
    intro x hx
    rw [hheap]
    exact Heap.lookup_append_left h _ hx
  have hnew : ∀ k (hk : k < inp.nodes.length), r.1.lookup (h.length + 1 + k) =
      (h.lookup (inp.nodes.get ⟨k, hk⟩)).map TraversabilityNodeBase.withoutConnections := by
    intro k hk
    rw [hheap]
    exact firstPass_lookup_new k hk
  have hsrc : ∀ p ∈ inp.nodes, r.1.lookup p ≠ none := by
    intro p hp
    obtain ⟨n, hn, _⟩ := hlive p hp
    rw [hold p (hbound p hp), hn]
    simp
  have hdst : ∀ p ∈ inp.nodes, r.1.lookup (r.2.2 p) ≠ none := by
    intro p hp
    obtain ⟨hlo, hhi⟩ := hf2 p hp
    obtain ⟨k, hk⟩ : ∃ k, r.2.2 p = h.length + 1 + k := ⟨r.2.2 p - (h.length + 1), by omega⟩
    have hklen : k < inp.nodes.length := by omega
    obtain ⟨n, hn, _⟩ := hlive _ (List.get_mem inp.nodes k hklen)
    rw [hk, hnew k hklen, hn]
    simp
  have hsep : ∀ p ∈ inp.nodes, ∀ p' ∈ inp.nodes, r.2.2 p' ≠ p := by
    intro p hp p' hp' e
    have := (hf2 p' hp').1
    have := hbound p hp
    omega
  obtain ⟨hfin, hfineq, hlen, hlook⟩ := forEach_connectStep r.2.2 inp.nodes r.1 hsrc hdst hsep
  have hadd : ∀ x, addedConnections r.1 r.2.2 inp.nodes x = addedConnections h r.2.2 inp.nodes x :=
    fun x => addedConnections_congr _ x fun p hp => hold p (hbound p hp)
  refine ⟨hfin, hfineq, ⟨hlive, ?_, ?_, ?_, h1, h2, h3, h4, hcells, ?_, hf2, hf3⟩⟩
  · rw [hlen, hheap]
    simp
  · intro x hx
    rw [hlook x, hold x hx]
    have hnil : addedConnections r.1 r.2.2 inp.nodes x = [] :=
      addedConnections_eq_nil fun p hp e => by
        have := (hf2 p hp).1
        omega
    cases h.lookup x <;> simp [hnil]
  · intro k hk
    rw [hlook _, hnew k hk, hadd]
    cases h.lookup (inp.nodes.get ⟨k, hk⟩) <;>
      simp [TraversabilityNodeBase.withoutConnections]
  · intro q hq
    exact hf1 q hq

theorem doDeepCopy_ok {h h2 : Heap} {inp out out2 : TraversabilityMap3d}
    (hbound : ∀ p ∈ inp.nodes, p ≤ h.length) (hc : doDeepCopy h inp out = .ok (h2, out2)) :
    ∃ f, DeepCopied h inp out h2 out2 f := by
  rw [doDeepCopy_eq] at hc
  cases hr : forEach cloneStep (h, out, fun _ => nullptr) inp.nodes with
  | error e => simp [hr] at hc
  | ok r =>
    obtain ⟨hfin, hfineq, hcopied⟩ := secondPass_after_firstPass hbound hr
    simp only [hr, hfineq, Except.ok.injEq, Prod.mk.injEq] at hc
    obtain ⟨rfl, rfl⟩ := hc
    exact ⟨r.2.2, hcopied⟩

theorem doDeepCopy_live {h : Heap} {inp out : TraversabilityMap3d}
    (hlive : ∀ p ∈ inp.nodes, ∃ n, h.lookup p = some n ∧ out.inGrid n.idx = true) :
    ∃ res, doDeepCopy h inp out = .ok res := by
  have hbound : ∀ p ∈ inp.nodes, p ≤ h.length := fun p hp => by
    obtain ⟨n, hn, _⟩ := hlive p hp
    exact (Heap.lookup_le_length hn).2
  obtain ⟨r, hr⟩ := forEach_cloneStep_live inp.nodes h out (fun _ => nullptr) hlive
  obtain ⟨hfin, hfineq, _⟩ := secondPass_after_firstPass hbound hr
  exact ⟨(hfin, r.2.1), by rw [doDeepCopy_eq]; simp only [hr, hfineq]⟩

/-! ## `operator=` -/

theorem TraversabilityMap3d.clearCells_clearCells (m : TraversabilityMap3d) :
    m.clearCells.clearCells = m.clearCells := rfl

theorem assignTarget_cells (ma mb : TraversabilityMap3d) (i : Index) :
    (assignTarget ma mb).cells i = [] := by
  simp [assignTarget, TraversabilityMap3d.resize, TraversabilityMap3d.setResolution,
    TraversabilityMap3d.clearCells]

theorem assignTarget_inGrid (ma mb : TraversabilityMap3d) (i : Index) :
    (assignTarget ma mb).inGrid i = mb.inGrid i := rfl

theorem operatorAssign_eq {s : World} {a b : Nat} {ma mb : TraversabilityMap3d} (hab : a ≠ b)
    (ha : s.getMap a = .ok ma) (hb : s.getMap b = .ok mb) :
    operatorAssign s a b =
      match (if ma.ownsNodePointers then forEach Heap.delete s.heap ma.nodes
             else .ok s.heap) with
      | .ok h0 =>
        match doDeepCopy h0 mb (assignTarget ma mb) with
        | .ok (h2, t2) =>
          .ok { heap := h2,
                frames := Function.update s.frames ma.localMapData (s.frames mb.localMapData),
                maps := s.maps.set a t2 }
        | .error e => .error e
      | .error e => .error e := by
  simp only [operatorAssign, TraversabilityMap3d.clear_eq ha]
  cases (if ma.ownsNodePointers then forEach Heap.delete s.heap ma.nodes else .ok s.heap) with
  | error e => rfl
  | ok h0 =>
    simp only [World.getMap_set_self _ _ ha, World.getMap_set_ne s (Ne.symm hab), hb]
    have hres : (ma.clearCells.setResolution mb.resolution).resize mb.numCells =
        assignTarget ma mb := rfl
    rw [hres]
    cases doDeepCopy h0 mb (assignTarget ma mb) with
    | error e => rfl
    | ok res =>
      obtain ⟨h2, t2⟩ := res
      simp only [List.set_set]
      rfl

theorem operatorAssign_ok {s s' : World} {a b : Nat} {mb : TraversabilityMap3d} (hab : a ≠ b)
    (hb : s.getMap b = .ok mb) (hbound : ∀ p ∈ mb.nodes, p ≤ s.heap.length)
    (h : operatorAssign s a b = .ok s') :
    ∃ ma h0 t2 f, s.getMap a = .ok ma ∧ h0.length = s.heap.length ∧
      (∀ q n, h0.lookup q = some n → s.heap.lookup q = some n) ∧
      DeepCopied h0 mb (assignTarget ma mb) s'.heap t2 f ∧ s'.getMap a = .ok t2 ∧
      ∀ c, c ≠ a → s'.getMap c = s.getMap c := by
  cases ha : s.getMap a with
  | error e => simp [operatorAssign, TraversabilityMap3d.clear, ha] at h
  | ok ma =>
    rw [operatorAssign_eq hab ha hb] at h
    cases hd : (if ma.ownsNodePointers then forEach Heap.delete s.heap ma.nodes
        else .ok s.heap) with
    | error e => simp [hd] at h
    | ok h0 =>
      simp only [hd] at h
      have hh0 : h0.length = s.heap.length ∧
          ∀ q n, h0.lookup q = some n → s.heap.lookup q = some n := by
        by_cases hown : ma.ownsNodePointers = true
        · rw [if_pos hown] at hd
          obtain ⟨hlen, _, _, hsub⟩ := forEach_delete_ok hd
          exact ⟨hlen, hsub⟩
        · rw [if_neg hown] at hd
          rw [← Except.ok.inj hd]
          exact ⟨rfl, fun _ _ hq => hq⟩
      cases hc : doDeepCopy h0 mb (assignTarget ma mb) with
      | error e => simp [hc] at h
      | ok res =>
        obtain ⟨h2, t2⟩ := res
        simp only [hc] at h
        have hs' := Except.ok.inj h
        subst hs'
        obtain ⟨f, hf⟩ := doDeepCopy_ok (fun p hp => by rw [hh0.1]; exact hbound p hp) hc
        exact ⟨ma, h0, t2, f, rfl, hh0.1, hh0.2, hf, World.getMap_set_self _ _ ha _,
          fun c hc' => World.getMap_set_ne s hc' _ _ _⟩

theorem operatorAssign_live {s : World} {a b : Nat} {mb : TraversabilityMap3d} (hab : a ≠ b)
    (hb : s.getMap b = .ok mb)
    (hlive : ∀ p ∈ mb.nodes, ∃ n, s.heap.lookup p = some n ∧ mb.inGrid n.idx = true)
    (hsafe : SafeDestination s a mb) : ∃ s', operatorAssign s a b = .ok s' := by
  obtain ⟨ma, ha, hown⟩ := hsafe
  rw [operatorAssign_eq hab ha hb]
  have hclear : ∃ h0, (if ma.ownsNodePointers then forEach Heap.delete s.heap ma.nodes
      else .ok s.heap) = .ok h0 ∧ ∀ p ∈ mb.nodes, h0.lookup p = s.heap.lookup p := by
    by_cases ho : ma.ownsNodePointers = true
    · obtain ⟨hnd, hnodes⟩ := hown ho
      obtain ⟨h0, hh0⟩ := forEach_delete_live hnd (fun p hp => (hnodes p hp).1)
      refine ⟨h0, by rw [if_pos ho]; exact hh0, fun p hp => ?_⟩
      exact (forEach_delete_ok hh0).2.2.1 p fun hmem => (hnodes p hmem).2 hp
    · exact ⟨s.heap, by rw [if_neg ho], fun _ _ => rfl⟩
  obtain ⟨h0, hh0, hsame⟩ := hclear
  obtain ⟨res, hres⟩ := @doDeepCopy_live h0 mb (assignTarget ma mb)
    (fun p hp => by rw [hsame p hp]; exact hlive p hp)
  obtain ⟨h2, t2⟩ := res
  exact ⟨{ heap := h2,
           frames := Function.update s.frames ma.localMapData (s.frames mb.localMapData),
           maps := s.maps.set a t2 }, by simp only [hh0, hres]⟩

/-! ## Where the first pass puts the new nodes -/

theorem cloneAddrs_append (h : Heap) (i : Index) (a : Nat) (L₁ L₂ : List Nat) :
    cloneAddrs h i a (L₁ ++ L₂) = cloneAddrs h i a L₁ ++ cloneAddrs h i (a + L₁.length) L₂ := by
  induction L₁ generalizing a with
  | nil => simp [cloneAddrs]
  | cons p ps ih =>
    have e : a + 1 + ps.length = a + (p :: ps).length := by
      simp only [List.length_cons]
      omega
    show cloneAddrs h i a (p :: (ps ++ L₂)) = _
    simp only [cloneAddrs, ih (a + 1), e, List.append_assoc]

theorem cloneAddrs_mem_bounds {h : Heap} {i : Index} {a x : Nat} {L : List Nat}
    (hx : x ∈ cloneAddrs h i a L) : a ≤ x ∧ x < a + L.length := by
  induction L generalizing a with
  | nil => simp [cloneAddrs] at hx
  | cons p ps ih =>
    simp only [cloneAddrs, List.mem_append] at hx
    rcases hx with hx | hx
    · by_cases hp : h.idxOf p = some i
      · simp only [hp, if_true, List.mem_singleton] at hx
        subst hx
        simp
      · simp [hp] at hx
    · have := ih hx
      simp only [List.length_cons]
      omega

theorem cloneAddrs_get_mem {h : Heap} {i : Index} (a : Nat) {L : List Nat} {k : Nat}
    (hk : k < L.length) (hi : h.idxOf (L.get ⟨k, hk⟩) = some i) :
    a + k ∈ cloneAddrs h i a L := by
  induction L generalizing a k with
  | nil => exact absurd hk (Nat.not_lt_zero k)
  | cons p ps ih =>
    simp only [cloneAddrs, List.mem_append]
    cases k with
    | zero =>
      left
      simp only [List.get_eq_getElem, List.getElem_cons_zero] at hi
      simp [hi]
    | succ j =>
      right
      have hj : j < ps.length := by simpa using hk
      have := ih (a + 1) hj (by simpa using hi)
      have he : a + (j + 1) = a + 1 + j := by omega
      rw [he]
      exact this

theorem cloneAddrs_of_cell {h : Heap} {i j : Index} (a : Nat) {c : List Nat}
    (hc : ∀ p ∈ c, h.idxOf p = some j) :
    cloneAddrs h i a c = if j = i then List.range' a c.length else [] := by
  induction c generalizing a with
  | nil => simp [cloneAddrs]
  | cons p ps ih =>
    simp only [cloneAddrs, hc p (List.mem_cons_self _ _), Option.some.injEq,
      ih (a + 1) fun q hq => hc q (List.mem_cons_of_mem _ hq)]
    by_cases hji : j = i
    · simp [hji, List.range'_succ]
    · simp [hji]

theorem cloneAddrs_flatMap_not_mem {h : Heap} {i : Index} (a : Nat) {I : List Index}
    {cells : Index → List Nat} (hi : i ∉ I)
    (hown : ∀ j ∈ I, ∀ p ∈ cells j, h.idxOf p = some j) :
    cloneAddrs h i a (I.flatMap cells) = [] := by
  induction I generalizing a with
  | nil => rfl
  | cons j I ih =>
    have hji : j ≠ i := fun e => hi (e ▸ List.mem_cons_self _ _)
    rw [List.flatMap_cons, cloneAddrs_append,
      cloneAddrs_of_cell a (hown j (List.mem_cons_self _ _)),
      ih _ (fun e => hi (List.mem_cons_of_mem _ e))
        (fun j' hj' => hown j' (List.mem_cons_of_mem _ hj'))]
    simp [hji]

theorem cloneAddrs_flatMap_mem {h : Heap} {i : Index} (a : Nat) {I : List Index}
    {cells : Index → List Nat} (hI : I.Nodup) (hi : i ∈ I)
    (hown : ∀ j ∈ I, ∀ p ∈ cells j, h.idxOf p = some j) :
    ∃ pre post, I.flatMap cells = pre ++ cells i ++ post ∧
      cloneAddrs h i a (I.flatMap cells) = List.range' (a + pre.length) (cells i).length := by
  induction I generalizing a with
  | nil => exact absurd hi (List.not_mem_nil _)
  | cons j I ih =>
    obtain ⟨hnot, hI'⟩ := List.nodup_cons.mp hI
    have hown' : ∀ j' ∈ I, ∀ p ∈ cells j', h.idxOf p = some j' :=
      fun j' hj' => hown j' (List.mem_cons_of_mem _ hj')
    rw [List.flatMap_cons, cloneAddrs_append,
      cloneAddrs_of_cell a (hown j (List.mem_cons_self _ _))]
    by_cases hji : j = i
    · subst hji
      refine ⟨[], I.flatMap cells, by simp, ?_⟩
      rw [cloneAddrs_flatMap_not_mem _ hnot hown']
      simp
    · have hi' : i ∈ I := by
        rcases List.mem_cons.mp hi with e | e
        · exact absurd e.symm hji
        · exact e
      obtain ⟨pre, post, hsplit, haddr⟩ := ih (a + (cells j).length) hI' hi' hown'
      refine ⟨cells j ++ pre, post, by simp [hsplit], ?_⟩
      rw [haddr]
      simp only [hji, if_false, List.nil_append, List.length_append]
      congr 1
      omega

theorem forall₂_range' {R : Nat → Nat → Prop} (c : List Nat) (a : Nat)
    (hR : ∀ k (hk : k < c.length), R (c.get ⟨k, hk⟩) (a + k)) :
    List.Forall₂ R c (List.range' a c.length) := by
  induction c generalizing a with
  | nil => exact List.Forall₂.nil
  | cons p ps ih =>
    rw [List.length_cons, List.range'_succ]
    refine List.Forall₂.cons (by simpa using hR 0 (Nat.succ_pos _)) (ih (a + 1) fun k hk => ?_)
    have := hR (k + 1) (Nat.succ_lt_succ hk)
    have he : a + (k + 1) = a + 1 + k := by omega
    rw [he] at this
    simpa using this

theorem get_of_split {L pre cell post : List Nat} (hL : L = pre ++ cell ++ post) {k : Nat}
    (hk : k < cell.length) :
    ∃ hk' : pre.length + k < L.length, L.get ⟨pre.length + k, hk'⟩ = cell.get ⟨k, hk⟩ := by
  subst hL
  have hk' : pre.length + k < (pre ++ cell ++ post).length := by
    simp only [List.length_append]
    omega
  refine ⟨hk', ?_⟩
  have h1 : (pre ++ cell ++ post)[pre.length + k]? = cell[k]? := by
    rw [List.append_assoc, List.getElem?_append_right (Nat.le_add_right _ _),
      Nat.add_sub_cancel_left, List.getElem?_append_left hk]
  rw [List.getElem?_eq_getElem hk', List.getElem?_eq_getElem hk] at h1
  simpa using h1

/-! ## Deep copy: the nodes -/

theorem TraversabilityMap3d.mem_nodes {m : TraversabilityMap3d} {p : Nat} :
    p ∈ m.nodes ↔ ∃ i, m.inGrid i = true ∧ p ∈ m.cells i := by
  simp only [TraversabilityMap3d.nodes, List.mem_flatMap, TraversabilityMap3d.mem_indices]

theorem lineMap_ownIndex (i : Index) (_ : lineMap.inGrid i = true) (p : Nat)
    (hp : p ∈ lineMap.cells i) : ∃ n, lineWorld.heap.lookup p = some n ∧ n.idx = i := by
  simp only [lineMap, lineCells] at hp
  split_ifs at hp with h0 h1 h2 h3 h4
  · rw [List.mem_singleton.mp hp, h0]; exact ⟨_, rfl, rfl⟩
  · rw [List.mem_singleton.mp hp, h1]; exact ⟨_, rfl, rfl⟩
  · rw [List.mem_singleton.mp hp, h2]; exact ⟨_, rfl, rfl⟩
  · rw [List.mem_singleton.mp hp, h3]; exact ⟨_, rfl, rfl⟩
  · rw [List.mem_singleton.mp hp, h4]; exact ⟨_, rfl, rfl⟩
  · exact absurd hp (List.not_mem_nil _)

/-- C1: deep copy preserves nodes.  Let `b` name a map in which each node is stored in the
cell named by its own `Index`, and let `a ≠ b`.  In every state that `a = b` produces, the
map `a` has the number of cells and the resolution of `b`, and at every index its cell
lists, position by position, one fresh node per node of the cell of `b`, with the same
height, `Index`, type and expansion flag; it holds nothing else.  The assignment does
produce a state when clearing `a` frees no node of `b`. -/
theorem deep_copy_preserves_nodes (s : World) (a b : Nat) (mb : TraversabilityMap3d)
    (hab : a ≠ b) (hb : s.getMap b = .ok mb)
    (hidx : ∀ i, mb.inGrid i = true → ∀ p ∈ mb.cells i,
      ∃ n, s.heap.lookup p = some n ∧ n.idx = i) :
    (∀ s', operatorAssign s a b = .ok s' →
      ∃ ma', s'.getMap a = .ok ma' ∧ ma'.numCells = mb.numCells ∧
        ma'.resolution = mb.resolution ∧
        ∀ i, (mb.inGrid i = true →
            List.Forall₂ (IsCloneOf s.heap s'.heap) (mb.cells i) (ma'.cells i) ∧
              (ma'.cells i).Nodup) ∧
          (mb.inGrid i = false → ma'.cells i = [])) ∧
    (SafeDestination s a mb → ∃ s', operatorAssign s a b = .ok s') := by
  have hlive : ∀ p ∈ mb.nodes, ∃ n, s.heap.lookup p = some n ∧ mb.inGrid n.idx = true := by
    intro p hp
    obtain ⟨i, hin, hpi⟩ := TraversabilityMap3d.mem_nodes.mp hp
    obtain ⟨n, hn, hni⟩ := hidx i hin p hpi
    exact ⟨n, hn, hni ▸ hin⟩
  refine ⟨fun s' hs' => ?_, fun hsafe => operatorAssign_live hab hb hlive hsafe⟩
  have hbound : ∀ p ∈ mb.nodes, p ≤ s.heap.length := fun p hp => by
    obtain ⟨n, hn, _⟩ := hlive p hp
    exact (Heap.lookup_le_length hn).2
  obtain ⟨ma, h0, t2, f, _, hlen0, hsub, hcopied, hgeta, _⟩ :=
    operatorAssign_ok hab hb hbound hs'
  have hown : ∀ j ∈ mb.indices, ∀ p ∈ mb.cells j, h0.idxOf p = some j := by
    intro j hj p hp
    have hin := (mb.mem_indices j).mp hj
    obtain ⟨n0, hn0, _⟩ := hcopied.live p (TraversabilityMap3d.mem_nodes.mpr ⟨j, hin, hp⟩)
    obtain ⟨n, hn, hni⟩ := hidx j hin p hp
    have : n0 = n := Option.some.inj ((hsub p n0 hn0).symm.trans hn)
    simp [Heap.idxOf, hn0, this, hni]
  refine ⟨t2, hgeta, hcopied.numCells, hcopied.resolution, fun i => ⟨fun hin => ?_, fun hout => ?_⟩⟩
  · obtain ⟨pre, post, hsplit, haddr⟩ :=
      cloneAddrs_flatMap_mem (h0.length + 1) mb.nodup_indices ((mb.mem_indices i).mpr hin) hown
    have hcell : t2.cells i = List.range' (h0.length + 1 + pre.length) (mb.cells i).length := by
      rw [hcopied.cells i, assignTarget_cells, List.nil_append]
      exact haddr
    rw [hcell]
    refine ⟨forall₂_range' _ _ fun k hk => ?_, List.nodup_range' _ _⟩
    obtain ⟨hk', hget⟩ := get_of_split (L := mb.nodes) hsplit hk
    have hnew := hcopied.new (pre.length + k) hk'
    rw [hget] at hnew
    obtain ⟨n0, hn0, _⟩ := hcopied.live _
      (TraversabilityMap3d.mem_nodes.mpr ⟨i, hin, List.get_mem (mb.cells i) k hk⟩)
    rw [hn0, Option.map_some'] at hnew
    have haddr' : h0.length + 1 + pre.length + k = h0.length + 1 + (pre.length + k) := by omega
    refine ⟨Heap.lookup_gt_length (by omega), n0,
      { n0 with connections :=
          addedConnections h0 f mb.nodes (h0.length + 1 + (pre.length + k)) },
      hsub _ _ hn0, ?_, rfl, rfl, rfl, rfl⟩
    rw [haddr']
    exact hnew
  · have hnot : i ∉ mb.indices := fun e => by
      rw [(mb.mem_indices i).mp e] at hout
      exact absurd hout (by simp)
    rw [hcopied.cells i, assignTarget_cells, List.nil_append]
    exact cloneAddrs_flatMap_not_mem _ hnot hown

theorem lineWorld_safeDestination : SafeDestination lineWorld 1 lineMap :=
  ⟨TraversabilityMap3d.construct (0, 0) (1, 1) 1, rfl,
    fun _ => ⟨List.nodup_nil, fun p hp => absurd hp (List.not_mem_nil p)⟩⟩

theorem lineMap_inGrid (p : Nat) (hp : p ∈ lineMap.nodes) :
    ∃ n, lineWorld.heap.lookup p = some n ∧ lineMap.inGrid n.idx = true := by
  obtain ⟨i, hin, hpi⟩ := TraversabilityMap3d.mem_nodes.mp hp
  obtain ⟨n, hn, hni⟩ := lineMap_ownIndex i hin p hpi
  exact ⟨n, hn, hni ▸ hin⟩

theorem deep_copy_preserves_nodes_witness :
    (∀ s', operatorAssign lineWorld 1 0 = .ok s' →
      ∃ ma', s'.getMap 1 = .ok ma' ∧ ma'.numCells = lineMap.numCells ∧
        ma'.resolution = lineMap.resolution ∧
        ∀ i, (lineMap.inGrid i = true →
            List.Forall₂ (IsCloneOf lineWorld.heap s'.heap) (lineMap.cells i) (ma'.cells i) ∧
              (ma'.cells i).Nodup) ∧
          (lineMap.inGrid i = false → ma'.cells i = [])) ∧
    ∃ s', operatorAssign lineWorld 1 0 = .ok s' :=
  ⟨(deep_copy_preserves_nodes lineWorld 1 0 lineMap (by decide) rfl lineMap_ownIndex).1,
   (deep_copy_preserves_nodes lineWorld 1 0 lineMap (by decide) rfl lineMap_ownIndex).2
     lineWorld_safeDestination⟩

/-! ## Deep copy: the edges -/

theorem DeepCopied.inGrid_eq {h h2 : Heap} {inp out out2 : TraversabilityMap3d} {f : Nat → Nat}
    (hc : DeepCopied h inp out h2 out2 f) (i : Index) : out2.inGrid i = out.inGrid i := by
  simp only [TraversabilityMap3d.inGrid, hc.numCells]

theorem DeepCopied.new_mem {h h2 : Heap} {inp out out2 : TraversabilityMap3d} {f : Nat → Nat}
    (hc : DeepCopied h inp out h2 out2 f) (k : Nat) (hk : k < inp.nodes.length) :
    h.length + 1 + k ∈ out2.nodes := by
  obtain ⟨n, hn, hin⟩ := hc.live _ (List.get_mem inp.nodes k hk)
  refine TraversabilityMap3d.mem_nodes.mpr ⟨n.idx, by rw [hc.inGrid_eq]; exact hin, ?_⟩
  rw [hc.cells n.idx]
  exact List.mem_append_right _ (cloneAddrs_get_mem _ hk (by rw [Heap.idxOf, hn]; rfl))

theorem DeepCopied.mem_nodes_bounds {h h2 : Heap} {inp out out2 : TraversabilityMap3d}
    {f : Nat → Nat} (hc : DeepCopied h inp out h2 out2 f) (hempty : ∀ i, out.cells i = [])
    {p : Nat} (hp : p ∈ out2.nodes) :
    ∃ k, k < inp.nodes.length ∧ p = h.length + 1 + k := by
  obtain ⟨i, _, hpi⟩ := TraversabilityMap3d.mem_nodes.mp hp
  rw [hc.cells i, hempty i, List.nil_append] at hpi
  have := cloneAddrs_mem_bounds hpi
  exact ⟨p - (h.length + 1), by omega, by omega⟩

theorem DeepCopied.isCloneOf {s0 h h2 : Heap} {inp out out2 : TraversabilityMap3d}
    {f : Nat → Nat} (hc : DeepCopied h inp out h2 out2 f) (hlen : h.length = s0.length)
    (hsub : ∀ q n, h.lookup q = some n → s0.lookup q = some n) (k : Nat)
    (hk : k < inp.nodes.length) :
    IsCloneOf s0 h2 (inp.nodes.get ⟨k, hk⟩) (h.length + 1 + k) ∧
      h2.connectionsOf (h.length + 1 + k) = addedConnections h f inp.nodes (h.length + 1 + k) := by
  obtain ⟨n, hn, _⟩ := hc.live _ (List.get_mem inp.nodes k hk)
  have hnew := hc.new k hk
  rw [hn, Option.map_some'] at hnew
  refine ⟨⟨Heap.lookup_gt_length (by omega), n, _, hsub _ _ hn, hnew, rfl, rfl, rfl, rfl⟩, ?_⟩
  simp [Heap.connectionsOf, hnew]

theorem lineMap_nodes : lineMap.nodes = [1, 2, 3, 4, 5] := rfl

/-- C2: deep copy preserves edges.  Let `b` name a map whose nodes are live, each stored
once, and whose connections all target nodes stored in `b`, and let `a ≠ b`.  In every
state that `a = b` produces there is a one-to-one correspondence `f` from the nodes of `b`
onto the nodes of `a` that sends each node to a fresh copy of it, and for every node of
`b` the connection list of its copy is, entry by entry, the list of the copies of its
connections: the same length, the same order, between the new nodes.  The assignment does
produce a state when every node's own `Index` lies in the grid and clearing `a` frees no
node of `b`. -/
theorem deep_copy_preserves_edges (s : World) (a b : Nat) (mb : TraversabilityMap3d)
    (hab : a ≠ b) (hb : s.getMap b = .ok mb)
    (hlive : ∀ p ∈ mb.nodes, s.heap.lookup p ≠ none) (hnd : mb.nodes.Nodup)
    (hclosed : ∀ p ∈ mb.nodes, ∀ q ∈ s.heap.connectionsOf p, q ∈ mb.nodes) :
    (∀ s', operatorAssign s a b = .ok s' →
      ∃ (ma' : TraversabilityMap3d) (f : Nat → Nat), s'.getMap a = .ok ma' ∧
        (∀ p ∈ mb.nodes, f p ∈ ma'.nodes ∧ IsCloneOf s.heap s'.heap p (f p)) ∧
        (∀ p ∈ mb.nodes, ∀ p' ∈ mb.nodes, f p = f p' → p = p') ∧
        (∀ p' ∈ ma'.nodes, ∃ p ∈ mb.nodes, f p = p') ∧
        ∀ p ∈ mb.nodes,
          List.Forall₂ (fun q q' => q ∈ mb.nodes ∧ q' = f q ∧ q' ∈ ma'.nodes)
            (s.heap.connectionsOf p) (s'.heap.connectionsOf (f p))) ∧
    ((∀ p ∈ mb.nodes, ∃ n, s.heap.lookup p = some n ∧ mb.inGrid n.idx = true) →
      SafeDestination s a mb → ∃ s', operatorAssign s a b = .ok s') := by
  refine ⟨fun s' hs' => ?_, fun hgrid hsafe => operatorAssign_live hab hb hgrid hsafe⟩
  have hbound : ∀ p ∈ mb.nodes, p ≤ s.heap.length := fun p hp => by
    obtain ⟨n, hn⟩ := Option.ne_none_iff_exists'.mp (hlive p hp)
    exact (Heap.lookup_le_length hn).2
  obtain ⟨ma, h0, t2, f, _, hlen0, hsub, hc, hgeta, _⟩ := operatorAssign_ok hab hb hbound hs'
  have hfget := hc.table_nodup hnd
  have hclone : ∀ p ∈ mb.nodes, f p ∈ t2.nodes ∧ IsCloneOf s.heap s'.heap p (f p) ∧
      s'.heap.connectionsOf (f p) = addedConnections h0 f mb.nodes (f p) := by
    intro p hp
    obtain ⟨⟨k, hk⟩, rfl⟩ := List.get_of_mem hp
    rw [hfget k hk]
    exact ⟨hc.new_mem k hk, (hc.isCloneOf hlen0 hsub k hk).1, (hc.isCloneOf hlen0 hsub k hk).2⟩
  have hinj : ∀ p ∈ mb.nodes, ∀ p' ∈ mb.nodes, f p = f p' → p = p' := by
    intro p hp p' hp' hfe
    obtain ⟨⟨k, hk⟩, rfl⟩ := List.get_of_mem hp
    obtain ⟨⟨k', hk'⟩, rfl⟩ := List.get_of_mem hp'
    rw [hfget k hk, hfget k' hk'] at hfe
    have : k = k' := by omega
    subst this
    rfl
  refine ⟨t2, f, hgeta, fun p hp => ⟨(hclone p hp).1, (hclone p hp).2.1⟩, hinj, ?_, ?_⟩
  · intro p' hp'
    obtain ⟨k, hk, rfl⟩ := hc.mem_nodes_bounds (assignTarget_cells ma mb) hp'
    exact ⟨mb.nodes.get ⟨k, hk⟩, List.get_mem _ _ _, hfget k hk⟩
  · intro p hp
    have hsame : h0.connectionsOf p = s.heap.connectionsOf p := by
      obtain ⟨n, hn, _⟩ := hc.live p hp
      simp [Heap.connectionsOf, hn, hsub p n hn]
    rw [(hclone p hp).2.2, addedConnections_of_injOn hnd hinj hp, hsame,
      List.forall₂_map_right_iff, List.forall₂_same]
    intro q hq
    exact ⟨hclosed p hp q hq, rfl, (hclone q (hclosed p hp q hq)).1⟩

theorem deep_copy_preserves_edges_witness :
    (∀ s', operatorAssign lineWorld 1 0 = .ok s' →
      ∃ (ma' : TraversabilityMap3d) (f : Nat → Nat), s'.getMap 1 = .ok ma' ∧
        (∀ p ∈ lineMap.nodes,
          f p ∈ ma'.nodes ∧ IsCloneOf lineWorld.heap s'.heap p (f p)) ∧
        (∀ p ∈ lineMap.nodes, ∀ p' ∈ lineMap.nodes, f p = f p' → p = p') ∧
        (∀ p' ∈ ma'.nodes, ∃ p ∈ lineMap.nodes, f p = p') ∧
        ∀ p ∈ lineMap.nodes,
          List.Forall₂ (fun q q' => q ∈ lineMap.nodes ∧ q' = f q ∧ q' ∈ ma'.nodes)
            (lineWorld.heap.connectionsOf p) (s'.heap.connectionsOf (f p))) ∧
    (∃ s', operatorAssign lineWorld 1 0 = .ok s') ∧
    ∃ s', operatorAssign lineWorld 1 0 = .ok s' ∧
      lineWorld.heap.connectionsOf 4 = [3, 5, 1] ∧ s'.heap.connectionsOf 9 = [8, 10, 6] :=
  ⟨(deep_copy_preserves_edges lineWorld 1 0 lineMap (by decide) rfl
      (by rw [lineMap_nodes]; decide) (by rw [lineMap_nodes]; decide)
      (by rw [lineMap_nodes]; decide)).1,
   (deep_copy_preserves_edges lineWorld 1 0 lineMap (by decide) rfl
      (by rw [lineMap_nodes]; decide) (by rw [lineMap_nodes]; decide)
      (by rw [lineMap_nodes]; decide)).2 lineMap_inGrid lineWorld_safeDestination,
   _, rfl, rfl, rfl⟩

/-! ## Deep copy: no aliasing -/

theorem setHeight_live {h : Heap} {p : Nat} {n : TraversabilityNodeBase}
    (hp : h.lookup p = some n) (newHeight : ℚ) :
    ∃ h', setHeight h p newHeight = .ok h' ∧
      h'.lookup p = some { n with height := newHeight } ∧
      ∀ q, q ≠ p → h'.lookup q = h.lookup q := by
  cases p with
  | zero => simp [Heap.lookup] at hp
  | succ k =>
    have hk : k < h.length := (Heap.lookup_le_length hp).2
    refine ⟨h.set k (some { n with height := newHeight }), ?_, ?_, fun q hq => ?_⟩
    · simp [setHeight, Heap.deref, Heap.store, hp]
    · simp [Heap.lookup_set, hk]
    · simp [Heap.lookup_set, hq]

/-- C3: deep copy has zero aliasing.  Let `b` name a map whose nodes are live and let
`a ≠ b`.  In every state that `a = b` produces, `b` and its nodes are as before, no node
stored in a cell of `a` and no connection target of a node of `a` is a node of `b`, and
setting the height of any node of `a` succeeds and leaves every node of `b` (all fields
and connections) unchanged.  The assignment does produce a state when every node's own
`Index` lies in the grid and clearing `a` frees no node of `b`. -/
theorem deep_copy_no_aliasing (s : World) (a b : Nat) (mb : TraversabilityMap3d)
    (hab : a ≠ b) (hb : s.getMap b = .ok mb)
    (hlive : ∀ p ∈ mb.nodes, s.heap.lookup p ≠ none) :
    (∀ s', operatorAssign s a b = .ok s' →
      ∃ ma', s'.getMap a = .ok ma' ∧ s'.getMap b = .ok mb ∧
        (∀ q ∈ mb.nodes, s'.heap.lookup q = s.heap.lookup q) ∧
        (∀ p ∈ ma'.nodes, p ∉ mb.nodes ∧ ∀ q ∈ s'.heap.connectionsOf p, q ∉ mb.nodes) ∧
        ∀ p ∈ ma'.nodes, ∀ newHeight : ℚ,
          ∃ h'', setHeight s'.heap p newHeight = .ok h'' ∧
            (∃ n, s'.heap.lookup p = some n ∧
              h''.lookup p = some { n with height := newHeight }) ∧
            ∀ q ∈ mb.nodes, h''.lookup q = s.heap.lookup q) ∧
    ((∀ p ∈ mb.nodes, ∃ n, s.heap.lookup p = some n ∧ mb.inGrid n.idx = true) →
      SafeDestination s a mb → ∃ s', operatorAssign s a b = .ok s') := by
  refine ⟨fun s' hs' => ?_, fun hgrid hsafe => operatorAssign_live hab hb hgrid hsafe⟩
  have hbound : ∀ p ∈ mb.nodes, p ≤ s.heap.length := fun p hp => by
    obtain ⟨n, hn⟩ := Option.ne_none_iff_exists'.mp (hlive p hp)
    exact (Heap.lookup_le_length hn).2
  obtain ⟨ma, h0, t2, f, _, hlen0, hsub, hc, hgeta, hother⟩ :=
    operatorAssign_ok hab hb hbound hs'
  have hsrc : ∀ q ∈ mb.nodes, s'.heap.lookup q = s.heap.lookup q := by
    intro q hq
    obtain ⟨n, hn, _⟩ := hc.live q hq
    rw [hc.old q (by rw [hlen0]; exact hbound q hq), hn, hsub q n hn]
  have hfresh : ∀ p ∈ t2.nodes, s.heap.length < p ∧ ∃ n, s'.heap.lookup p = some n := by
    intro p hp
    obtain ⟨k, hk, rfl⟩ := hc.mem_nodes_bounds (assignTarget_cells ma mb) hp
    obtain ⟨_, _, n', _, hn', _⟩ := (hc.isCloneOf hlen0 hsub k hk).1
    exact ⟨by omega, n', hn'⟩
  have hval : ∀ q, f q = nullptr ∨ s.heap.length < f q := by
    intro q
    by_cases hq : q ∈ mb.nodes
    · exact Or.inr (by have := (hc.table_in q hq).1; omega)
    · exact Or.inl (hc.table_out q hq)
  have hnot : ∀ x, (x = nullptr ∨ s.heap.length < x) → x ∉ mb.nodes := by
    intro x hx hmem
    obtain ⟨n, hn⟩ := Option.ne_none_iff_exists'.mp (hlive x hmem)
    have := Heap.lookup_le_length hn
    rcases hx with rfl | hx
    · exact absurd this.1 (by simp [nullptr])
    · omega
  refine ⟨t2, hgeta, (hother b (Ne.symm hab)).trans hb, hsrc, fun p hp => ⟨?_, ?_⟩,
    fun p hp newHeight => ?_⟩
  · exact hnot p (Or.inr (hfresh p hp).1)
  · intro q hq
    obtain ⟨k, hk, rfl⟩ := hc.mem_nodes_bounds (assignTarget_cells ma mb) hp
    rw [(hc.isCloneOf hlen0 hsub k hk).2] at hq
    obtain ⟨_, _, _, q', _, rfl⟩ := addedConnections_mem hq
    exact hnot _ (hval q')
  · obtain ⟨hgt, n, hn⟩ := hfresh p hp
    obtain ⟨h'', hset, hself, hframe⟩ := setHeight_live hn newHeight
    refine ⟨h'', hset, ⟨n, hn, hself⟩, fun q hq => ?_⟩
    have hqp : q ≠ p := fun e => by
      have := hbound q hq
      omega
    rw [hframe q hqp, hsrc q hq]

theorem deep_copy_no_aliasing_witness :
    (∀ s', operatorAssign lineWorld 1 0 = .ok s' →
      ∃ ma', s'.getMap 1 = .ok ma' ∧ s'.getMap 0 = .ok lineMap ∧
        (∀ q ∈ lineMap.nodes, s'.heap.lookup q = lineWorld.heap.lookup q) ∧
        (∀ p ∈ ma'.nodes,
          p ∉ lineMap.nodes ∧ ∀ q ∈ s'.heap.connectionsOf p, q ∉ lineMap.nodes) ∧
        ∀ p ∈ ma'.nodes, ∀ newHeight : ℚ,
          ∃ h'', setHeight s'.heap p newHeight = .ok h'' ∧
            (∃ n, s'.heap.lookup p = some n ∧
              h''.lookup p = some { n with height := newHeight }) ∧
            ∀ q ∈ lineMap.nodes, h''.lookup q = lineWorld.heap.lookup q) ∧
    (∃ s', operatorAssign lineWorld 1 0 = .ok s') ∧
    ∃ s', operatorAssign lineWorld 1 0 = .ok s' ∧
      ∃ h'', setHeight s'.heap 6 7 = .ok h'' ∧ h''.lookup 1 = lineWorld.heap.lookup 1 :=
  ⟨(deep_copy_no_aliasing lineWorld 1 0 lineMap (by decide) rfl
      (by rw [lineMap_nodes]; decide)).1,
   (deep_copy_no_aliasing lineWorld 1 0 lineMap (by decide) rfl
      (by rw [lineMap_nodes]; decide)).2 lineMap_inGrid lineWorld_safeDestination,
   _, rfl, _, rfl, rfl⟩

/-! ## Ownership -/

/-- C9, on the failing run: after `leakRun` (construct a map, insert a node, take a view
with `cast`, assign the map to the view) the view, whose `ownsNodePointers` flag is still
false, stores the live node at address 2 that the assignment allocated, and no map with
`ownsNodePointers` true stores it: the single-owner invariant does not hold. -/
theorem single_owner_broken_by_assign_to_view :
    run World.initial leakRun = .ok leakWorld ∧
    leakWorld.heap.lookup 2 ≠ none ∧ leakWorld.stores 1 2 ∧
    (∀ o, ¬ leakWorld.owns o 2) ∧ ¬ SingleOwner leakWorld := by
  have hrun : run World.initial leakRun = .ok leakWorld := rfl
  have hlive : leakWorld.heap.lookup 2 ≠ none := by decide
  have hlen : leakWorld.maps.length = 2 := rfl
  have h0 : (leakWorld.maps[0]?).map (fun m => m.nodes) = some [1] := rfl
  have h1 : (leakWorld.maps[1]?).map (fun m => (m.nodes, m.ownsNodePointers)) =
      some ([2], false) := rfl
  have hstores : leakWorld.stores 1 2 := by
    cases hm : leakWorld.maps[1]? with
    | none => simp [hm] at h1
    | some m =>
      simp only [hm, Option.map_some', Option.some.injEq, Prod.mk.injEq] at h1
      exact ⟨m, World.getMap_of_get? hm, by simp [h1.1]⟩
  have hnone : ∀ o, ¬ leakWorld.owns o 2 := by
    rintro o ⟨m, hget, hown, hmem⟩
    have hm := World.getMap_ok hget
    match o, hm with
    | 0, hm =>
      simp only [hm, Option.map_some', Option.some.injEq] at h0
      simp [h0] at hmem
    | 1, hm =>
      simp only [hm, Option.map_some', Option.some.injEq, Prod.mk.injEq] at h1
      simp [h1.2] at hown
    | o + 2, hm =>
      have := (List.getElem?_eq_some_iff.mp hm).1
      omega
  refine ⟨hrun, hlive, hstores, hnone, fun hinv => ?_⟩
  obtain ⟨o, ho, _⟩ := hinv 2 1 hlive hstores
  exact hnone o ho

/-! ## `save` -/

theorem Heap.ne_nullptr_of_live {h : Heap} {p : Nat} (hp : h.lookup p ≠ none) : p ≠ nullptr := by
  rintro rfl
  exact hp rfl

theorem savePointer_new {h : Heap} {saved : List Nat} {p : Nat} (hp : h.lookup p ≠ none)
    (hnew : p ∉ saved) : savePointer h saved p = .ok (saved ++ [p], objectOf h p) := by
  obtain ⟨n, hn⟩ := Option.ne_none_iff_exists'.mp hp
  simp [savePointer, Heap.ne_nullptr_of_live hp, hnew, Heap.deref, hn, objectOf]

theorem savePointer_old {h : Heap} {saved : List Nat} {p : Nat} (hp : p ≠ nullptr)
    (hold : p ∈ saved) : savePointer h saved p = .ok (saved, .reference (saved.indexOf p)) := by
  simp [savePointer, hp, hold]

theorem savePointers_new (h : Heap) (ps saved : List Nat) (hnd : ps.Nodup)
    (hnew : ∀ p ∈ ps, p ∉ saved) (hlive : ∀ p ∈ ps, h.lookup p ≠ none) :
    savePointers h saved ps = .ok (saved ++ ps, ps.map (objectOf h)) := by
  induction ps generalizing saved with
  | nil => simp [savePointers]
  | cons p ps ih =>
    obtain ⟨hnot, hnd'⟩ := List.nodup_cons.mp hnd
    have hnew' : ∀ q ∈ ps, q ∉ saved ++ [p] := by
      intro q hq hmem
      rcases List.mem_append.mp hmem with hm | hm
      · exact hnew q (List.mem_cons_of_mem _ hq) hm
      · exact hnot (List.mem_singleton.mp hm ▸ hq)
    simp [savePointers, savePointer_new (hlive p (List.mem_cons_self _ _))
      (hnew p (List.mem_cons_self _ _)),
      ih (saved ++ [p]) hnd' hnew' fun q hq => hlive q (List.mem_cons_of_mem _ hq)]

theorem savePointers_old (h : Heap) (qs saved : List Nat)
    (hold : ∀ q ∈ qs, q ∈ saved ∧ q ≠ nullptr) :
    savePointers h saved qs = .ok (saved, qs.map fun q => .reference (saved.indexOf q)) := by
  induction qs with
  | nil => simp [savePointers]
  | cons q qs ih =>
    obtain ⟨hq, hq0⟩ := hold q (List.mem_cons_self _ _)
    simp [savePointers, savePointer_old hq0 hq,
      ih fun q' hq' => hold q' (List.mem_cons_of_mem _ hq')]

theorem forEach_saveCell (h : Heap) (cells : Index → LevelList) (I : List Index)
    (saved : List Nat) (out : List (List PointerRecord)) (hnd : (I.flatMap cells).Nodup)
    (hnew : ∀ p ∈ I.flatMap cells, p ∉ saved)
    (hlive : ∀ p ∈ I.flatMap cells, h.lookup p ≠ none) :
    forEach (fun acc idx => saveCell h acc (cells idx)) (saved, out) I =
      .ok (saved ++ I.flatMap cells, out ++ I.map fun i => (cells i).map (objectOf h)) := by
  induction I generalizing saved out with
  | nil => simp [forEach]
  | cons i I ih =>
    rw [List.flatMap_cons] at hnd hnew hlive
    obtain ⟨hnd1, hnd2, hdisj⟩ := List.nodup_append.mp hnd
    have hstep : savePointers h saved (cells i) =
        .ok (saved ++ cells i, (cells i).map (objectOf h)) :=
      savePointers_new h _ _ hnd1 (fun p hp => hnew p (List.mem_append_left _ hp))
        (fun p hp => hlive p (List.mem_append_left _ hp))
    have hnew' : ∀ p ∈ I.flatMap cells, p ∉ saved ++ cells i := by
      intro p hp hmem
      rcases List.mem_append.mp hmem with hm | hm
      · exact hnew p (List.mem_append_right _ hp) hm
      · exact hdisj hm hp
    have hcell : saveCell h (saved, out) (cells i) =
        .ok (saved ++ cells i, out ++ [(cells i).map (objectOf h)]) := by
      simp only [saveCell, hstep]
    simp only [forEach, hcell]
    rw [ih _ _ hnd2 hnew' fun p hp => hlive p (List.mem_append_right _ hp)]
    simp

theorem forEach_saveHelper (h : Heap) (saved : List Nat) (M : List Nat)
    (out : List (PointerRecord × List PointerRecord))
    (hM : ∀ p ∈ M, p ∈ saved ∧ h.lookup p ≠ none ∧
      ∀ q ∈ h.connectionsOf p, q ∈ saved ∧ q ≠ nullptr) :
    forEach (saveHelper h) (saved, out) M = .ok (saved, out ++ M.map (helperOf h saved)) := by
  induction M generalizing out with
  | nil => simp [forEach]
  | cons p ps ih =>
    obtain ⟨hp, hlive, hconn⟩ := hM p (List.mem_cons_self _ _)
    obtain ⟨n, hn⟩ := Option.ne_none_iff_exists'.mp hlive
    have hconn' : ∀ q ∈ n.connections, q ∈ saved ∧ q ≠ nullptr := by
      simpa [Heap.connectionsOf, hn] using hconn
    have hstep : saveHelper h (saved, out) p = .ok (saved, out ++ [helperOf h saved p]) := by
      simp [saveHelper, Heap.deref, hn, savePointer_old (Heap.ne_nullptr_of_live hlive) hp,
        savePointers_old h _ _ hconn', helperOf, Heap.connectionsOf]
    simp only [forEach, hstep]
    rw [ih _ fun q hq => hM q (List.mem_cons_of_mem _ hq)]
    simp

theorem TraversabilityMap3d.length_nodes (m : TraversabilityMap3d) :
    (m.indices.map fun idx => (m.cells idx).length).sum = m.nodes.length := by
  simp only [TraversabilityMap3d.nodes]
  generalize m.indices = I
  induction I with
  | nil => rfl
  | cons i I ih => simp [List.flatMap_cons, ih]

theorem TraversabilityMap3d.save_eq (s : World) (m : TraversabilityMap3d)
    (hlive : ∀ p ∈ m.nodes, s.heap.lookup p ≠ none) (hnd : m.nodes.Nodup)
    (hclosed : ∀ p ∈ m.nodes, ∀ q ∈ s.heap.connectionsOf p, q ∈ m.nodes) :
    m.save s = .ok (archiveOf s m) := by
  have hcells := forEach_saveCell s.heap m.cells m.indices [] [] hnd
    (fun p _ => List.not_mem_nil p) hlive
  have hhelp := forEach_saveHelper s.heap m.nodes m.nodes [] fun p hp =>
    ⟨hp, hlive p hp, fun q hq =>
      ⟨hclosed p hp q hq, Heap.ne_nullptr_of_live (hlive q (hclosed p hp q hq))⟩⟩
  simp only [List.nil_append] at hcells hhelp
  simp only [TraversabilityMap3d.save, hcells, forEach_flatMap, m.length_nodes]
  have hn : m.indices.flatMap m.cells = m.nodes := rfl
  rw [hn, hhelp]
  rfl

/-! ## `load` -/

theorem TraversabilityNodeBase.deserialize_serialize (n : TraversabilityNodeBase) :
    TraversabilityNodeBase.deserialize n.serialize = some n.withoutConnections := rfl

theorem loadPointer_objectOf {h : Heap} {p : Nat} (hp : h.lookup p ≠ none) (ht : Heap)
    (loaded : List Nat) :
    loadPointer ht loaded (objectOf h p) =
      .ok (ht ++ [(h.lookup p).map TraversabilityNodeBase.withoutConnections],
        loaded ++ [ht.length + 1], ht.length + 1) := by
  obtain ⟨n, hn⟩ := Option.ne_none_iff_exists'.mp hp
  simp [objectOf, hn, loadPointer, TraversabilityNodeBase.deserialize_serialize, Heap.alloc]

theorem loadPointers_objectOf (h : Heap) (ps : List Nat) (ht : Heap) (loaded : List Nat)
    (hlive : ∀ p ∈ ps, h.lookup p ≠ none) :
    loadPointers ht loaded (ps.map (objectOf h)) =
      .ok (ht ++ ps.map (fun p => (h.lookup p).map TraversabilityNodeBase.withoutConnections),
        loaded ++ List.range' (ht.length + 1) ps.length,
        List.range' (ht.length + 1) ps.length) := by
  induction ps generalizing ht loaded with
  | nil => simp [loadPointers]
  | cons p ps ih =>
    simp only [List.map_cons, loadPointers,
      loadPointer_objectOf (hlive p (List.mem_cons_self _ _)),
      ih _ _ fun q hq => hlive q (List.mem_cons_of_mem _ hq)]
    simp [List.range'_succ]

theorem forEach_loadCell (h : Heap) (cells : Index → LevelList) (I : List Index) (ht : Heap)
    (loaded : List Nat) (out : List LevelList)
    (hlive : ∀ p ∈ I.flatMap cells, h.lookup p ≠ none) :
    forEach loadCell (ht, loaded, out) (I.map fun i => (cells i).map (objectOf h)) =
      .ok (ht ++ (I.flatMap cells).map
            (fun p => (h.lookup p).map TraversabilityNodeBase.withoutConnections),
        loaded ++ List.range' (ht.length + 1) (I.flatMap cells).length,
        out ++ cellSegments (ht.length + 1) (I.map cells)) := by
  induction I generalizing ht loaded out with
  | nil => simp [forEach, cellSegments]
  | cons i I ih =>
    rw [List.flatMap_cons] at hlive
    have hcell : loadCell (ht, loaded, out) ((cells i).map (objectOf h)) =
        .ok (ht ++ (cells i).map
              (fun p => (h.lookup p).map TraversabilityNodeBase.withoutConnections),
          loaded ++ List.range' (ht.length + 1) (cells i).length,
          out ++ [List.range' (ht.length + 1) (cells i).length]) := by
      simp only [loadCell, loadPointers_objectOf h _ _ _
        fun p hp => hlive p (List.mem_append_left _ hp)]
    have e1 : (ht ++ (cells i).map
        (fun p => (h.lookup p).map TraversabilityNodeBase.withoutConnections)).length + 1 =
        ht.length + 1 + (cells i).length := by
      simp only [List.length_append, List.length_map]
      omega
    have e2 : List.range' (ht.length + 1) (cells i).length ++
        List.range' (ht.length + 1 + (cells i).length) (I.flatMap cells).length =
        List.range' (ht.length + 1) (cells i ++ I.flatMap cells).length := by
      rw [List.range'_append_1, List.length_append,
        Nat.add_comm (I.flatMap cells).length (cells i).length]
    simp only [List.map_cons, forEach, hcell]
    rw [ih _ _ _ fun p hp => hlive p (List.mem_append_right _ hp), e1]
    simp only [cellSegments, List.map_append, List.append_assoc, e2, List.singleton_append,
      List.flatMap_cons]

theorem loadPointers_references (ht : Heap) (L qs : List Nat) (a : Nat)
    (hqs : ∀ q ∈ qs, q ∈ L) :
    loadPointers ht (List.range' a L.length) (qs.map fun q => .reference (L.indexOf q)) =
      .ok (ht, List.range' a L.length, qs.map fun q => a + L.indexOf q) := by
  induction qs with
  | nil => simp [loadPointers]
  | cons q qs ih =>
    have hq : L.indexOf q < L.length := List.indexOf_lt_length.mpr (hqs q (List.mem_cons_self _ _))
    have hget : (List.range' a L.length)[L.indexOf q]? = some (a + L.indexOf q) := by
      rw [List.getElem?_range' _ _ hq]
      simp
    simp only [List.map_cons, loadPointers, loadPointer, hget,
      ih fun q' hq' => hqs q' (List.mem_cons_of_mem _ hq')]

theorem loadHelper_helperOf (h : Heap) (L : List Nat) (a : Nat) {p : Nat} (hp : p ∈ L)
    (hconn : ∀ q ∈ h.connectionsOf p, q ∈ L) {hc : Heap} {nt : TraversabilityNodeBase}
    (hnt : hc.lookup (a + L.indexOf p) = some nt) :
    ∃ h', loadHelper (hc, List.range' a L.length) (helperOf h L p) =
        .ok (h', List.range' a L.length) ∧ h'.length = hc.length ∧
      ∀ x, h'.lookup x =
        if x = a + L.indexOf p then
          some { nt with connections :=
            nt.connections ++ (h.connectionsOf p).map fun q => a + L.indexOf q }
        else hc.lookup x := by
  obtain ⟨h', hh', hlen, hlook⟩ :=
    forEach_pushBack (fun q => a + L.indexOf q) hnt (h.connectionsOf p)
  have hnode := loadPointers_references hc L [p] a (by simpa using hp)
  have hconns := loadPointers_references hc L (h.connectionsOf p) a hconn
  simp only [List.map_cons, List.map_nil, loadPointers] at hnode
  have hnode' : loadPointer hc (List.range' a L.length) (.reference (L.indexOf p)) =
      .ok (hc, List.range' a L.length, a + L.indexOf p) := by
    cases hlp : loadPointer hc (List.range' a L.length) (.reference (L.indexOf p)) with
    | error e => simp [hlp] at hnode
    | ok r =>
      simp only [hlp, Except.ok.injEq, Prod.mk.injEq, List.cons.injEq, and_true] at hnode
      obtain ⟨r1, r2, r3⟩ := r
      simp only at hnode
      rw [hnode.1, hnode.2.1, hnode.2.2]
  refine ⟨h', ?_, hlen, hlook⟩
  rw [forEach_map (fun h' n => pushBack h' (a + L.indexOf p) n)
    (fun q => a + L.indexOf q) hc (h.connectionsOf p)] at hh'
  simp only [loadHelper, helperOf, hnode', hconns, addConnection, hh']

theorem forEach_loadHelper (h : Heap) (L : List Nat) (a : Nat) (M : List Nat) (hc : Heap)
    (hM : ∀ p ∈ M, p ∈ L ∧ ∀ q ∈ h.connectionsOf p, q ∈ L)
    (hdst : ∀ p ∈ M, hc.lookup (a + L.indexOf p) ≠ none) :
    ∃ h', forEach loadHelper (hc, List.range' a L.length) (M.map (helperOf h L)) =
        .ok (h', List.range' a L.length) ∧ h'.length = hc.length ∧
      ∀ x, h'.lookup x = (hc.lookup x).map fun n =>
        { n with connections :=
            n.connections ++ addedConnections h (fun q => a + L.indexOf q) M x } := by
  induction M generalizing hc with
  | nil =>
    refine ⟨hc, rfl, rfl, fun x => ?_⟩
    cases hc.lookup x <;> simp [addedConnections]
  | cons p ps ih =>
    obtain ⟨hp, hconn⟩ := hM p (List.mem_cons_self _ _)
    obtain ⟨nt, hnt⟩ := Option.ne_none_iff_exists'.mp (hdst p (List.mem_cons_self _ _))
    obtain ⟨h1, hstep, hlen1, hlook1⟩ := loadHelper_helperOf h L a hp hconn hnt
    have hdst1 : ∀ q ∈ ps, h1.lookup (a + L.indexOf q) ≠ none := fun q hq => by
      rw [hlook1]
      by_cases he : a + L.indexOf q = a + L.indexOf p
      · simp [he]
      · simp only [he, if_false]
        exact hdst q (List.mem_cons_of_mem _ hq)
    obtain ⟨h', hh', hlen', hlook'⟩ :=
      ih h1 (fun q hq => hM q (List.mem_cons_of_mem _ hq)) hdst1
    refine ⟨h', by simp only [List.map_cons, forEach, hstep, hh'], hlen'.trans hlen1,
      fun x => ?_⟩
    rw [hlook' x, hlook1 x]
    simp only [addedConnections]
    by_cases hx : x = a + L.indexOf p
    · subst hx
      simp [hnt]
    · have hx' : ¬ a + L.indexOf p = x := fun e => hx e.symm
      simp [hx, hx']

theorem cellsOfList_segments (cells : Index → LevelList) (I : List Index) (a : Nat)
    {i : Index} (hi : i ∈ I) :
    ∃ pre post, I.flatMap cells = pre ++ cells i ++ post ∧
      cellsOfList I (cellSegments a (I.map cells)) i =
        List.range' (a + pre.length) (cells i).length := by
  induction I generalizing a with
  | nil => exact absurd hi (List.not_mem_nil _)
  | cons j I ih =>
    by_cases hij : i = j
    · subst hij
      refine ⟨[], I.flatMap cells, by simp, ?_⟩
      simp [cellsOfList, cellSegments, List.lookup_cons]
    · have hi' : i ∈ I := by
        rcases List.mem_cons.mp hi with e | e
        · exact absurd e hij
        · exact e
      obtain ⟨pre, post, hsplit, hcell⟩ := ih (a + (cells j).length) hi'
      refine ⟨cells j ++ pre, post, by simp [hsplit], ?_⟩
      have hbeq : (i == j) = false := by simpa using hij
      simp only [cellsOfList, cellSegments, List.map_cons, List.zip_cons_cons, List.lookup_cons,
        hbeq, List.length_append] at hcell ⊢
      rw [hcell]
      congr 1
      omega

/-- The result of `load` on the archive of a map whose nodes are live, each stored once,
with all connections inside the map. -/
theorem TraversabilityMap3d.load_archiveOf (s t : World) (m : TraversabilityMap3d) (data : Nat)
    (hlive : ∀ p ∈ m.nodes, s.heap.lookup p ≠ none)
    (hclosed : ∀ p ∈ m.nodes, ∀ q ∈ s.heap.connectionsOf p, q ∈ m.nodes) :
    ∃ h2 m', TraversabilityMap3d.load t data (archiveOf s m) =
        .ok { heap := h2, frames := Function.update t.frames data (s.frames m.localMapData),
              maps := t.maps ++ [m'] } ∧
      m'.numCells = m.numCells ∧ m'.resolution = m.resolution ∧
      m'.cells = cellsOfList m.indices (cellSegments (t.heap.length + 1) (m.indices.map m.cells)) ∧
      ∀ x, h2.lookup x =
        (Heap.lookup (t.heap ++ m.nodes.map fun p =>
            (s.heap.lookup p).map TraversabilityNodeBase.withoutConnections) x).map fun n =>
          { n with connections := n.connections ++ addedConnections s.heap (loadedAt t m) m.nodes x } := by
  have hphase1 := forEach_loadCell s.heap m.cells m.indices t.heap [] [] hlive
  simp only [List.nil_append] at hphase1
  have hdst : ∀ p ∈ m.nodes, Heap.lookup (t.heap ++ m.nodes.map fun p =>
      (s.heap.lookup p).map TraversabilityNodeBase.withoutConnections)
      (t.heap.length + 1 + m.nodes.indexOf p) ≠ none := by
    intro p hp
    have hk : m.nodes.indexOf p < m.nodes.length := List.indexOf_lt_length.mpr hp
    rw [Heap.lookup_append_map _ _ _ hk, List.indexOf_get]
    obtain ⟨n, hn⟩ := Option.ne_none_iff_exists'.mp (hlive p hp)
    simp [hn]
  obtain ⟨h2, hphase2, _, hlook⟩ := forEach_loadHelper s.heap m.nodes (t.heap.length + 1)
    m.nodes _ (fun p hp => ⟨hp, hclosed p hp⟩) hdst
  refine ⟨h2, ⟨m.numCells, m.resolution, data, cellsOfList m.indices
    (cellSegments (t.heap.length + 1) (m.indices.map m.cells)), true⟩, ?_, rfl, rfl, rfl, hlook⟩
  have hn : m.indices.flatMap m.cells = m.nodes := rfl
  rw [hn] at hphase1
  have htake : (m.nodes.map (helperOf s.heap m.nodes)).take m.nodes.length =
      m.nodes.map (helperOf s.heap m.nodes) := List.take_of_length_le (by simp)
  simp only [TraversabilityMap3d.load, archiveOf, hphase1, List.length_map, Nat.lt_irrefl,
    if_false, htake, hphase2]
  rfl

/-- C10: persistence round trip.  For a map whose nodes are live, each stored once, and
whose connections all target nodes stored in the map, `save` returns an archive and `load`
applied to this archive (in any program state `t`) returns a state with a new map of the
same extents and resolution; there is a one-to-one node correspondence `f` such that each
cell of the new map lists, position by position, the images of the nodes of the old cell,
all new nodes, with the same height, `Index`, type and expansion flag, and the connection
list of the image of a node is, entry by entry, the list of the images of its
connections. -/
theorem save_load_round_trip (s t : World) (m : TraversabilityMap3d) (data : Nat)
    (hlive : ∀ p ∈ m.nodes, s.heap.lookup p ≠ none) (hnd : m.nodes.Nodup)
    (hclosed : ∀ p ∈ m.nodes, ∀ q ∈ s.heap.connectionsOf p, q ∈ m.nodes) :
    ∃ ar s' m', m.save s = .ok ar ∧ TraversabilityMap3d.load t data ar = .ok s' ∧
      s'.getMap t.maps.length = .ok m' ∧ m'.numCells = m.numCells ∧
      m'.resolution = m.resolution ∧
      ∃ f : Nat → Nat,
        (∀ i, m.inGrid i = true →
          List.Forall₂ (fun p p' => p' = f p ∧ t.heap.lookup p' = none ∧
            SameFields s.heap s'.heap p p') (m.cells i) (m'.cells i)) ∧
        (∀ p ∈ m.nodes, ∀ p' ∈ m.nodes, f p = f p' → p = p') ∧
        ∀ p ∈ m.nodes,
          List.Forall₂ (fun q q' => q ∈ m.nodes ∧ q' = f q)
            (s.heap.connectionsOf p) (s'.heap.connectionsOf (f p)) := by
  obtain ⟨h2, m', hload, hnum, hres, hcells, hlook⟩ :=
    TraversabilityMap3d.load_archiveOf s t m data hlive hclosed
  have hinj : ∀ p ∈ m.nodes, ∀ p' ∈ m.nodes, loadedAt t m p = loadedAt t m p' → p = p' :=
    fun p hp p' hp' he => (List.indexOf_inj hp hp').mp (by simp only [loadedAt] at he; omega)
  have hnode : ∀ p ∈ m.nodes, ∃ n, s.heap.lookup p = some n ∧
      h2.lookup (loadedAt t m p) =
        some { n with connections := n.connections.map (loadedAt t m) } := by
    intro p hp
    obtain ⟨n, hn⟩ := Option.ne_none_iff_exists'.mp (hlive p hp)
    have hk : m.nodes.indexOf p < m.nodes.length := List.indexOf_lt_length.mpr hp
    refine ⟨n, hn, ?_⟩
    rw [hlook, addedConnections_of_injOn hnd hinj hp]
    simp only [loadedAt]
    rw [Heap.lookup_append_map _ _ _ hk, List.indexOf_get, hn]
    simp [TraversabilityNodeBase.withoutConnections, Heap.connectionsOf, hn, loadedAt]
  refine ⟨archiveOf s m, _, m', m.save_eq s hlive hnd hclosed, hload, ?_, hnum, hres,
    loadedAt t m, fun i hin => ?_, hinj, fun p hp => ?_⟩
  · simp [World.getMap]
  · obtain ⟨pre, post, hsplit, hcell⟩ := cellsOfList_segments m.cells m.indices
      (t.heap.length + 1) ((m.mem_indices i).mpr hin)
    have hn : m.indices.flatMap m.cells = m.nodes := rfl
    rw [hn] at hsplit
    rw [hcells, hcell]
    refine forall₂_range' _ _ fun k hk => ?_
    obtain ⟨hk', hget⟩ := get_of_split hsplit hk
    have hidx : m.nodes.indexOf ((m.cells i).get ⟨k, hk⟩) = pre.length + k := by
      rw [← hget]
      exact List.indexOf_getElem hnd _ hk'
    have hmem : (m.cells i).get ⟨k, hk⟩ ∈ m.nodes :=
      TraversabilityMap3d.mem_nodes.mpr ⟨i, hin, List.get_mem _ _ _⟩
    obtain ⟨n, hn, hn2⟩ := hnode _ hmem
    have haddr : t.heap.length + 1 + pre.length + k =
        loadedAt t m ((m.cells i).get ⟨k, hk⟩) := by
      simp only [loadedAt, hidx]
      omega
    rw [haddr]
    refine ⟨rfl, Heap.lookup_gt_length ?_, n, _, hn, hn2, rfl, rfl, rfl, rfl⟩
    simp only [loadedAt]
    omega
  · obtain ⟨n, hn, hn2⟩ := hnode p hp
    have hc1 : s.heap.connectionsOf p = n.connections := by simp [Heap.connectionsOf, hn]
    have hc2 : Heap.connectionsOf h2 (loadedAt t m p) = n.connections.map (loadedAt t m) := by
      simp [Heap.connectionsOf, hn2]
    show List.Forall₂ _ (s.heap.connectionsOf p) (Heap.connectionsOf h2 (loadedAt t m p))
    rw [hc2, ← hc1, List.forall₂_map_right_iff, List.forall₂_same]
    exact fun q hq => ⟨hclosed p hp q hq, rfl⟩

theorem save_load_round_trip_witness :
    ∃ ar s' m', lineMap.save lineWorld = .ok ar ∧
      TraversabilityMap3d.load World.initial 0 ar = .ok s' ∧
      s'.getMap World.initial.maps.length = .ok m' ∧ m'.numCells = lineMap.numCells ∧
      m'.resolution = lineMap.resolution ∧
      ∃ f : Nat → Nat,
        (∀ i, lineMap.inGrid i = true →
          List.Forall₂ (fun p p' => p' = f p ∧ World.initial.heap.lookup p' = none ∧
            SameFields lineWorld.heap s'.heap p p') (lineMap.cells i) (m'.cells i)) ∧
        (∀ p ∈ lineMap.nodes, ∀ p' ∈ lineMap.nodes, f p = f p' → p = p') ∧
        ∀ p ∈ lineMap.nodes,
          List.Forall₂ (fun q q' => q ∈ lineMap.nodes ∧ q' = f q)
            (lineWorld.heap.connectionsOf p) (s'.heap.connectionsOf (f p)) :=
  save_load_round_trip lineWorld World.initial lineMap 0
    (by rw [lineMap_nodes]; decide) (by rw [lineMap_nodes]; decide)
    (by rw [lineMap_nodes]; decide)

/-! ## Self-assignment -/

theorem TraversabilityMap3d.nodes_eq_nil {m : TraversabilityMap3d} (h : ∀ i, m.cells i = []) :
    m.nodes = [] := by
  simp [TraversabilityMap3d.nodes, h]

theorem doDeepCopy_of_empty (h : Heap) {inp : TraversabilityMap3d} (out : TraversabilityMap3d)
    (hempty : inp.nodes = []) : doDeepCopy h inp out = .ok (h, out) := by
  rw [doDeepCopy_eq, hempty]
  rfl

theorem operatorAssign_self_eq {s : World} {a : Nat} {ma : TraversabilityMap3d}
    (ha : s.getMap a = .ok ma) :
    operatorAssign s a a =
      match (if ma.ownsNodePointers then forEach Heap.delete s.heap ma.nodes
             else .ok s.heap) with
      | .ok h0 =>
        .ok { heap := h0,
              frames := Function.update s.frames ma.localMapData (s.frames ma.localMapData),
              maps := s.maps.set a (assignTarget ma ma) }
      | .error e => .error e := by
  simp only [operatorAssign, TraversabilityMap3d.clear_eq ha]
  cases (if ma.ownsNodePointers then forEach Heap.delete s.heap ma.nodes else .ok s.heap) with
  | error e => rfl
  | ok h0 =>
    simp only [World.getMap_set_self _ _ ha]
    rw [doDeepCopy_of_empty h0 _ (TraversabilityMap3d.nodes_eq_nil fun _ => rfl)]
    simp only [List.set_set]
    rfl

/-- C18: self-assignment destroys the content.  Let `a` name a map that owns its nodes.
In every state that `a = a` produces, every cell of `a` is empty, every node that `a`
stored has been deleted, and, if `a` stored at least one node, no correspondence sends the
nodes that `a` stored to nodes of `a`: the map is cleared before it is read as the source
of the copy.  The assignment does produce a state when the nodes of `a` are live and each
is stored once. -/
theorem self_assignment_clears (s : World) (a : Nat) (ma : TraversabilityMap3d)
    (ha : s.getMap a = .ok ma) (hown : ma.ownsNodePointers = true) :
    (∀ s', operatorAssign s a a = .ok s' →
      ∃ ma', s'.getMap a = .ok ma' ∧ (∀ i, ma'.cells i = []) ∧ ma'.nodes = [] ∧
        ma'.numCells = ma.numCells ∧ (∀ p ∈ ma.nodes, s'.heap.lookup p = none) ∧
        (ma.nodes ≠ [] → ¬ ∃ f : Nat → Nat, ∀ p ∈ ma.nodes, f p ∈ ma'.nodes)) ∧
    (ma.nodes.Nodup → (∀ p ∈ ma.nodes, s.heap.lookup p ≠ none) →
      ∃ s', operatorAssign s a a = .ok s') := by
  rw [operatorAssign_self_eq ha, if_pos hown]
  refine ⟨fun s' hs' => ?_, fun hnd hlive => ?_⟩
  · cases hd : forEach Heap.delete s.heap ma.nodes with
    | error e => simp [hd] at hs'
    | ok h0 =>
      simp only [hd] at hs'
      have hs := Except.ok.inj hs'
      subst hs
      have hnil : (assignTarget ma ma).nodes = [] :=
        TraversabilityMap3d.nodes_eq_nil (assignTarget_cells ma ma)
      refine ⟨assignTarget ma ma, World.getMap_set_self _ _ ha _, assignTarget_cells ma ma,
        hnil, rfl, (forEach_delete_ok hd).2.1, fun hne hf => ?_⟩
      obtain ⟨f, hf⟩ := hf
      obtain ⟨p, hp⟩ := List.exists_mem_of_ne_nil _ hne
      have := hf p hp
      rw [hnil] at this
      exact absurd this (List.not_mem_nil _)
  · obtain ⟨h0, hh0⟩ := forEach_delete_live hnd hlive
    rw [hh0]
    exact ⟨_, rfl⟩

theorem self_assignment_clears_witness :
    (∀ s', operatorAssign lineWorld 0 0 = .ok s' →
      ∃ ma', s'.getMap 0 = .ok ma' ∧ (∀ i, ma'.cells i = []) ∧ ma'.nodes = [] ∧
        ma'.numCells = lineMap.numCells ∧ (∀ p ∈ lineMap.nodes, s'.heap.lookup p = none) ∧
        (lineMap.nodes ≠ [] → ¬ ∃ f : Nat → Nat, ∀ p ∈ lineMap.nodes, f p ∈ ma'.nodes)) ∧
    (∃ s', operatorAssign lineWorld 0 0 = .ok s') ∧ lineMap.nodes ≠ [] :=
  ⟨(self_assignment_clears lineWorld 0 lineMap rfl rfl).1,
   (self_assignment_clears lineWorld 0 lineMap rfl rfl).2
      (by rw [lineMap_nodes]; decide) (by rw [lineMap_nodes]; decide),
   by rw [lineMap_nodes]; decide⟩

/-! ## Deep copy: where the clones go -/

theorem cloneAddrs_mem_get {h : Heap} {i : Index} (a : Nat) {L : List Nat} {k : Nat}
    (hk : k < L.length) (hmem : a + k ∈ cloneAddrs h i a L) :
    h.idxOf (L.get ⟨k, hk⟩) = some i := by
  induction L generalizing a k with
  | nil => exact absurd hk (Nat.not_lt_zero k)
  | cons p ps ih =>
    simp only [cloneAddrs, List.mem_append] at hmem
    cases k with
    | zero =>
      rcases hmem with hmem | hmem
      · by_cases hp : h.idxOf p = some i
        · simpa using hp
        · simp [hp] at hmem
      · have := (cloneAddrs_mem_bounds hmem).1
        omega
    | succ j =>
      have hj : j < ps.length := by simpa using hk
      rcases hmem with hmem | hmem
      · by_cases hp : h.idxOf p = some i
        · simp only [hp, if_true, List.mem_singleton] at hmem
          omega
        · simp [hp] at hmem
      · have he : a + (j + 1) = a + 1 + j := by omega
        rw [he] at hmem
        simpa using ih (a + 1) hj hmem

theorem strayMap_nodes : strayMap.nodes = [1, 2] := rfl

theorem strayMap_inGrid :
    ∀ p ∈ strayMap.nodes, ∃ n, strayWorld.heap.lookup p = some n ∧ strayMap.inGrid n.idx = true := by
  rw [strayMap_nodes]
  intro p hp
  simp only [List.mem_cons, List.mem_singleton, List.not_mem_nil, or_false] at hp
  rcases hp with rfl | rfl
  · exact ⟨_, rfl, rfl⟩
  · exact ⟨_, rfl, rfl⟩

theorem strayWorld_safeDestination : SafeDestination strayWorld 1 strayMap :=
  ⟨TraversabilityMap3d.construct (0, 0) (1, 1) 1, rfl, fun _ =>
    ⟨List.nodup_nil, fun _ hp => absurd hp (List.not_mem_nil _)⟩⟩

/-- C20: deep copy places each clone by the node's own `Index` field.  Let `b` name a map
whose nodes are live and let `a ≠ b`.  In every state that `a = b` produces, the new node
made for the `k`-th node stored in `b` (in traversal order; the new nodes are allocated one
after the other from address `base`) is a fresh copy of that node, and it is stored in the
cell `i` of `a` exactly when `i` is the node's own `Index`, whichever cell of `b` stored
the node.  The assignment does produce a state when every node's own `Index` lies in the
grid and clearing `a` frees no node of `b`. -/
theorem deep_copy_places_by_own_index (s : World) (a b : Nat) (mb : TraversabilityMap3d)
    (hab : a ≠ b) (hb : s.getMap b = .ok mb)
    (hlive : ∀ p ∈ mb.nodes, s.heap.lookup p ≠ none) :
    (∀ s', operatorAssign s a b = .ok s' →
      ∃ (ma' : TraversabilityMap3d) (base : Nat), s'.getMap a = .ok ma' ∧
        ∀ k (hk : k < mb.nodes.length),
          ∃ n, s.heap.lookup (mb.nodes.get ⟨k, hk⟩) = some n ∧
            IsCloneOf s.heap s'.heap (mb.nodes.get ⟨k, hk⟩) (base + k) ∧
            ∀ i, base + k ∈ ma'.cells i ↔ i = n.idx) ∧
    ((∀ p ∈ mb.nodes, ∃ n, s.heap.lookup p = some n ∧ mb.inGrid n.idx = true) →
      SafeDestination s a mb → ∃ s', operatorAssign s a b = .ok s') := by
  refine ⟨fun s' hs' => ?_, fun hgrid hsafe => operatorAssign_live hab hb hgrid hsafe⟩
  have hbound : ∀ p ∈ mb.nodes, p ≤ s.heap.length := fun p hp => by
    obtain ⟨n, hn⟩ := Option.ne_none_iff_exists'.mp (hlive p hp)
    exact (Heap.lookup_le_length hn).2
  obtain ⟨ma, h0, t2, f, _, hlen0, hsub, hc, hgeta, _⟩ := operatorAssign_ok hab hb hbound hs'
  refine ⟨t2, h0.length + 1, hgeta, fun k hk => ?_⟩
  obtain ⟨n, hn, _⟩ := hc.live _ (List.get_mem mb.nodes k hk)
  have hidx : h0.idxOf (mb.nodes.get ⟨k, hk⟩) = some n.idx := by rw [Heap.idxOf, hn]; rfl
  refine ⟨n, hsub _ _ hn, (hc.isCloneOf hlen0 hsub k hk).1, fun i => ?_⟩
  rw [hc.cells i, assignTarget_cells, List.nil_append]
  constructor
  · intro hmem
    have := cloneAddrs_mem_get _ hk hmem
    rw [hidx] at this
    exact (Option.some.inj this).symm
  · intro hi
    exact cloneAddrs_get_mem _ hk (by rw [hidx, hi])

theorem deep_copy_places_by_own_index_witness :
    (∀ s', operatorAssign strayWorld 1 0 = .ok s' →
      ∃ (ma' : TraversabilityMap3d) (base : Nat), s'.getMap 1 = .ok ma' ∧
        ∀ k (hk : k < strayMap.nodes.length),
          ∃ n, strayWorld.heap.lookup (strayMap.nodes.get ⟨k, hk⟩) = some n ∧
            IsCloneOf strayWorld.heap s'.heap (strayMap.nodes.get ⟨k, hk⟩) (base + k) ∧
            ∀ i, base + k ∈ ma'.cells i ↔ i = n.idx) ∧
    (∃ s', operatorAssign strayWorld 1 0 = .ok s') ∧
    strayMap.cells ⟨0, 0⟩ = [1] ∧ strayWorld.heap.idxOf 1 = some ⟨1, 0⟩ ∧
    ∃ s' ma', operatorAssign strayWorld 1 0 = .ok s' ∧ s'.getMap 1 = .ok ma' ∧
      ma'.cells ⟨0, 0⟩ = [] ∧ ma'.cells ⟨1, 0⟩ = [4, 5] :=
  ⟨(deep_copy_places_by_own_index strayWorld 1 0 strayMap (by decide) rfl
      (by rw [strayMap_nodes]; decide)).1,
   (deep_copy_places_by_own_index strayWorld 1 0 strayMap (by decide) rfl
      (by rw [strayMap_nodes]; decide)).2 strayMap_inGrid strayWorld_safeDestination,
   rfl, rfl, _, _, rfl, rfl, rfl, rfl⟩

/-! ## Deep copy: edges that leave the map -/

/-- The connection list of a clone, when each node of the source is stored once: the image
of the connection list of the original under the table `inToOut`, which is `nullptr` at
every pointer that the source does not store. -/
theorem operatorAssign_connections {s s' : World} {a b : Nat} {mb : TraversabilityMap3d}
    (hab : a ≠ b) (hb : s.getMap b = .ok mb)
    (hlive : ∀ p ∈ mb.nodes, s.heap.lookup p ≠ none) (hnd : mb.nodes.Nodup)
    (hs' : operatorAssign s a b = .ok s') :
    ∃ (ma' : TraversabilityMap3d) (f : Nat → Nat), s'.getMap a = .ok ma' ∧
      (∀ q, q ∉ mb.nodes → f q = nullptr) ∧
      ∀ p ∈ mb.nodes, f p ∈ ma'.nodes ∧ IsCloneOf s.heap s'.heap p (f p) ∧
        s'.heap.connectionsOf (f p) = (s.heap.connectionsOf p).map f := by
  have hbound : ∀ p ∈ mb.nodes, p ≤ s.heap.length := fun p hp => by
    obtain ⟨n, hn⟩ := Option.ne_none_iff_exists'.mp (hlive p hp)
    exact (Heap.lookup_le_length hn).2
  obtain ⟨ma, h0, t2, f, _, hlen0, hsub, hc, hgeta, _⟩ := operatorAssign_ok hab hb hbound hs'
  have hfget := hc.table_nodup hnd
  have hinj : ∀ p ∈ mb.nodes, ∀ p' ∈ mb.nodes, f p = f p' → p = p' := by
    intro p hp p' hp' hfe
    obtain ⟨⟨k, hk⟩, rfl⟩ := List.get_of_mem hp
    obtain ⟨⟨k', hk'⟩, rfl⟩ := List.get_of_mem hp'
    rw [hfget k hk, hfget k' hk'] at hfe
    have : k = k' := by omega
    subst this
    rfl
  refine ⟨t2, f, hgeta, hc.table_out, fun p hp => ?_⟩
  have hsame : h0.connectionsOf p = s.heap.connectionsOf p := by
    obtain ⟨n, hn, _⟩ := hc.live p hp
    simp [Heap.connectionsOf, hn, hsub p n hn]
  have hadd : addedConnections h0 f mb.nodes (f p) = (h0.connectionsOf p).map f :=
    addedConnections_of_injOn hnd hinj hp
  rw [hsame] at hadd
  obtain ⟨⟨k, hk⟩, rfl⟩ := List.get_of_mem hp
  rw [hfget k hk] at hadd ⊢
  exact ⟨hc.new_mem k hk, (hc.isCloneOf hlen0 hsub k hk).1,
    (hc.isCloneOf hlen0 hsub k hk).2.trans hadd⟩

/-- C19: deep copy maps a dangling edge to a null entry.  Let `b` name a map whose nodes
are live and each stored once, and let `a ≠ b`.  In every state that `a = b` produces,
each node `p` of `b` has a fresh copy `f p` stored in `a` whose connection list is as long
as that of `p`, and wherever the list of `p` holds a pointer that no cell of `b` stores,
the list of `f p` holds `nullptr` at the same position.  The assignment raises no error
for such an edge: it does produce a state when every node's own `Index` lies in the grid
and clearing `a` frees no node of `b`, whatever the connections are. -/
theorem deep_copy_dangling_edge_becomes_null (s : World) (a b : Nat)
    (mb : TraversabilityMap3d) (hab : a ≠ b) (hb : s.getMap b = .ok mb)
    (hlive : ∀ p ∈ mb.nodes, s.heap.lookup p ≠ none) (hnd : mb.nodes.Nodup) :
    (∀ s', operatorAssign s a b = .ok s' →
      ∃ (ma' : TraversabilityMap3d) (f : Nat → Nat), s'.getMap a = .ok ma' ∧
        ∀ p ∈ mb.nodes, f p ∈ ma'.nodes ∧ IsCloneOf s.heap s'.heap p (f p) ∧
          (s'.heap.connectionsOf (f p)).length = (s.heap.connectionsOf p).length ∧
          ∀ (i q : Nat), (s.heap.connectionsOf p)[i]? = some q → q ∉ mb.nodes →
            (s'.heap.connectionsOf (f p))[i]? = some nullptr) ∧
    ((∀ p ∈ mb.nodes, ∃ n, s.heap.lookup p = some n ∧ mb.inGrid n.idx = true) →
      SafeDestination s a mb → ∃ s', operatorAssign s a b = .ok s') := by
  refine ⟨fun s' hs' => ?_, fun hgrid hsafe => operatorAssign_live hab hb hgrid hsafe⟩
  obtain ⟨ma', f, hgeta, hout, hclone⟩ := operatorAssign_connections hab hb hlive hnd hs'
  refine ⟨ma', f, hgeta, fun p hp => ?_⟩
  obtain ⟨hmem, hcl, hconn⟩ := hclone p hp
  refine ⟨hmem, hcl, by rw [hconn, List.length_map], fun i q hi hq => ?_⟩
  rw [hconn, List.getElem?_map, hi, Option.map_some', hout q hq]

theorem deep_copy_dangling_edge_becomes_null_witness :
    (∀ s', operatorAssign strayWorld 1 0 = .ok s' →
      ∃ (ma' : TraversabilityMap3d) (f : Nat → Nat), s'.getMap 1 = .ok ma' ∧
        ∀ p ∈ strayMap.nodes, f p ∈ ma'.nodes ∧ IsCloneOf strayWorld.heap s'.heap p (f p) ∧
          (s'.heap.connectionsOf (f p)).length = (strayWorld.heap.connectionsOf p).length ∧
          ∀ (i q : Nat), (strayWorld.heap.connectionsOf p)[i]? = some q → q ∉ strayMap.nodes →
            (s'.heap.connectionsOf (f p))[i]? = some nullptr) ∧
    (∃ s', operatorAssign strayWorld 1 0 = .ok s') ∧
    strayWorld.heap.connectionsOf 1 = [2, 3] ∧ 3 ∉ strayMap.nodes ∧
    ∃ s', operatorAssign strayWorld 1 0 = .ok s' ∧ s'.heap.connectionsOf 4 = [5, nullptr] :=
  ⟨(deep_copy_dangling_edge_becomes_null strayWorld 1 0 strayMap (by decide) rfl
      (by rw [strayMap_nodes]; decide) (by rw [strayMap_nodes]; decide)).1,
   (deep_copy_dangling_edge_becomes_null strayWorld 1 0 strayMap (by decide) rfl
      (by rw [strayMap_nodes]; decide) (by rw [strayMap_nodes]; decide)).2
      strayMap_inGrid strayWorld_safeDestination,
   rfl, by rw [strayMap_nodes]; decide, _, rfl, rfl⟩

/-! ## The layout that `save` writes -/

theorem savePointer_inv {h : Heap} {saved : List Nat} {p : Nat} {r : List Nat × PointerRecord}
    (hr : savePointer h saved p = .ok r) :
    (∃ ext, r.1 = saved ++ ext) ∧ (p ≠ nullptr → p ∈ r.1) ∧ WrittenAs h p r.2 ∧
      (p ≠ nullptr → p ∈ saved → r.2 = .reference (saved.indexOf p)) := by
  unfold savePointer at hr
  by_cases h0 : p = nullptr
  · rw [if_pos h0] at hr
    have := Except.ok.inj hr
    subst this
    exact ⟨⟨[], by simp⟩, fun hne => absurd h0 hne, Or.inl ⟨h0, rfl⟩, fun hne => absurd h0 hne⟩
  · rw [if_neg h0] at hr
    by_cases hmem : p ∈ saved
    · rw [if_pos hmem] at hr
      have := Except.ok.inj hr
      subst this
      exact ⟨⟨[], by simp⟩, fun _ => hmem, Or.inr (Or.inl ⟨_, rfl⟩), fun _ _ => rfl⟩
    · rw [if_neg hmem] at hr
      cases hl : h.lookup p with
      | none => simp [Heap.deref, hl] at hr
      | some n =>
        simp only [Heap.deref, hl] at hr
        have := Except.ok.inj hr
        subst this
        exact ⟨⟨[p], rfl⟩, fun _ => by simp, Or.inr (Or.inr ⟨n, hl, rfl⟩),
          fun _ hm => absurd hm hmem⟩

theorem savePointers_inv {h : Heap} {ps : List Nat} {saved : List Nat}
    {r : List Nat × List PointerRecord} (hr : savePointers h saved ps = .ok r) :
    (∃ ext, r.1 = saved ++ ext) ∧ (∀ p ∈ ps, p ≠ nullptr → p ∈ r.1) ∧
      List.Forall₂ (WrittenAs h) ps r.2 := by
  induction ps generalizing saved r with
  | nil =>
    simp only [savePointers] at hr
    have := Except.ok.inj hr
    subst this
    exact ⟨⟨[], by simp⟩, fun _ hp => absurd hp (List.not_mem_nil _), List.Forall₂.nil⟩
  | cons p ps ih =>
    simp only [savePointers] at hr
    cases h1 : savePointer h saved p with
    | error e => simp [h1] at hr
    | ok r1 =>
      simp only [h1] at hr
      cases h2 : savePointers h r1.1 ps with
      | error e => simp [h2] at hr
      | ok r2 =>
        simp only [h2] at hr
        have := Except.ok.inj hr
        subst this
        obtain ⟨⟨e1, he1⟩, hin1, hw1, _⟩ := savePointer_inv h1
        obtain ⟨⟨e2, he2⟩, hin2, hw2⟩ := ih h2
        refine ⟨⟨e1 ++ e2, by simp [he2, he1]⟩, ?_, List.Forall₂.cons hw1 hw2⟩
        intro q hq hq0
        rcases List.mem_cons.mp hq with rfl | hq'
        · show q ∈ r2.1
          rw [he2]
          exact List.mem_append_left _ (hin1 hq0)
        · exact hin2 q hq' hq0

theorem forEach_saveCell_inv {h : Heap} {cells : List LevelList} {saved : List Nat}
    {out : List (List PointerRecord)} {r : List Nat × List (List PointerRecord)}
    (hr : forEach (saveCell h) (saved, out) cells = .ok r) :
    (∃ ext, r.1 = saved ++ ext) ∧ (∀ cell ∈ cells, ∀ p ∈ cell, p ≠ nullptr → p ∈ r.1) ∧
      ∃ new, r.2 = out ++ new ∧ List.Forall₂ (List.Forall₂ (WrittenAs h)) cells new := by
  induction cells generalizing saved out r with
  | nil =>
    simp only [forEach] at hr
    have := Except.ok.inj hr
    subst this
    exact ⟨⟨[], by simp⟩, fun _ hc => absurd hc (List.not_mem_nil _), [], by simp,
      List.Forall₂.nil⟩
  | cons cell cells ih =>
    simp only [forEach, saveCell] at hr
    cases h1 : savePointers h saved cell with
    | error e => simp [h1] at hr
    | ok r1 =>
      simp only [h1] at hr
      obtain ⟨⟨e1, he1⟩, hin1, hw1⟩ := savePointers_inv h1
      obtain ⟨⟨e2, he2⟩, hin2, new, hnew, hw2⟩ := ih hr
      refine ⟨⟨e1 ++ e2, by simp [he2, he1]⟩, ?_, r1.2 :: new, by simp [hnew],
        List.Forall₂.cons hw1 hw2⟩
      intro c hc q hq hq0
      rcases List.mem_cons.mp hc with rfl | hc'
      · rw [he2]
        exact List.mem_append_left _ (hin1 q hq hq0)
      · exact hin2 c hc' q hq hq0

theorem forEach_saveHelper_inv {h : Heap} {table : List Nat} {L : List Nat} {ext : List Nat}
    {out : List (PointerRecord × List PointerRecord)}
    {r : List Nat × List (PointerRecord × List PointerRecord)}
    (hin : ∀ p ∈ L, p ≠ nullptr → p ∈ table)
    (hr : forEach (saveHelper h) (table ++ ext, out) L = .ok r) :
    (∀ p ∈ L, h.lookup p ≠ none) ∧
      ∃ new, r.2 = out ++ new ∧
        List.Forall₂ (fun p helper => helper.1 = .reference (table.indexOf p) ∧
          List.Forall₂ (WrittenAs h) (h.connectionsOf p) helper.2) L new := by
  induction L generalizing ext out r with
  | nil =>
    simp only [forEach] at hr
    have := Except.ok.inj hr
    subst this
    exact ⟨fun _ hp => absurd hp (List.not_mem_nil _), [], by simp, List.Forall₂.nil⟩
  | cons p ps ih =>
    simp only [forEach, saveHelper] at hr
    cases hl : h.lookup p with
    | none => simp [Heap.deref, hl] at hr
    | some n =>
      have hp0 : p ≠ nullptr := Heap.ne_nullptr_of_live (by rw [hl]; simp)
      have hpt : p ∈ table := hin p (List.mem_cons_self _ _) hp0
      simp only [Heap.deref, hl] at hr
      cases h1 : savePointer h (table ++ ext) p with
      | error e => simp [h1] at hr
      | ok r1 =>
        simp only [h1] at hr
        obtain ⟨⟨e1, he1⟩, _, _, href⟩ := savePointer_inv h1
        have href' := href hp0 (List.mem_append_left _ hpt)
        rw [List.indexOf_append_of_mem hpt] at href'
        cases h2 : savePointers h r1.1 n.connections with
        | error e => simp [h2] at hr
        | ok r2 =>
          simp only [h2] at hr
          obtain ⟨⟨e2, he2⟩, _, hw2⟩ := savePointers_inv h2
          have hstate : r2.1 = table ++ (ext ++ e1 ++ e2) := by simp [he2, he1]
          rw [hstate] at hr
          obtain ⟨hlive, new, hnew, hw⟩ :=
            ih (fun q hq => hin q (List.mem_cons_of_mem _ hq)) hr
          refine ⟨fun q hq => ?_, (r1.2, r2.2) :: new, by simp [hnew],
            List.Forall₂.cons ⟨href', ?_⟩ hw⟩
          · rcases List.mem_cons.mp hq with rfl | hq'
            · rw [hl]
              simp
            · exact hlive q hq'
          · simpa [Heap.connectionsOf, hl] using hw2

/-- What a completed `save` has written: `table` is the node table as it stands after the
cells. -/
theorem TraversabilityMap3d.save_inv {s : World} {m : TraversabilityMap3d} {ar : Archive}
    (hsave : m.save s = .ok ar) :
    ∃ table : List Nat, (∀ p ∈ m.nodes, p ∈ table) ∧ ar.count = m.nodes.length ∧
      List.Forall₂ (fun i cell => List.Forall₂ (WrittenAs s.heap) (m.cells i) cell)
        m.indices ar.cells ∧
      List.Forall₂ (fun p helper => helper.1 = .reference (table.indexOf p) ∧
        List.Forall₂ (WrittenAs s.heap) (s.heap.connectionsOf p) helper.2)
        m.nodes ar.helpers := by
  simp only [TraversabilityMap3d.save, forEach_flatMap, m.length_nodes] at hsave
  rw [forEach_map (saveCell s.heap) m.cells] at hsave
  cases h1 : forEach (saveCell s.heap) ([], []) (m.indices.map m.cells) with
  | error e => simp [h1] at hsave
  | ok base =>
    simp only [h1] at hsave
    obtain ⟨_, hin1, new1, hnew1, hw1⟩ := forEach_saveCell_inv h1
    have hn : m.indices.flatMap m.cells = m.nodes := rfl
    rw [hn] at hsave
    cases h2 : forEach (saveHelper s.heap) (base.1, []) m.nodes with
    | error e => simp [h2] at hsave
    | ok r =>
      simp only [h2] at hsave
      have har := Except.ok.inj hsave
      subst har
      have hin : ∀ p ∈ m.nodes, p ≠ nullptr → p ∈ base.1 := by
        intro p hp hp0
        obtain ⟨i, hi, hpi⟩ := TraversabilityMap3d.mem_nodes.mp hp
        exact hin1 (m.cells i)
          (List.mem_map.mpr ⟨i, (m.mem_indices i).mpr hi, rfl⟩) p hpi hp0
      have h2' : forEach (saveHelper s.heap) (base.1 ++ [], []) m.nodes = .ok r := by
        rw [List.append_nil]
        exact h2
      obtain ⟨hlive, new2, hnew2, hw2⟩ := forEach_saveHelper_inv hin h2'
      refine ⟨base.1, fun p hp => hin p hp (Heap.ne_nullptr_of_live (hlive p hp)), rfl, ?_, ?_⟩
      · rw [List.nil_append] at hnew1
        rw [List.forall₂_map_left_iff] at hw1
        show List.Forall₂ _ m.indices base.2
        rw [hnew1]
        exact hw1
      · rw [List.nil_append] at hnew2
        show List.Forall₂ _ m.nodes r.2
        rw [hnew2]
        exact hw2

/-- C12: the record of a node and the records of its connections.  The record that a node
writes for itself is its height, `Index`, type and expansion flag, in this order, whatever
its connection list is.  Whenever `save` completes on a map, the archive holds first the
cells, where each entry of a cell is written as a null, a position in the node table or
such a four-field record of the node, and by the end of the cells every node of the map is
in the node table; then the node count; then one record per node of the map, in traversal
order, made of the position of the node in that node table (never the node's fields again)
and one entry per connection of the node, in the order of the node's connection list. -/
theorem node_record_without_connections (s : World) (m : TraversabilityMap3d) (ar : Archive)
    (hsave : m.save s = .ok ar) :
    (∀ n : TraversabilityNodeBase,
      n.serialize = [.float n.height, .index n.idx, .type n.type, .bool n.mIsExpanded] ∧
      ∀ c : List Nat, TraversabilityNodeBase.serialize { n with connections := c } =
        n.serialize) ∧
    ∃ table : List Nat, (∀ p ∈ m.nodes, p ∈ table) ∧ ar.count = m.nodes.length ∧
      List.Forall₂ (fun i cell => List.Forall₂ (WrittenAs s.heap) (m.cells i) cell)
        m.indices ar.cells ∧
      List.Forall₂ (fun p helper => helper.1 = .reference (table.indexOf p) ∧
        List.Forall₂ (WrittenAs s.heap) (s.heap.connectionsOf p) helper.2)
        m.nodes ar.helpers :=
  ⟨fun _ => ⟨rfl, fun _ => rfl⟩, TraversabilityMap3d.save_inv hsave⟩

theorem node_record_without_connections_witness :
    lineMap.save lineWorld = .ok (archiveOf lineWorld lineMap) ∧
    ((∀ n : TraversabilityNodeBase,
      n.serialize = [.float n.height, .index n.idx, .type n.type, .bool n.mIsExpanded] ∧
      ∀ c : List Nat, TraversabilityNodeBase.serialize { n with connections := c } =
        n.serialize) ∧
    ∃ table : List Nat, (∀ p ∈ lineMap.nodes, p ∈ table) ∧
      (archiveOf lineWorld lineMap).count = lineMap.nodes.length ∧
      List.Forall₂ (fun i cell => List.Forall₂ (WrittenAs lineWorld.heap) (lineMap.cells i) cell)
        lineMap.indices (archiveOf lineWorld lineMap).cells ∧
      List.Forall₂ (fun p helper => helper.1 = .reference (table.indexOf p) ∧
        List.Forall₂ (WrittenAs lineWorld.heap) (lineWorld.heap.connectionsOf p) helper.2)
        lineMap.nodes (archiveOf lineWorld lineMap).helpers) ∧
    (archiveOf lineWorld lineMap).cells =
      [[.object [.float 0, .index ⟨0, 0⟩, .type .TRAVERSABLE, .bool true]],
       [.object [.float (1 / 2), .index ⟨1, 0⟩, .type .TRAVERSABLE, .bool true]],
       [.object [.float 1, .index ⟨2, 0⟩, .type .TRAVERSABLE, .bool false]],
       [.object [.float (3 / 2), .index ⟨3, 0⟩, .type .FRONTIER, .bool false]],
       [.object [.float 2, .index ⟨4, 0⟩, .type .OBSTACLE, .bool false]]] ∧
    (archiveOf lineWorld lineMap).helpers =
      [(.reference 0, [.reference 1, .reference 3]),
       (.reference 1, [.reference 0, .reference 2]),
       (.reference 2, [.reference 1, .reference 3]),
       (.reference 3, [.reference 2, .reference 4, .reference 0]),
       (.reference 4, [.reference 3])] :=
  ⟨rfl, node_record_without_connections lineWorld lineMap (archiveOf lineWorld lineMap) rfl,
   rfl, rfl⟩

/-! ## `load` and edges that leave the cells -/

/-- C11, on the failing input: `save` writes `strayArchive` for the map `strayMap`, whose
first node has a connection to a node that no cell stores; the target of this edge is not
among the nodes that the cells of the archive hold, the node table as it stands when the
connection records begin.  `load` of this archive raises no error: it returns a state
whose new map stores the nodes at the addresses 1 and 2, where the node at 1 carries the
connections `[2, 3]` and the target 3 is a live node that is stored in no cell of the
loaded map. -/
theorem load_accepts_edge_to_node_outside_cells :
    strayMap.save strayWorld = .ok strayArchive ∧
    ∃ s' m', TraversabilityMap3d.load World.initial 0 strayArchive = .ok s' ∧
      s'.getMap 0 = .ok m' ∧ m'.nodes = [1, 2] ∧ s'.heap.connectionsOf 1 = [2, 3] ∧
      3 ∉ m'.nodes ∧ s'.heap.lookup 3 ≠ none :=
  ⟨rfl, _, _, rfl, rfl, rfl, rfl, by decide, by decide⟩

/-! ## `load` on any archive -/

theorem Heap.Grows.refl (h : Heap) : h.Grows h :=
  ⟨Nat.le_refl _, fun _ n hn => ⟨n, hn, rfl, List.prefix_refl _⟩⟩

theorem Heap.Grows.trans {h₁ h₂ h₃ : Heap} (h12 : h₁.Grows h₂) (h23 : h₂.Grows h₃) :
    h₁.Grows h₃ := by
  refine ⟨Nat.le_trans h12.length h23.length, fun x n hn => ?_⟩
  obtain ⟨n', hn', hs', hc'⟩ := h12.keeps x n hn
  obtain ⟨n'', hn'', hs'', hc''⟩ := h23.keeps x n' hn'
  exact ⟨n'', hn'', hs''.trans hs', hc'.trans hc''⟩

theorem Heap.Grows.append (h t : Heap) : h.Grows (h ++ t) := by
  refine ⟨by simp, fun x n hn => ⟨n, ?_, rfl, List.prefix_refl _⟩⟩
  rw [Heap.lookup_append_left h t (Heap.lookup_le_length hn).2]
  exact hn

theorem Heap.Grows.connectionsOf {h h' : Heap} (hg : h.Grows h') {p q : Nat}
    (hq : q ∈ h.connectionsOf p) : q ∈ h'.connectionsOf p := by
  unfold Heap.connectionsOf at hq ⊢
  cases hp : h.lookup p with
  | none => simp [hp] at hq
  | some n =>
    obtain ⟨n', hn', _, hc⟩ := hg.keeps p n hp
    simp only [hp] at hq
    simp only [hn']
    exact hc.subset hq

theorem Heap.Grows.fields {h h' : Heap} (hg : h.Grows h') {q : Nat}
    {n : TraversabilityNodeBase}
    (hq : (h.lookup q).map TraversabilityNodeBase.withoutConnections = some n) :
    (h'.lookup q).map TraversabilityNodeBase.withoutConnections = some n := by
  cases hl : h.lookup q with
  | none => simp [hl] at hq
  | some n0 =>
    obtain ⟨n', hn', hs, _⟩ := hg.keeps q n0 hl
    simp only [hl, Option.map_some', Option.some.injEq] at hq
    simp only [hn', Option.map_some', Option.some.injEq, hs, hq]

theorem Loaded.grows {h h' : Heap} {L : List Nat} (hL : Loaded h L) (hg : h.Grows h') :
    Loaded h' L := by
  intro p hp
  cases hl : h.lookup p with
  | none => exact absurd hl (hL p hp)
  | some n =>
    obtain ⟨n', hn', _, _⟩ := hg.keeps p n hl
    simp [hn']

theorem Loaded.le_length {h : Heap} {L : List Nat} (hL : Loaded h L) {p : Nat} (hp : p ∈ L) :
    p ≤ h.length := by
  cases hl : h.lookup p with
  | none => exact absurd hl (hL p hp)
  | some n => exact (Heap.lookup_le_length hl).2

theorem Fresh.getElem {b : Nat} {h : Heap} {L : List Nat} (hF : Fresh b h L) {i p : Nat}
    (hp : L[i]? = some p) : p = b + 1 + i := by
  obtain ⟨_, hL⟩ := hF
  generalize L.length = n at hL
  subst hL
  obtain ⟨hi, hget⟩ := List.getElem?_eq_some.mp hp
  rw [← hget, List.getElem_range']
  omega

theorem Fresh.alloc {b : Nat} {h : Heap} {L : List Nat} (hF : Fresh b h L)
    (n : TraversabilityNodeBase) : Fresh b (h ++ [some n]) (L ++ [h.length + 1]) := by
  obtain ⟨hlen, hL⟩ := hF
  refine ⟨by simp [hlen]; omega, ?_⟩
  rw [List.length_append, List.length_singleton, List.range'_concat, ← hL, hlen]
  simp
  omega

theorem loadPointer_inv {h : Heap} {L : List Nat} {rec : PointerRecord}
    {r : Heap × List Nat × Nat} (hr : loadPointer h L rec = .ok r) :
    (rec = .null ∧ r = (h, L, nullptr)) ∨
    (∃ fields n, rec = .object fields ∧ TraversabilityNodeBase.deserialize fields = some n ∧
      r = (h ++ [some n], L ++ [h.length + 1], h.length + 1)) ∨
    (∃ k p, rec = .reference k ∧ L[k]? = some p ∧ r = (h, L, p)) := by
  cases rec with
  | null =>
    simp only [loadPointer, Except.ok.injEq] at hr
    exact Or.inl ⟨rfl, hr.symm⟩
  | object fields =>
    cases hd : TraversabilityNodeBase.deserialize fields with
    | none => simp [loadPointer, hd] at hr
    | some n =>
      simp only [loadPointer, hd, Heap.alloc, Except.ok.injEq] at hr
      exact Or.inr (Or.inl ⟨fields, n, rfl, hd, hr.symm⟩)
  | reference k =>
    cases hk : L[k]? with
    | none => simp [loadPointer, hk] at hr
    | some p =>
      simp only [loadPointer, hk, Except.ok.injEq] at hr
      exact Or.inr (Or.inr ⟨k, p, rfl, hk, hr.symm⟩)

/-- Reading a pointer record succeeds exactly when the record is readable against the
current size of the node table. -/
theorem loadPointer_readable (h : Heap) (L : List Nat) (rec : PointerRecord) :
    match rec.readable L.length with
    | some n' => ∃ r, loadPointer h L rec = .ok r ∧ r.2.1.length = n'
    | none => ∃ e, loadPointer h L rec = .error e := by
  cases rec with
  | null => exact ⟨_, rfl, rfl⟩
  | object fields =>
    cases hd : TraversabilityNodeBase.deserialize fields with
    | none =>
      simp only [PointerRecord.readable, hd, loadPointer]
      exact ⟨_, rfl⟩
    | some n =>
      simp only [PointerRecord.readable, hd, loadPointer]
      exact ⟨_, rfl, by simp [Heap.alloc]⟩
  | reference k =>
    by_cases hk : k < L.length
    · simp only [PointerRecord.readable, hk, if_true, loadPointer,
        List.getElem?_eq_getElem hk]
      exact ⟨_, rfl, rfl⟩
    · simp only [PointerRecord.readable, hk, if_false, loadPointer,
        List.getElem?_eq_none (Nat.le_of_not_lt hk)]
      exact ⟨_, rfl⟩

theorem loadPointer_loaded {h : Heap} {L : List Nat} {rec : PointerRecord}
    {r : Heap × List Nat × Nat} (hr : loadPointer h L rec = .ok r) (hL : Loaded h L) :
    (∃ ext, r.1 = h ++ ext) ∧
    (∃ extL, r.2.1 = L ++ extL ∧ ∀ p ∈ extL, h.length < p ∧ p = r.2.2) ∧
    Loaded r.1 r.2.1 ∧ (r.2.2 = nullptr ∨ r.2.2 ∈ r.2.1) ∧
    (rec ≠ .null → r.1.lookup r.2.2 ≠ none) ∧
    ∀ fields, rec = .object fields → ∃ n, h.length < r.2.2 ∧
      TraversabilityNodeBase.deserialize fields = some n ∧ r.1.lookup r.2.2 = some n := by
  rcases loadPointer_inv hr with ⟨hrec, rfl⟩ | ⟨fields, n, hrec, hd, rfl⟩ | ⟨k, p, hrec, hk, rfl⟩
  · refine ⟨⟨[], by simp⟩, ⟨[], by simp⟩, hL, Or.inl rfl, fun hne => absurd hrec hne, ?_⟩
    intro fields hf
    rw [hrec] at hf
    cases hf
  · have hnew : Heap.lookup (h ++ [some n]) (h.length + 1) = some n := by
      simpa using Heap.lookup_append_right h [some n] 0
    refine ⟨⟨_, rfl⟩, ⟨[h.length + 1], rfl, ?_⟩, ?_, Or.inr (by simp), ?_, ?_⟩
    · intro p hp
      rw [List.mem_singleton] at hp
      subst hp
      exact ⟨Nat.lt_succ_self _, rfl⟩
    · intro p hp
      rcases List.mem_append.mp hp with hp | hp
      · exact (hL.grows (Heap.Grows.append h _)) p hp
      · rw [List.mem_singleton] at hp
        subst hp
        simp [hnew]
    · intro _
      simp [hnew]
    · intro fields' hf
      rw [hrec] at hf
      cases hf
      exact ⟨n, Nat.lt_succ_self _, hd, hnew⟩
  · have hp : p ∈ L := List.getElem?_mem hk
    refine ⟨⟨[], by simp⟩, ⟨[], by simp⟩, hL, Or.inr hp, fun _ => hL p hp, ?_⟩
    intro fields hf
    rw [hrec] at hf
    cases hf

theorem loadPointer_fresh {b : Nat} {h : Heap} {L : List Nat} {rec : PointerRecord}
    {r : Heap × List Nat × Nat} (hr : loadPointer h L rec = .ok r) (hF : Fresh b h L) :
    Fresh b r.1 r.2.1 := by
  rcases loadPointer_inv hr with ⟨_, rfl⟩ | ⟨_, n, _, _, rfl⟩ | ⟨_, _, _, _, rfl⟩
  · exact hF
  · exact hF.alloc n
  · exact hF

theorem loadPointers_cons {h : Heap} {L : List Nat} {rec : PointerRecord}
    {recs : List PointerRecord} {r : Heap × List Nat × List Nat}
    (hr : loadPointers h L (rec :: recs) = .ok r) :
    ∃ r1 r2, loadPointer h L rec = .ok r1 ∧ loadPointers r1.1 r1.2.1 recs = .ok r2 ∧
      r = (r2.1, r2.2.1, r1.2.2 :: r2.2.2) := by
  simp only [loadPointers] at hr
  cases h1 : loadPointer h L rec with
  | error e => simp [h1] at hr
  | ok r1 =>
    cases h2 : loadPointers r1.1 r1.2.1 recs with
    | error e => simp [h1, h2] at hr
    | ok r2 =>
      simp only [h1, h2, Except.ok.injEq] at hr
      exact ⟨r1, r2, rfl, h2, hr.symm⟩

theorem loadPointers_loaded {recs : List PointerRecord} {h : Heap} {L : List Nat}
    {r : Heap × List Nat × List Nat} (hr : loadPointers h L recs = .ok r) (hL : Loaded h L) :
    (∃ ext, r.1 = h ++ ext) ∧
    (∃ extL, r.2.1 = L ++ extL ∧ ∀ p ∈ extL, h.length < p ∧ p ∈ r.2.2) ∧
    Loaded r.1 r.2.1 ∧ (∀ p ∈ r.2.2, p = nullptr ∨ p ∈ r.2.1) ∧
    r.2.2.length = recs.length ∧
    ∀ (j : Nat) (fields : List Field), recs[j]? = some (PointerRecord.object fields) →
      ∃ q n, r.2.2[j]? = some q ∧
      h.length < q ∧ TraversabilityNodeBase.deserialize fields = some n ∧
      r.1.lookup q = some n := by
  induction recs generalizing h L r with
  | nil =>
    simp only [loadPointers, Except.ok.injEq] at hr
    subst hr
    exact ⟨⟨[], by simp⟩, ⟨[], by simp⟩, hL, by simp, rfl, by simp⟩
  | cons rec recs ih =>
    obtain ⟨r1, r2, h1, h2, rfl⟩ := loadPointers_cons hr
    obtain ⟨⟨e1, he1⟩, ⟨x1, hx1, hfresh1⟩, hL1, hmem1, _, hobj1⟩ := loadPointer_loaded h1 hL
    obtain ⟨⟨e2, he2⟩, ⟨x2, hx2, hfresh2⟩, hL2, hmem2, hlen2, hobj2⟩ := ih h2 hL1
    have hlen1 : h.length ≤ r1.1.length := by rw [he1]; simp
    refine ⟨⟨e1 ++ e2, by simp [he2, he1]⟩, ⟨x1 ++ x2, by simp [hx2, hx1], ?_⟩, hL2, ?_,
      by simp [hlen2], ?_⟩
    · intro p hp
      rcases List.mem_append.mp hp with hp | hp
      · obtain ⟨hlt, heq⟩ := hfresh1 p hp
        exact ⟨hlt, by simp [heq]⟩
      · obtain ⟨hlt, hin⟩ := hfresh2 p hp
        exact ⟨Nat.lt_of_le_of_lt hlen1 hlt, List.mem_cons_of_mem _ hin⟩
    · intro p hp
      rcases List.mem_cons.mp hp with hp | hp
      · rcases hmem1 with h0 | hin
        · exact Or.inl (hp.trans h0)
        · right
          show p ∈ r2.2.1
          rw [hx2, hp]
          exact List.mem_append_left _ hin
      · exact hmem2 p hp
    · intro j fields hj
      cases j with
      | zero =>
        simp only [List.getElem?_cons_zero, Option.some.injEq] at hj
        obtain ⟨n, hlt, hd, hlook⟩ := hobj1 fields hj
        refine ⟨r1.2.2, n, List.getElem?_cons_zero, hlt, hd, ?_⟩
        show Heap.lookup r2.1 r1.2.2 = some n
        rw [he2, Heap.lookup_append_left _ _ (Heap.lookup_le_length hlook).2]
        exact hlook
      | succ j =>
        simp only [List.getElem?_cons_succ] at hj
        obtain ⟨q, n, hq, hlt, hd, hlook⟩ := hobj2 j fields hj
        exact ⟨q, n, by simpa using hq, Nat.lt_of_le_of_lt hlen1 hlt, hd, hlook⟩

theorem loadPointers_fresh {b : Nat} {recs : List PointerRecord} {h : Heap} {L : List Nat}
    {r : Heap × List Nat × List Nat} (hr : loadPointers h L recs = .ok r)
    (hF : Fresh b h L) : Fresh b r.1 r.2.1 := by
  induction recs generalizing h L r with
  | nil =>
    simp only [loadPointers, Except.ok.injEq] at hr
    subst hr
    exact hF
  | cons rec recs ih =>
    obtain ⟨r1, r2, h1, h2, rfl⟩ := loadPointers_cons hr
    have hF2 : Fresh b r2.1 r2.2.1 := ih h2 (loadPointer_fresh h1 hF)
    exact hF2

theorem loadPointers_readable (recs : List PointerRecord) (h : Heap) (L : List Nat) :
    match readableRecords L.length recs with
    | some n' => ∃ r, loadPointers h L recs = .ok r ∧ r.2.1.length = n'
    | none => ∃ e, loadPointers h L recs = .error e := by
  induction recs generalizing h L with
  | nil => exact ⟨_, rfl, rfl⟩
  | cons rec recs ih =>
    have h1 := loadPointer_readable h L rec
    cases hrd : rec.readable L.length with
    | none =>
      simp only [hrd] at h1
      obtain ⟨e, he⟩ := h1
      simp only [readableRecords, hrd, loadPointers, he]
      exact ⟨_, rfl⟩
    | some n1 =>
      simp only [hrd] at h1
      obtain ⟨r1, hr1, hlen1⟩ := h1
      have h2 := ih r1.1 r1.2.1
      rw [hlen1] at h2
      simp only [readableRecords, hrd, loadPointers, hr1]
      cases hrs : readableRecords n1 recs with
      | none =>
        simp only [hrs] at h2
        obtain ⟨e, he⟩ := h2
        simp only [he]
        exact ⟨_, rfl⟩
      | some n2 =>
        simp only [hrs] at h2
        obtain ⟨r2, hr2, hlen2⟩ := h2
        simp only [hr2]
        exact ⟨_, rfl, hlen2⟩

theorem readableRecords_append (n : Nat) (l₁ l₂ : List PointerRecord) :
    readableRecords n (l₁ ++ l₂) =
      match readableRecords n l₁ with
      | some n' => readableRecords n' l₂
      | none => none := by
  induction l₁ generalizing n with
  | nil => rfl
  | cons r rs ih =>
    simp only [List.cons_append, readableRecords]
    cases r.readable n with
    | none => rfl
    | some n' => exact ih n'

theorem readableRecords_length {recs : List PointerRecord} {n n' : Nat}
    (h : readableRecords n recs = some n') :
    n' = n + (recs.filter PointerRecord.isObject).length := by
  induction recs generalizing n with
  | nil =>
    simp only [readableRecords, Option.some.injEq] at h
    simp [h]
  | cons r rs ih =>
    simp only [readableRecords] at h
    cases r with
    | null =>
      simp only [PointerRecord.readable] at h
      simpa [PointerRecord.isObject] using ih h
    | object fields =>
      cases hd : TraversabilityNodeBase.deserialize fields with
      | none => simp [PointerRecord.readable, hd] at h
      | some n0 =>
        simp only [PointerRecord.readable, hd] at h
        have := ih h
        simp only [List.filter_cons, PointerRecord.isObject, if_true, List.length_cons]
        omega
    | reference k =>
      by_cases hk : k < n
      · simp only [PointerRecord.readable, hk, if_true] at h
        simpa [PointerRecord.isObject] using ih h
      · simp [PointerRecord.readable, hk] at h

theorem loadCell_inv {acc r : Heap × List Nat × List LevelList} {cell : List PointerRecord}
    (hr : loadCell acc cell = .ok r) :
    ∃ r1, loadPointers acc.1 acc.2.1 cell = .ok r1 ∧ r = (r1.1, r1.2.1, acc.2.2 ++ [r1.2.2]) := by
  simp only [loadCell] at hr
  cases h1 : loadPointers acc.1 acc.2.1 cell with
  | error e => simp [h1] at hr
  | ok r1 =>
    simp only [h1, Except.ok.injEq] at hr
    exact ⟨r1, rfl, hr.symm⟩

/-- The cells of an archive, once read: the node table is made of live nodes, each of them
is in a cell, and no cell holds an address beyond the heap. -/
theorem forEach_loadCell_loaded {cells : List (List PointerRecord)}
    {acc r : Heap × List Nat × List LevelList} (hr : forEach loadCell acc cells = .ok r)
    (hL : Loaded acc.1 acc.2.1) (hsub : ∀ p ∈ acc.2.1, p ∈ acc.2.2.flatten)
    (hle : ∀ p ∈ acc.2.2.flatten, p ≤ acc.1.length) :
    acc.1.length ≤ r.1.length ∧ Loaded r.1 r.2.1 ∧ (∀ p ∈ r.2.1, p ∈ r.2.2.flatten) ∧
    (∀ p ∈ r.2.2.flatten, p ≤ r.1.length) ∧ r.2.2.length = acc.2.2.length + cells.length := by
  induction cells generalizing acc with
  | nil =>
    simp only [forEach, Except.ok.injEq] at hr
    subst hr
    exact ⟨Nat.le_refl _, hL, hsub, hle, rfl⟩
  | cons cell cells ih =>
    simp only [forEach] at hr
    cases hc : loadCell acc cell with
    | error e => simp [hc] at hr
    | ok a1 =>
      simp only [hc] at hr
      obtain ⟨r1, h1, rfl⟩ := loadCell_inv hc
      obtain ⟨⟨e1, he1⟩, ⟨x1, hx1, hfresh1⟩, hL1, hmem1, _, _⟩ := loadPointers_loaded h1 hL
      have hlen1 : acc.1.length ≤ r1.1.length := by rw [he1]; simp
      have hsub1 : ∀ p ∈ r1.2.1, p ∈ (acc.2.2 ++ [r1.2.2]).flatten := by
        intro p hp
        rw [hx1] at hp
        simp only [List.flatten_append, List.flatten_cons, List.flatten_nil, List.append_nil,
          List.mem_append]
        rcases List.mem_append.mp hp with hp | hp
        · exact Or.inl (hsub p hp)
        · exact Or.inr (hfresh1 p hp).2
      have hle1 : ∀ p ∈ (acc.2.2 ++ [r1.2.2]).flatten, p ≤ r1.1.length := by
        intro p hp
        simp only [List.flatten_append, List.flatten_cons, List.flatten_nil, List.append_nil,
          List.mem_append] at hp
        rcases hp with hp | hp
        · exact Nat.le_trans (hle p hp) hlen1
        · rcases hmem1 p hp with h0 | hin
          · rw [h0]
            exact Nat.zero_le _
          · exact hL1.le_length hin
      obtain ⟨hlen, hLr, hsubr, hler, hcount⟩ := ih hr hL1 hsub1 hle1
      refine ⟨Nat.le_trans hlen1 hlen, hLr, hsubr, hler, ?_⟩
      rw [hcount]
      show (acc.2.2 ++ [r1.2.2]).length + cells.length = acc.2.2.length + (cells.length + 1)
      rw [List.length_append, List.length_singleton]
      omega

theorem forEach_loadCell_fresh {b : Nat} {cells : List (List PointerRecord)}
    {acc r : Heap × List Nat × List LevelList} (hr : forEach loadCell acc cells = .ok r)
    (hF : Fresh b acc.1 acc.2.1) : Fresh b r.1 r.2.1 := by
  induction cells generalizing acc with
  | nil =>
    simp only [forEach, Except.ok.injEq] at hr
    subst hr
    exact hF
  | cons cell cells ih =>
    simp only [forEach] at hr
    cases hc : loadCell acc cell with
    | error e => simp [hc] at hr
    | ok a1 =>
      simp only [hc] at hr
      obtain ⟨r1, h1, rfl⟩ := loadCell_inv hc
      have hF1 : Fresh b r1.1 r1.2.1 := loadPointers_fresh h1 hF
      exact ih hr hF1

theorem forEach_loadCell_readable (cells : List (List PointerRecord))
    (acc : Heap × List Nat × List LevelList) :
    match readableRecords acc.2.1.length cells.flatten with
    | some n' => ∃ r, forEach loadCell acc cells = .ok r ∧ r.2.1.length = n'
    | none => ∃ e, forEach loadCell acc cells = .error e := by
  induction cells generalizing acc with
  | nil => exact ⟨_, rfl, rfl⟩
  | cons cell cells ih =>
    have h1 := loadPointers_readable cell acc.1 acc.2.1
    simp only [List.flatten_cons, readableRecords_append, forEach, loadCell]
    cases hrd : readableRecords acc.2.1.length cell with
    | none =>
      simp only [hrd] at h1
      obtain ⟨e, he⟩ := h1
      simp only [he]
      exact ⟨_, rfl⟩
    | some n1 =>
      simp only [hrd] at h1
      obtain ⟨r1, hr1, hlen1⟩ := h1
      simp only [hr1]
      have h2 := ih (r1.1, r1.2.1, acc.2.2 ++ [r1.2.2])
      simp only [hlen1] at h2
      exact h2

theorem forEach_addConnection_ok {h : Heap} {p : Nat} (hp : h.lookup p ≠ none)
    (qs : List Nat) : ∃ h', forEach (fun h n => addConnection h p n) h qs = .ok h' := by
  obtain ⟨nt, hnt⟩ := Option.ne_none_iff_exists'.mp hp
  obtain ⟨h', hh', _, _⟩ := forEach_pushBack id hnt qs
  exact ⟨h', hh'⟩

theorem forEach_addConnection_inv {h h' : Heap} {p : Nat} {qs : List Nat}
    (hr : forEach (fun h n => addConnection h p n) h qs = .ok h') :
    (qs = [] ∧ h' = h) ∨
    ∃ nt, h.lookup p = some nt ∧ h'.length = h.length ∧
      ∀ x, h'.lookup x =
        if x = p then some { nt with connections := nt.connections ++ qs } else h.lookup x := by
  cases qs with
  | nil =>
    simp only [forEach, Except.ok.injEq] at hr
    exact Or.inl ⟨rfl, hr.symm⟩
  | cons q qs =>
    right
    cases hp : h.lookup p with
    | none => simp [forEach, addConnection, pushBack, Heap.deref, hp] at hr
    | some nt =>
      obtain ⟨h'', hh'', hlen, hlook⟩ := forEach_pushBack id hp (q :: qs)
      have heq : forEach (fun h n => addConnection h p n) h (q :: qs) = .ok h'' := hh''
      rw [hr] at heq
      cases heq
      exact ⟨nt, rfl, hlen, by simpa using hlook⟩

theorem forEach_addConnection_grows {h h' : Heap} {p : Nat} {qs : List Nat}
    (hr : forEach (fun h n => addConnection h p n) h qs = .ok h') : h.Grows h' := by
  rcases forEach_addConnection_inv hr with ⟨_, rfl⟩ | ⟨nt, hnt, hlen, hlook⟩
  · exact Heap.Grows.refl _
  · refine ⟨Nat.le_of_eq hlen.symm, fun x n hn => ?_⟩
    by_cases hx : x = p
    · subst hx
      rw [hnt] at hn
      cases hn
      exact ⟨{ nt with connections := nt.connections ++ qs }, by rw [hlook x, if_pos rfl], rfl,
        List.prefix_append _ _⟩
    · exact ⟨n, by rw [hlook x, if_neg hx, hn], rfl, List.prefix_refl _⟩

theorem loadHelper_inv {acc r : Heap × List Nat} {helper : PointerRecord × List PointerRecord}
    (hr : loadHelper acc helper = .ok r) :
    ∃ r1 r2 h', loadPointer acc.1 acc.2 helper.1 = .ok r1 ∧
      loadPointers r1.1 r1.2.1 helper.2 = .ok r2 ∧
      forEach (fun h n => addConnection h r1.2.2 n) r2.1 r2.2.2 = .ok h' ∧
      r = (h', r2.2.1) := by
  simp only [loadHelper] at hr
  cases h1 : loadPointer acc.1 acc.2 helper.1 with
  | error e => simp [h1] at hr
  | ok r1 =>
    cases h2 : loadPointers r1.1 r1.2.1 helper.2 with
    | error e => simp [h1, h2] at hr
    | ok r2 =>
      cases h3 : forEach (fun h n => addConnection h r1.2.2 n) r2.1 r2.2.2 with
      | error e => simp [h1, h2, h3] at hr
      | ok h' =>
        simp only [h1, h2, h3, Except.ok.injEq] at hr
        exact ⟨r1, r2, h', rfl, h2, h3, hr.symm⟩

/-- One connection record, once read: the heap is continued, the node table is extended and
its nodes are live, and every connection that the record gives as a node record of its own
is a new node, with the fields read, to which the node of the record is connected. -/
theorem loadHelper_fresh {b : Nat} {acc r : Heap × List Nat}
    {helper : PointerRecord × List PointerRecord} (hr : loadHelper acc helper = .ok r)
    (hF : Fresh b acc.1 acc.2) : Fresh b r.1 r.2 := by
  obtain ⟨r1, r2, h', h1, h2, h3, rfl⟩ := loadHelper_inv hr
  have hF2 := loadPointers_fresh h2 (loadPointer_fresh h1 hF)
  rcases forEach_addConnection_inv h3 with ⟨_, rfl⟩ | ⟨_, _, hlen, _⟩
  · exact hF2
  · exact ⟨hlen.trans hF2.1, hF2.2⟩

theorem loadHelper_loaded {acc r : Heap × List Nat}
    {helper : PointerRecord × List PointerRecord} (hr : loadHelper acc helper = .ok r)
    (hL : Loaded acc.1 acc.2) :
    acc.1.Grows r.1 ∧ (∃ extL, r.2 = acc.2 ++ extL) ∧ Loaded r.1 r.2 ∧
    ∀ (j : Nat) (fields : List Field), helper.2[j]? = some (PointerRecord.object fields) →
      ∃ p q n, acc.1.length < q ∧ q ∈ r.1.connectionsOf p ∧
        TraversabilityNodeBase.deserialize fields = some n ∧ r.1.lookup q = some n ∧
        ∀ i, helper.1 = .reference i → acc.2[i]? = some p := by
  obtain ⟨r1, r2, h', h1, h2, h3, rfl⟩ := loadHelper_inv hr
  obtain ⟨⟨e1, he1⟩, ⟨x1, hx1, _⟩, hL1, hmem1, _, _⟩ := loadPointer_loaded h1 hL
  obtain ⟨⟨e2, he2⟩, ⟨x2, hx2, _⟩, hL2, _, _, hobj2⟩ := loadPointers_loaded h2 hL1
  have hg1 : acc.1.Grows r1.1 := by rw [he1]; exact Heap.Grows.append _ _
  have hg2 : r1.1.Grows r2.1 := by rw [he2]; exact Heap.Grows.append _ _
  have hg3 : r2.1.Grows h' := forEach_addConnection_grows h3
  refine ⟨(hg1.trans hg2).trans hg3, ⟨x1 ++ x2, by simp [hx2, hx1]⟩, hL2.grows hg3, ?_⟩
  intro j fields hj
  obtain ⟨q, n, hq, hlt, hd, hlook⟩ := hobj2 j fields hj
  have hqmem : q ∈ r2.2.2 := List.getElem?_mem hq
  have hp1 : r1.2.2 ≤ r1.1.length := by
    rcases hmem1 with h0 | hin
    · rw [h0]
      exact Nat.zero_le _
    · exact hL1.le_length hin
  have hqp : q ≠ r1.2.2 := by omega
  rcases forEach_addConnection_inv h3 with ⟨hnil, _⟩ | ⟨nt, hnt, _, hlook'⟩
  · rw [hnil] at hqmem
    cases hqmem
  · refine ⟨r1.2.2, q, n, Nat.lt_of_le_of_lt hg1.length hlt, ?_, hd, ?_, ?_⟩
    · show q ∈ Heap.connectionsOf h' r1.2.2
      simp only [Heap.connectionsOf, hlook' r1.2.2, if_true]
      exact List.mem_append_right _ hqmem
    · show Heap.lookup h' q = some n
      rw [hlook' q, if_neg hqp]
      exact hlook
    · intro i hi
      rcases loadPointer_inv h1 with ⟨hrec, _⟩ | ⟨_, _, hrec, _⟩ | ⟨k, p, hrec, hk, hrr⟩
      · rw [hi] at hrec
        cases hrec
      · rw [hi] at hrec
        cases hrec
      · rw [hi] at hrec
        cases hrec
        rw [hrr]
        exact hk

theorem loadHelper_null_cons (acc : Heap × List Nat) (c : PointerRecord)
    (cs : List PointerRecord) : ∃ e, loadHelper acc (.null, c :: cs) = .error e := by
  simp only [loadHelper, loadPointer]
  cases h2 : loadPointers acc.1 acc.2 (c :: cs) with
  | error e => exact ⟨_, rfl⟩
  | ok r2 =>
    obtain ⟨r1, r3, _, _, rfl⟩ := loadPointers_cons h2
    simp only [forEach, addConnection, pushBack, Heap.deref, nullptr, Heap.lookup]
    exact ⟨_, rfl⟩

theorem loadHelper_readable_aux (acc : Heap × List Nat) (node : PointerRecord)
    (conns : List PointerRecord) (hL : Loaded acc.1 acc.2)
    (hnode : node = .null → conns = []) :
    match (match node.readable acc.2.length with
      | some n' => readableRecords n' conns
      | none => none) with
    | some n' => ∃ r, loadHelper acc (node, conns) = .ok r ∧ r.2.length = n'
    | none => ∃ e, loadHelper acc (node, conns) = .error e := by
  have h1 := loadPointer_readable acc.1 acc.2 node
  cases hrd : node.readable acc.2.length with
  | none =>
    simp only [hrd] at h1
    obtain ⟨e, he⟩ := h1
    simp only [loadHelper, he]
    exact ⟨_, rfl⟩
  | some n1 =>
    simp only [hrd] at h1
    obtain ⟨r1, hr1, hlen1⟩ := h1
    have h2 := loadPointers_readable conns r1.1 r1.2.1
    rw [hlen1] at h2
    simp only [loadHelper, hr1]
    cases hrs : readableRecords n1 conns with
    | none =>
      simp only [hrs] at h2
      obtain ⟨e, he⟩ := h2
      simp only [he]
      exact ⟨_, rfl⟩
    | some n2 =>
      simp only [hrs] at h2
      obtain ⟨r2, hr2, hlen2⟩ := h2
      simp only [hr2]
      have hok : ∃ h', forEach (fun h n => addConnection h r1.2.2 n) r2.1 r2.2.2 = .ok h' := by
        by_cases hn : node = .null
        · have hc := hnode hn
          subst hc
          simp only [loadPointers, Except.ok.injEq] at hr2
          subst hr2
          exact ⟨_, rfl⟩
        · obtain ⟨_, _, hL1, _, hlive, _⟩ := loadPointer_loaded hr1 hL
          obtain ⟨⟨e2, he2⟩, _⟩ := loadPointers_loaded hr2 hL1
          apply forEach_addConnection_ok
          obtain ⟨nt, hnt⟩ := Option.ne_none_iff_exists'.mp (hlive hn)
          rw [he2, Heap.lookup_append_left _ _ (Heap.lookup_le_length hnt).2, hnt]
          simp
      obtain ⟨h', hh'⟩ := hok
      simp only [hh']
      exact ⟨_, rfl, hlen2⟩

/-- Reading a connection record succeeds exactly when the record is readable against the
current size of the node table. -/
theorem loadHelper_readable (acc : Heap × List Nat)
    (helper : PointerRecord × List PointerRecord) (hL : Loaded acc.1 acc.2) :
    match readableHelper acc.2.length helper with
    | some n' => ∃ r, loadHelper acc helper = .ok r ∧ r.2.length = n'
    | none => ∃ e, loadHelper acc helper = .error e := by
  obtain ⟨node, conns⟩ := helper
  cases node with
  | null =>
    cases conns with
    | nil => exact loadHelper_readable_aux acc .null [] hL fun _ => rfl
    | cons c cs => exact loadHelper_null_cons acc c cs
  | object fields =>
    exact loadHelper_readable_aux acc (.object fields) conns hL fun h => by cases h
  | reference k =>
    exact loadHelper_readable_aux acc (.reference k) conns hL fun h => by cases h

theorem forEach_loadHelper_readable (helpers : List (PointerRecord × List PointerRecord))
    (acc : Heap × List Nat) (hL : Loaded acc.1 acc.2) :
    match readableHelpers acc.2.length helpers with
    | some n' => ∃ r, forEach loadHelper acc helpers = .ok r ∧ r.2.length = n'
    | none => ∃ e, forEach loadHelper acc helpers = .error e := by
  induction helpers generalizing acc with
  | nil => exact ⟨_, rfl, rfl⟩
  | cons helper helpers ih =>
    have h1 := loadHelper_readable acc helper hL
    simp only [readableHelpers, forEach]
    cases hrd : readableHelper acc.2.length helper with
    | none =>
      simp only [hrd] at h1
      obtain ⟨e, he⟩ := h1
      simp only [he]
      exact ⟨_, rfl⟩
    | some n1 =>
      simp only [hrd] at h1
      obtain ⟨r1, hr1, hlen1⟩ := h1
      simp only [hr1]
      have h2 := ih r1 (loadHelper_loaded hr1 hL).2.2.1
      rw [hlen1] at h2
      exact h2

/-- The connection records of an archive, once read: every connection that the record at
position `k` gives as a node record of its own is a new node, with the fields read, to
which the node of the record is connected. -/
theorem forEach_loadHelper_loaded {b : Nat}
    {helpers : List (PointerRecord × List PointerRecord)}
    {acc r : Heap × List Nat} (hr : forEach loadHelper acc helpers = .ok r)
    (hL : Loaded acc.1 acc.2) (hF : Fresh b acc.1 acc.2) :
    acc.1.Grows r.1 ∧ (∃ extL, r.2 = acc.2 ++ extL) ∧ Loaded r.1 r.2 ∧
    ∀ (k : Nat) (helper : PointerRecord × List PointerRecord) (j : Nat) (fields : List Field),
      helpers[k]? = some helper → helper.2[j]? = some (PointerRecord.object fields) →
      ∃ p q n, acc.1.length < q ∧ q ∈ r.1.connectionsOf p ∧
        TraversabilityNodeBase.deserialize fields = some n ∧
        (r.1.lookup q).map TraversabilityNodeBase.withoutConnections = some n ∧
        ∀ i, helper.1 = .reference i → p = b + 1 + i := by
  induction helpers generalizing acc with
  | nil =>
    simp only [forEach, Except.ok.injEq] at hr
    subst hr
    exact ⟨Heap.Grows.refl _, ⟨[], by simp⟩, hL, by simp⟩
  | cons helper helpers ih =>
    simp only [forEach] at hr
    cases h1 : loadHelper acc helper with
    | error e => simp [h1] at hr
    | ok r1 =>
      simp only [h1] at hr
      obtain ⟨hg1, ⟨x1, hx1⟩, hL1, hobj1⟩ := loadHelper_loaded h1 hL
      obtain ⟨hg2, ⟨x2, hx2⟩, hL2, hobj2⟩ := ih hr hL1 (loadHelper_fresh h1 hF)
      refine ⟨hg1.trans hg2, ⟨x1 ++ x2, by simp [hx2, hx1]⟩, hL2, ?_⟩
      intro k hk j fields hhk hj
      cases k with
      | zero =>
        simp only [List.getElem?_cons_zero, Option.some.injEq] at hhk
        subst hhk
        obtain ⟨p, q, n, hlt, hq, hd, hlook, href⟩ := hobj1 j fields hj
        have hn : n.withoutConnections = n := by
          cases fields with
          | nil => simp [TraversabilityNodeBase.deserialize] at hd
          | cons f fs =>
            unfold TraversabilityNodeBase.deserialize at hd
            split at hd
            · cases hd
              rfl
            · cases hd
        refine ⟨p, q, n, hlt, hg2.connectionsOf hq, hd, hg2.fields ?_,
          fun i hi => hF.getElem (href i hi)⟩
        rw [hlook, Option.map_some', hn]
      | succ k =>
        simp only [List.getElem?_cons_succ] at hhk
        obtain ⟨p, q, n, hlt, hq, hd, hlook, href⟩ := hobj2 k hk j fields hhk hj
        exact ⟨p, q, n, Nat.lt_of_le_of_lt hg1.length hlt, hq, hd, hlook, href⟩

theorem cellsOfList_subset {I : List Index} {cells : List LevelList} {idx : Index} {p : Nat}
    (hp : p ∈ cellsOfList I cells idx) : p ∈ cells.flatten := by
  induction I generalizing cells with
  | nil => simp [cellsOfList] at hp
  | cons i I ih =>
    cases cells with
    | nil => simp [cellsOfList] at hp
    | cons c cs =>
      simp only [cellsOfList, List.zip_cons_cons, List.lookup_cons] at hp
      simp only [List.flatten_cons, List.mem_append]
      cases hi : idx == i with
      | true =>
        simp only [hi, Option.getD_some] at hp
        exact Or.inl hp
      | false =>
        simp only [hi] at hp
        exact Or.inr (ih hp)

theorem mem_cellsOfList {I : List Index} {cells : List LevelList} {p : Nat} (hI : I.Nodup)
    (hlen : cells.length ≤ I.length) (hp : p ∈ cells.flatten) :
    ∃ idx ∈ I, p ∈ cellsOfList I cells idx := by
  induction I generalizing cells with
  | nil =>
    have : cells = [] := List.length_eq_zero.mp (Nat.le_zero.mp hlen)
    subst this
    simp at hp
  | cons i I ih =>
    cases cells with
    | nil => simp at hp
    | cons c cs =>
      simp only [List.flatten_cons, List.mem_append] at hp
      rcases hp with hp | hp
      · refine ⟨i, List.mem_cons_self _ _, ?_⟩
        simpa [cellsOfList, List.lookup_cons] using hp
      · obtain ⟨idx, hidx, hmem⟩ := ih (List.nodup_cons.mp hI).2
          (Nat.le_of_succ_le_succ hlen) hp
        have hne : (idx == i) = false := by
          rw [beq_eq_false_iff_ne]
          rintro rfl
          exact (List.nodup_cons.mp hI).1 hidx
        refine ⟨idx, List.mem_cons_of_mem _ hidx, ?_⟩
        simpa [cellsOfList, List.lookup_cons, hne] using hmem

/-- The two phases of `load`. -/
theorem TraversabilityMap3d.load_ok_iff (t : World) (data : Nat) (ar : Archive) (s' : World) :
    TraversabilityMap3d.load t data ar = .ok s' ↔
      ∃ base r, forEach loadCell (t.heap, [], []) ar.cells = .ok base ∧
        ar.count ≤ ar.helpers.length ∧
        forEach loadHelper (base.1, base.2.1) (ar.helpers.take ar.count) = .ok r ∧
        s' = { heap := r.1, frames := Function.update t.frames data ar.frame,
               maps := t.maps ++
                 [{ TraversabilityMap3d.construct ar.numCells ar.resolution data with
                    cells := cellsOfList
                      (TraversabilityMap3d.construct ar.numCells ar.resolution data).indices
                      base.2.2 }] } := by
  unfold TraversabilityMap3d.load
  cases h1 : forEach loadCell (t.heap, [], []) ar.cells with
  | error e => simp
  | ok base =>
    by_cases hc : ar.helpers.length < ar.count
    · simp only [hc, if_true]
      constructor
      · intro h
        cases h
      · rintro ⟨_, _, _, hle, _⟩
        omega
    · simp only [hc, if_false]
      cases h2 : forEach loadHelper (base.1, base.2.1) (ar.helpers.take ar.count) with
      | error e =>
        constructor
        · intro h
          cases h
        · rintro ⟨b, r, hb, _, hr, _⟩
          cases hb
          rw [h2] at hr
          cases hr
      | ok r =>
        constructor
        · intro h
          cases h
          exact ⟨base, r, rfl, Nat.le_of_not_lt hc, h2, rfl⟩
        · rintro ⟨b, r', hb, _, hr, rfl⟩
          cases hb
          rw [h2] at hr
          cases hr
          rfl

/-- `load` completes exactly on the archives that can be read to their end. -/
theorem TraversabilityMap3d.load_ok_iff_readable (t : World) (data : Nat) (ar : Archive) :
    (∃ s', TraversabilityMap3d.load t data ar = .ok s') ↔ ar.readable = true := by
  have hL0 : Loaded t.heap [] := fun p hp => by cases hp
  have h1 := forEach_loadCell_readable ar.cells (t.heap, [], [])
  simp only [List.length_nil] at h1
  unfold Archive.readable
  cases hrd : readableRecords 0 ar.cells.flatten with
  | none =>
    simp only [hrd] at h1
    obtain ⟨e, he⟩ := h1
    simp only [Bool.and_false, Bool.false_eq_true, iff_false]
    rintro ⟨s', hs'⟩
    obtain ⟨b, _, hb, _⟩ := (TraversabilityMap3d.load_ok_iff t data ar s').mp hs'
    rw [he] at hb
    cases hb
  | some n =>
    simp only [hrd] at h1
    obtain ⟨base, hbase, hlen⟩ := h1
    have hLb : Loaded base.1 base.2.1 :=
      (forEach_loadCell_loaded hbase hL0 (fun p hp => by cases hp)
        (fun p hp => by simp at hp)).2.1
    have h2 := forEach_loadHelper_readable (ar.helpers.take ar.count) (base.1, base.2.1) hLb
    simp only [hlen] at h2
    cases hrh : readableHelpers n (ar.helpers.take ar.count) with
    | none =>
      simp only [hrh] at h2
      obtain ⟨e, he⟩ := h2
      simp only [hrh, Option.isSome_none, Bool.and_false, Bool.false_eq_true, iff_false]
      rintro ⟨s', hs'⟩
      obtain ⟨b, r, hb, _, hr, _⟩ := (TraversabilityMap3d.load_ok_iff t data ar s').mp hs'
      rw [hbase] at hb
      cases hb
      rw [he] at hr
      cases hr
    | some n2 =>
      simp only [hrh] at h2
      obtain ⟨r, hr, _⟩ := h2
      simp only [hrh, Option.isSome_some, Bool.and_true, decide_eq_true_eq]
      constructor
      · rintro ⟨s', hs'⟩
        obtain ⟨_, _, _, hle, _⟩ := (TraversabilityMap3d.load_ok_iff t data ar s').mp hs'
        exact hle
      · intro hle
        exact ⟨_, (TraversabilityMap3d.load_ok_iff t data ar _).mpr ⟨base, r, hbase, hle, hr, rfl⟩⟩

theorem TraversabilityMap3d.length_indices (m : TraversabilityMap3d) :
    m.indices.length = m.numCells.1 * m.numCells.2 := by
  simp [TraversabilityMap3d.indices, List.length_flatMap, Function.comp_def, Nat.mul_comm]

theorem forEach_loadCell_cellNodes {ar : Archive} {h : Heap}
    {base : Heap × List Nat × List LevelList}
    (hbase : forEach loadCell (h, [], []) ar.cells = .ok base) :
    base.2.1.length = ar.cellNodes := by
  have h1 := forEach_loadCell_readable ar.cells (h, [], [])
  simp only [List.length_nil] at h1
  cases hrd : readableRecords 0 ar.cells.flatten with
  | none =>
    simp only [hrd] at h1
    obtain ⟨e, he⟩ := h1
    rw [hbase] at he
    cases he
  | some n =>
    simp only [hrd] at h1
    obtain ⟨r, hr, hlen⟩ := h1
    rw [hbase] at hr
    cases hr
    rw [hlen, readableRecords_length hrd, Nat.zero_add, Archive.cellNodes]

/-- C11, amended: `load` does not check the graph.  On every archive and from every program
state, `load` completes exactly when the archive can be read to its end (every node record
has the four fields, every position names a node read before it, the count does not exceed
the connection records, no connection is given to the null pointer), whatever edges the
archive holds.  Whenever it completes, the new map is declared under the next name, and for
each of the `count` connection records and each connection that the record gives as a node
record of its own, that is an edge whose target is not one of the nodes that the cells
hold: the target `q` is a new node with the fields read, live and stored in no cell of the
new map, and the node `p` of the record carries the edge to `q`.  Where the record names
its node by a position `i`, `p` is the node read as the `i`-th, at the `i`-th address after
the heap that `load` started on; where `i` is a position among the nodes of the cells, and
the archive has no more cell lists than the grid has cells, `p` is a node of the new
map. -/
theorem load_keeps_edge_to_node_outside_cells (t : World) (data : Nat) (ar : Archive) :
    ((∃ s', TraversabilityMap3d.load t data ar = .ok s') ↔ ar.readable = true) ∧
    ∀ s', TraversabilityMap3d.load t data ar = .ok s' →
      ∃ m', s'.getMap t.maps.length = .ok m' ∧
        ∀ (k : Nat) (helper : PointerRecord × List PointerRecord) (j : Nat)
          (fields : List Field), k < ar.count → ar.helpers[k]? = some helper →
          helper.2[j]? = some (PointerRecord.object fields) →
          ∃ p q n, q ∈ s'.heap.connectionsOf p ∧ q ∉ m'.nodes ∧ t.heap.lookup q = none ∧
            TraversabilityNodeBase.deserialize fields = some n ∧
            (s'.heap.lookup q).map TraversabilityNodeBase.withoutConnections = some n ∧
            ∀ i, helper.1 = .reference i → p = t.heap.length + 1 + i ∧
              (i < ar.cellNodes → ar.cells.length ≤ ar.numCells.1 * ar.numCells.2 →
                p ∈ m'.nodes) := by
  refine ⟨TraversabilityMap3d.load_ok_iff_readable t data ar, fun s' hs' => ?_⟩
  obtain ⟨base, r, hbase, _, hr, rfl⟩ := (TraversabilityMap3d.load_ok_iff t data ar s').mp hs'
  have hL0 : Loaded t.heap [] := fun p hp => by cases hp
  obtain ⟨hlen0, hLb, hsubb, hleb, hcount⟩ :=
    forEach_loadCell_loaded hbase hL0 (fun p hp => by cases hp) (fun p hp => by simp at hp)
  have hF0 : Fresh t.heap.length t.heap [] := ⟨rfl, rfl⟩
  have hFb : Fresh t.heap.length base.1 base.2.1 := forEach_loadCell_fresh hbase hF0
  obtain ⟨_, _, _, hobj⟩ := forEach_loadHelper_loaded hr hLb hFb
  refine ⟨{ TraversabilityMap3d.construct ar.numCells ar.resolution data with
    cells := cellsOfList (TraversabilityMap3d.construct ar.numCells ar.resolution data).indices
      base.2.2 }, by simp [World.getMap], ?_⟩
  intro k helper j fields hk hhk hj
  have htake : (ar.helpers.take ar.count)[k]? = some helper := by
    rw [List.getElem?_take_of_lt hk]
    exact hhk
  obtain ⟨p, q, n, hlt, hq, hd, hlook, href⟩ := hobj k helper j fields htake hj
  refine ⟨p, q, n, hq, ?_, Heap.lookup_gt_length (Nat.lt_of_le_of_lt hlen0 hlt), hd, hlook, ?_⟩
  · intro hmem
    obtain ⟨i, _, hpi⟩ := TraversabilityMap3d.mem_nodes.mp hmem
    have := hleb q (cellsOfList_subset hpi)
    have hlt' : base.1.length < q := hlt
    omega
  · intro i hi
    refine ⟨href i hi, fun hic hcl => ?_⟩
    have hib : i < base.2.1.length := by
      rw [forEach_loadCell_cellNodes hbase]
      exact hic
    have hpi : base.2.1[i]? = some p := by
      rw [List.getElem?_eq_getElem hib, href i hi,
        hFb.getElem (List.getElem?_eq_getElem hib)]
    have hp : p ∈ base.2.2.flatten := hsubb p (List.getElem?_mem hpi)
    have hlen : base.2.2.length ≤
        (TraversabilityMap3d.construct ar.numCells ar.resolution data).indices.length := by
      rw [TraversabilityMap3d.length_indices, hcount]
      simpa [TraversabilityMap3d.construct] using hcl
    obtain ⟨idx, hidx, hmem⟩ := mem_cellsOfList (TraversabilityMap3d.nodup_indices _) hlen hp
    exact List.mem_flatMap.mpr ⟨idx, hidx, hmem⟩

theorem load_keeps_edge_to_node_outside_cells_witness :
    (strayArchive.readable = true ∧
    ∃ s', TraversabilityMap3d.load World.initial 0 strayArchive = .ok s' ∧
      ∃ m', s'.getMap World.initial.maps.length = .ok m' ∧
        ∃ p q n, q ∈ s'.heap.connectionsOf p ∧ q ∉ m'.nodes ∧
          World.initial.heap.lookup q = none ∧
          TraversabilityNodeBase.deserialize
            [.float 2, .index ⟨0, 0⟩, .type .OBSTACLE, .bool false] = some n ∧
          (s'.heap.lookup q).map TraversabilityNodeBase.withoutConnections = some n ∧
          p = 1 ∧ p ∈ m'.nodes) ∧
    danglingArchive.readable = false ∧
    ¬ ∃ s', TraversabilityMap3d.load World.initial 0 danglingArchive = .ok s' := by
  refine ⟨?_, by decide, fun h => absurd
    ((load_keeps_edge_to_node_outside_cells World.initial 0 danglingArchive).1.mp h)
    (by decide)⟩
  have hall := load_keeps_edge_to_node_outside_cells World.initial 0 strayArchive
  have hread : strayArchive.readable = true := by decide
  obtain ⟨s', hs'⟩ := hall.1.mpr hread
  obtain ⟨m', hm', hedge⟩ := hall.2 s' hs'
  obtain ⟨p, q, n, hq, hnot, hnew, hd, hlook, hp⟩ :=
    hedge 0 (.reference 0,
      [.reference 1, .object [.float 2, .index ⟨0, 0⟩, .type .OBSTACLE, .bool false]]) 1
      [.float 2, .index ⟨0, 0⟩, .type .OBSTACLE, .bool false] (by decide) rfl rfl
  exact ⟨hread, s', hs', m', hm', p, q, n, hq, hnot, hnew, hd, hlook, (hp 0 rfl).1,
    (hp 0 rfl).2 (by decide) (by decide)⟩

/-! ## The ray checker -/

theorem addInt_some {a b c : Int} (h : addInt a b = some c) : c = a + b := by
  unfold addInt at h
  split at h
  · exact (Option.some.inj h).symm
  · exact absurd h (by simp)

theorem Vector3i.add_some {a b c : Vector3i} (h : a.add b = some c) :
    c = ⟨a.x + b.x, a.y + b.y, a.z + b.z⟩ := by
  unfold Vector3i.add at h
  cases hx : addInt a.x b.x with
  | none => simp [hx] at h
  | some x =>
    cases hy : addInt a.y b.y with
    | none => simp [hx, hy] at h
    | some y =>
      cases hz : addInt a.z b.z with
      | none => simp [hx, hy, hz] at h
      | some z =>
        simp only [hx, hy, hz, Option.some.injEq] at h
        rw [← h, addInt_some hx, addInt_some hy, addInt_some hz]

theorem shortCircuitOr_eq_some {a : Option Bool} {f : Unit → Option Bool} {b : Bool}
    (h : shortCircuitOr a f = some b) : (a = some true ∧ b = true) ∨ (a = some false ∧ f () = some b) := by
  unfold shortCircuitOr at h
  match a, h with
  | some true, h => exact Or.inl ⟨rfl, (Option.some.inj h).symm⟩
  | some false, h => exact Or.inr ⟨rfl, h⟩

theorem tryStep_eq_some {check : Vector3i → Option Bool} {new_idx step : Vector3i} {b : Bool}
    (h : tryStep check new_idx step = some b) :
    check ⟨new_idx.x + step.x, new_idx.y + step.y, new_idx.z + step.z⟩ = some b := by
  unfold tryStep at h
  cases ha : new_idx.add step with
  | none => simp [ha] at h
  | some n =>
    simp only [ha] at h
    rw [← Vector3i.add_some ha]
    exact h

theorem follows_step (e : RayElement) (rest : List RayElement) :
    (Follows ⟨e.idx.x + 1, e.idx.y + 0, e.z_last + 0⟩ rest ∨
      Follows ⟨e.idx.x + 0, e.idx.y + 1, e.z_last + 0⟩ rest ∨
      Follows ⟨e.idx.x + -1, e.idx.y + 0, e.z_last + 0⟩ rest ∨
      Follows ⟨e.idx.x + 0, e.idx.y + -1, e.z_last + 0⟩ rest) ↔
    List.Chain' Adjacent (e :: rest) := by
  cases rest with
  | nil => simp [Follows]
  | cons q rest =>
    simp only [Follows, List.chain'_cons, Adjacent, add_zero]
    constructor
    · rintro (⟨⟨hx, hy, hz⟩, hc⟩ | ⟨⟨hx, hy, hz⟩, hc⟩ | ⟨⟨hx, hy, hz⟩, hc⟩ | ⟨⟨hx, hy, hz⟩, hc⟩)
      · exact ⟨⟨Or.inl ⟨hx.symm, hy.symm⟩, hz.symm⟩, hc⟩
      · exact ⟨⟨Or.inr (Or.inr (Or.inl ⟨hx.symm, hy.symm⟩)), hz.symm⟩, hc⟩
      · exact ⟨⟨Or.inr (Or.inl ⟨by omega, hy.symm⟩), hz.symm⟩, hc⟩
      · exact ⟨⟨Or.inr (Or.inr (Or.inr ⟨hx.symm, by omega⟩)), hz.symm⟩, hc⟩
    · rintro ⟨⟨(⟨hx, hy⟩ | ⟨hx, hy⟩ | ⟨hx, hy⟩ | ⟨hx, hy⟩), hz⟩, hc⟩
      · exact Or.inl ⟨⟨hx.symm, hy.symm, hz.symm⟩, hc⟩
      · exact Or.inr (Or.inr (Or.inl ⟨⟨by omega, hy.symm, hz.symm⟩, hc⟩))
      · exact Or.inr (Or.inl ⟨⟨hx.symm, hy.symm, hz.symm⟩, hc⟩)
      · exact Or.inr (Or.inr (Or.inr ⟨⟨hx.symm, by omega, hz.symm⟩, hc⟩))

theorem checkRayElements_spec (ray : List RayElement) (next_idx : Vector3i) (b : Bool)
    (h : checkRayElements ray next_idx = some b) : b = true ↔ Follows next_idx ray := by
  induction ray generalizing next_idx b with
  | nil =>
    simp only [checkRayElements, Option.some.injEq] at h
    simp [Follows, ← h]
  | cons e rest ih =>
    simp only [checkRayElements] at h
    by_cases hx : next_idx.x = e.idx.x
    swap
    · simp only [ne_eq, hx, not_false_eq_true, if_true, Option.some.injEq] at h
      simp [Follows, ← h, hx]
    by_cases hy : next_idx.y = e.idx.y
    swap
    · simp only [ne_eq, hx, not_true_eq_false, if_false, hy, not_false_eq_true, if_true,
        Option.some.injEq] at h
      simp [Follows, ← h, hy]
    by_cases hz : next_idx.z = e.z_first
    swap
    · simp only [ne_eq, hx, not_true_eq_false, if_false, hy, hz, not_false_eq_true, if_true,
        Option.some.injEq] at h
      simp [Follows, ← h, hz]
    simp only [ne_eq, hx, hy, hz, not_true_eq_false, if_false] at h
    have hgoal : Follows next_idx (e :: rest) ↔ List.Chain' Adjacent (e :: rest) := by
      simp [Follows, hx, hy, hz]
    rw [hgoal, ← follows_step]
    rcases shortCircuitOr_eq_some h with ⟨h1, hb⟩ | ⟨h1, h⟩
    · have := (ih _ _ (tryStep_eq_some h1)).mp rfl
      exact ⟨fun _ => Or.inl this, fun _ => hb⟩
    have n1 := mt (ih _ _ (tryStep_eq_some h1)).mpr (by simp)
    rcases shortCircuitOr_eq_some h with ⟨h2, hb⟩ | ⟨h2, h⟩
    · have := (ih _ _ (tryStep_eq_some h2)).mp rfl
      exact ⟨fun _ => Or.inr (Or.inl this), fun _ => hb⟩
    have n2 := mt (ih _ _ (tryStep_eq_some h2)).mpr (by simp)
    rcases shortCircuitOr_eq_some h with ⟨h3, hb⟩ | ⟨h3, h⟩
    · have := (ih _ _ (tryStep_eq_some h3)).mp rfl
      exact ⟨fun _ => Or.inr (Or.inr (Or.inl this)), fun _ => hb⟩
    have n3 := mt (ih _ _ (tryStep_eq_some h3)).mpr (by simp)
    have h4 := ih _ _ (tryStep_eq_some h)
    constructor
    · intro hb
      exact Or.inr (Or.inr (Or.inr (h4.mp hb)))
    · rintro (h' | h' | h' | h')
      · exact absurd h' n1
      · exact absurd h' n2
      · exact absurd h' n3
      · exact h4.mpr h'

theorem tryStep_total {check : Vector3i → Option Bool} {new_idx step : Vector3i}
    (hx : INT_MIN ≤ new_idx.x + step.x ∧ new_idx.x + step.x ≤ INT_MAX)
    (hy : INT_MIN ≤ new_idx.y + step.y ∧ new_idx.y + step.y ≤ INT_MAX)
    (hz : INT_MIN ≤ new_idx.z + step.z ∧ new_idx.z + step.z ≤ INT_MAX)
    (hc : ∀ v, ∃ b, check v = some b) : ∃ b, tryStep check new_idx step = some b := by
  simp only [tryStep, Vector3i.add, addInt, hx, hy, hz, and_self, if_true]
  exact hc _

theorem shortCircuitOr_total {a : Option Bool} {f : Unit → Option Bool} (ha : ∃ b, a = some b)
    (hf : ∃ b, f () = some b) : ∃ b, shortCircuitOr a f = some b := by
  obtain ⟨b, rfl⟩ := ha
  cases b with
  | true => exact ⟨true, rfl⟩
  | false => exact hf

theorem checkRayElements_total (ray : List RayElement) (next_idx : Vector3i)
    (hr : ∀ e ∈ ray, e.InRange) : ∃ b, checkRayElements ray next_idx = some b := by
  induction ray generalizing next_idx with
  | nil => exact ⟨true, rfl⟩
  | cons e rest ih =>
    have ih' := fun v => ih v fun q hq => hr q (List.mem_cons_of_mem _ hq)
    obtain ⟨h1, h2, h3, h4, h5, h6⟩ := hr e (List.mem_cons_self _ _)
    simp only [INT_MIN, INT_MAX] at h1 h2 h3 h4 h5 h6
    simp only [checkRayElements]
    by_cases hx : next_idx.x = e.idx.x
    swap
    · exact ⟨false, by simp [hx]⟩
    by_cases hy : next_idx.y = e.idx.y
    swap
    · exact ⟨false, by simp [hx, hy]⟩
    by_cases hz : next_idx.z = e.z_first
    swap
    · exact ⟨false, by simp [hx, hy, hz]⟩
    simp only [ne_eq, hx, hy, hz, not_true_eq_false, if_false]
    refine shortCircuitOr_total (tryStep_total ?_ ?_ ?_ ih') (shortCircuitOr_total (tryStep_total ?_ ?_ ?_ ih')
      (shortCircuitOr_total (tryStep_total ?_ ?_ ?_ ih') (tryStep_total ?_ ?_ ?_ ih'))) <;>
      simp only [INT_MIN, INT_MAX] <;> omega

/-- C17: the ray checker of the test decides the adjacency invariant.  Whenever
`checkRay` returns a value for a list of ray elements, the value is true if and only if
the list is not empty and every two consecutive elements are adjacent: the column of the
later one is the column of the earlier one moved by +1 or -1 in exactly one of x or y, and
the later `z_first` equals the earlier `z_last`.  It does return a value when every
element is in range (a step of an `int` out of its range is undefined behaviour).  On the
empty list it returns false, on every list of one element in range it returns true. -/
theorem checkRay_decides_adjacency (ray : List RayElement) :
    (∀ b, checkRay ray = some b → (b = true ↔ ray ≠ [] ∧ List.Chain' Adjacent ray)) ∧
    ((∀ e ∈ ray, e.InRange) → ∃ b, checkRay ray = some b) ∧
    checkRay [] = some false ∧
    ∀ e : RayElement, e.InRange → checkRay [e] = some true := by
  refine ⟨fun b hb => ?_, fun hr => ?_, rfl, fun e he => ?_⟩
  · cases ray with
    | nil =>
      simp only [checkRay, Option.some.injEq] at hb
      simp [← hb]
    | cons e rest =>
      rw [checkRayElements_spec _ _ _ hb]
      simp [Follows]
  · cases ray with
    | nil => exact ⟨false, rfl⟩
    | cons e rest => exact checkRayElements_total _ _ hr
  · obtain ⟨b, hb⟩ := checkRayElements_total [e] ⟨e.idx.x, e.idx.y, e.z_first⟩
      (fun q hq => by rw [List.mem_singleton.mp hq]; exact he)
    have hb' : checkRay [e] = some b := hb
    rw [hb']
    have := (checkRayElements_spec _ _ _ hb).mpr (by simp [Follows])
    rw [this]

theorem checkRay_decides_adjacency_witness :
    ((∀ b, checkRay sampleRay = some b →
        (b = true ↔ sampleRay ≠ [] ∧ List.Chain' Adjacent sampleRay)) ∧
      ((∀ e ∈ sampleRay, e.InRange) → ∃ b, checkRay sampleRay = some b) ∧
      checkRay [] = some false ∧
      ∀ e : RayElement, e.InRange → checkRay [e] = some true) ∧
    (∀ e ∈ sampleRay, e.InRange) ∧ checkRay sampleRay = some true ∧
    List.Chain' Adjacent sampleRay ∧
    checkRay diagonalRay = some false ∧ ¬ List.Chain' Adjacent diagonalRay :=
  ⟨checkRay_decides_adjacency sampleRay, by decide, by decide,
   by simp [sampleRay, Adjacent], by decide, by simp [diagonalRay, Adjacent]⟩

/-! ## Local maps -/

/-- C14: shared frame data.  Let `m2` and `m3` be two `LocalMap` instances constructed
from the same `LocalMapData` object.  A write to the id through `m2` succeeds and a read
of the id through `m3` then yields the value written, and a write to the offset through
`m2` succeeds and a read of the offset through `m3` then yields the value written. -/
theorem shared_frame_data_write_is_seen (store : DataStore) (data : Nat)
    (hdata : data < store.length) (m2 m3 : LocalMap) (h2 : m2 = LocalMap.ofData data)
    (h3 : m3 = LocalMap.ofData data) (id : String) (offset : Transform3d) :
    (∃ store', m2.setId store id = some store' ∧ m3.getId store' = some id) ∧
    (∃ store', m2.setOffset store offset = some store' ∧
      m3.getOffset store' = some offset) := by
  subst h2 h3
  have hget : store[data]? = some (store.get ⟨data, hdata⟩) := by
    simp [List.getElem?_eq_getElem hdata]
  constructor
  · refine ⟨store.set data { store.get ⟨data, hdata⟩ with id := id }, ?_, ?_⟩
    · simp [LocalMap.setId, LocalMap.ofData, hget]
    · simp [LocalMap.getId, LocalMap.ofData, hdata]
  · refine ⟨store.set data { store.get ⟨data, hdata⟩ with offset := offset }, ?_, ?_⟩
    · simp [LocalMap.setOffset, LocalMap.ofData, hget]
    · simp [LocalMap.getOffset, LocalMap.ofData, hdata]

theorem shared_frame_data_write_is_seen_witness :
    (0 < sampleStore.length ∧
      (LocalMap.ofData 0).getId sampleStore = some "local_map_data") ∧
    ((∃ store', (LocalMap.ofData 0).setId sampleStore "changed" = some store' ∧
        (LocalMap.ofData 0).getId store' = some "changed") ∧
      (∃ store', (LocalMap.ofData 0).setOffset sampleStore ⟨[1, 0, 0, 5]⟩ = some store' ∧
        (LocalMap.ofData 0).getOffset store' = some ⟨[1, 0, 0, 5]⟩)) :=
  ⟨⟨by decide, rfl⟩,
   shared_frame_data_write_is_seen sampleStore 0 (by decide) (LocalMap.ofData 0)
     (LocalMap.ofData 0) rfl rfl "changed" ⟨[1, 0, 0, 5]⟩⟩

/-! ## Grid storage: untouched cells -/

theorem flatPosition_lt {n : Nat × Nat} {idx : Index} (hin : inBounds n idx = true) :
    flatPosition n idx < n.1 * n.2 := by
  simp only [inBounds, Bool.and_eq_true, decide_eq_true_eq] at hin
  obtain ⟨⟨⟨hx0, hx⟩, hy0⟩, hy⟩ := hin
  have hx' : idx.x.toNat < n.1 := by omega
  have hy' : idx.y.toNat + 1 ≤ n.2 := by omega
  have := Nat.mul_le_mul_right n.1 hy'
  rw [Nat.add_mul, Nat.one_mul, Nat.mul_comm n.2] at this
  simp only [flatPosition]
  omega

theorem flatIndex_flatPosition {n : Nat × Nat} {idx : Index} (hin : inBounds n idx = true) :
    flatIndex n (flatPosition n idx) = idx := by
  simp only [inBounds, Bool.and_eq_true, decide_eq_true_eq] at hin
  obtain ⟨⟨⟨hx0, hx⟩, hy0⟩, _⟩ := hin
  have hx' : idx.x.toNat < n.1 := by omega
  have hpos : 0 < n.1 := by omega
  have hmod : (idx.y.toNat * n.1 + idx.x.toNat) % n.1 = idx.x.toNat :=
    Nat.mul_add_mod_of_lt hx'
  have hdiv : (idx.y.toNat * n.1 + idx.x.toNat) / n.1 = idx.y.toNat := by
    rw [Nat.mul_comm, Nat.mul_add_div hpos, Nat.div_eq_of_lt hx', Nat.add_zero]
  cases idx with
  | mk x y =>
    simp only [flatIndex, flatPosition, hmod, hdiv, Index.mk.injEq, Int.ofNat_eq_coe]
    simp only at hx0 hy0
    omega

theorem flatPosition_inj {n : Nat × Nat} {i j : Index} (hi : inBounds n i = true)
    (hj : inBounds n j = true) (h : flatPosition n i = flatPosition n j) : i = j := by
  rw [← flatIndex_flatPosition hi, ← flatIndex_flatPosition hj, h]

theorem GridCell.relocate_cell {α : Type} (g : GridCell α) (n : Nat × Nat)
    (source : Index → Index) {j : Index} (hj : inBounds n j = true) :
    (g.relocate n source).cells[flatPosition n j]? =
      some (if inBounds g.num_cells (source j) then
        (g.cells[flatPosition g.num_cells (source j)]?).getD g.default_value
      else g.default_value) := by
  have hlt := flatPosition_lt hj
  simp only [GridCell.relocate, List.getElem?_map, List.getElem?_range hlt, Option.map_some',
    flatIndex_flatPosition hj]

theorem GridCell.relocate_inv {α : Type} {d : α} {g : GridCell α} {touched : Index → Bool}
    (hg : g.Inv d touched) (n : Nat × Nat) (source : Index → Index) :
    (g.relocate n source).Inv d fun j => touched (source j) := by
  refine ⟨hg.default, by simp [GridCell.relocate], fun j hj hw => ?_⟩
  have hcell := g.relocate_cell n source hj
  rw [show (g.relocate n source).num_cells = n from rfl, hcell]
  by_cases hs : inBounds g.num_cells (source j) = true
  · rw [if_pos hs, hg.cell _ hs hw, Option.getD_some]
  · rw [if_neg hs, hg.default]

theorem GridCell.step_inv_dense {α : Type} {d : α} {g g' : GridCell α} {touched : Index → Bool}
    (hg : g.Inv d touched) (op : GridOp α) (hstep : g.step op = .ok g') :
    g'.Inv d (GridOp.touch touched op) := by
  cases op with
  | write i v =>
    simp only [GridCell.step, GridCell.setAt] at hstep
    by_cases hi : inBounds g.num_cells i = true
    · rw [if_pos hi] at hstep
      rw [← Except.ok.inj hstep]
      refine ⟨hg.default, by simpa using hg.length, fun j hj hw => ?_⟩
      simp only [GridOp.touch, Bool.or_eq_false_iff, decide_eq_false_iff_not] at hw
      have hne : flatPosition g.num_cells i ≠ flatPosition g.num_cells j :=
        fun e => hw.2 (flatPosition_inj hi hj e)
      show (g.cells.set (flatPosition g.num_cells i) v)[flatPosition g.num_cells j]? = some d
      rw [List.getElem?_set, if_neg hne]
      exact hg.cell j hj hw.1
    · rw [if_neg hi] at hstep
      exact absurd hstep (by simp)
  | clear =>
    simp only [GridCell.step] at hstep
    rw [← Except.ok.inj hstep]
    refine ⟨hg.default, by simp [GridCell.clear], fun j hj _ => ?_⟩
    have hlt : flatPosition g.num_cells j < g.num_cells.1 * g.num_cells.2 :=
      flatPosition_lt hj
    show (List.replicate (g.num_cells.1 * g.num_cells.2) g.default_value)[
      flatPosition g.num_cells j]? = some d
    rw [List.getElem?_replicate, if_pos hlt, hg.default]
  | resize n =>
    simp only [GridCell.step] at hstep
    rw [← Except.ok.inj hstep]
    exact GridCell.relocate_inv hg (extentsOf n) id
  | moveBy idx =>
    simp only [GridCell.step] at hstep
    rw [← Except.ok.inj hstep]
    exact GridCell.relocate_inv hg g.num_cells fun j => j.shift idx

theorem SparseGrid.step_inv_sparse {α : Type} {d : α} {g g' : SparseGrid α}
    {touched : Index → Bool} (hg : g.Inv d touched) (op : GridOp α)
    (hstep : g.step op = .ok g') : g'.Inv d (GridOp.touch touched op) := by
  cases op with
  | write i v =>
    simp only [SparseGrid.step, SparseGrid.setAt] at hstep
    by_cases hi : inBounds g.num_cells i = true
    · rw [if_pos hi] at hstep
      rw [← Except.ok.inj hstep]
      refine ⟨hg.default, fun j hw => ?_⟩
      simp only [GridOp.touch, Bool.or_eq_false_iff, decide_eq_false_iff_not] at hw
      have hne : ¬ j = i := fun e => hw.2 e.symm
      show (if j = i then some v else g.cells j).getD d = d
      rw [if_neg hne]
      exact hg.cell j hw.1
    · rw [if_neg hi] at hstep
      exact absurd hstep (by simp)
  | clear =>
    simp only [SparseGrid.step] at hstep
    rw [← Except.ok.inj hstep]
    exact ⟨hg.default, fun _ _ => rfl⟩
  | resize n =>
    simp only [SparseGrid.step] at hstep
    rw [← Except.ok.inj hstep]
    refine ⟨hg.default, fun j hw => ?_⟩
    show (if inBounds g.num_cells j then g.cells j else none).getD d = d
    by_cases hj : inBounds g.num_cells j = true
    · rw [if_pos hj]
      exact hg.cell j hw
    · rw [if_neg hj]
      rfl
  | moveBy idx =>
    simp only [SparseGrid.step] at hstep
    rw [← Except.ok.inj hstep]
    refine ⟨hg.default, fun j hw => ?_⟩
    show (if inBounds g.num_cells (j.shift idx) then g.cells (j.shift idx) else none).getD d
      = d
    by_cases hj : inBounds g.num_cells (j.shift idx) = true
    · rw [if_pos hj]
      exact hg.cell _ hw
    · rw [if_neg hj]
      rfl

theorem GridStorage.construct_inv {α : Type} (b : Backend) (num_cells : Nat × Nat) (d : α) :
    (GridStorage.construct b num_cells d).Inv d fun _ => false := by
  cases b with
  | dense =>
    refine ⟨rfl, by simp [GridCell.construct], fun j hj _ => ?_⟩
    have hlt : flatPosition num_cells j < num_cells.1 * num_cells.2 := flatPosition_lt hj
    show (List.replicate (num_cells.1 * num_cells.2) d)[flatPosition num_cells j]? = some d
    rw [List.getElem?_replicate, if_pos hlt]
  | sparse => exact ⟨rfl, fun _ _ => rfl⟩

theorem GridStorage.step_inv {α : Type} {d : α} {g g' : GridStorage α}
    {touched : Index → Bool} (hg : g.Inv d touched) (op : GridOp α)
    (hstep : g.step op = .ok g') : g'.Inv d (GridOp.touch touched op) := by
  cases g with
  | dense g0 =>
    simp only [GridStorage.step] at hstep
    cases h0 : g0.step op with
    | error e => simp [h0] at hstep
    | ok g1 =>
      simp only [h0] at hstep
      rw [← Except.ok.inj hstep]
      exact GridCell.step_inv_dense hg op h0
  | sparse g0 =>
    simp only [GridStorage.step] at hstep
    cases h0 : g0.step op with
    | error e => simp [h0] at hstep
    | ok g1 =>
      simp only [h0] at hstep
      rw [← Except.ok.inj hstep]
      exact SparseGrid.step_inv_sparse hg op h0

theorem GridStorage.run_inv {α : Type} {d : α} (ops : List (GridOp α)) {g g' : GridStorage α}
    {touched : Index → Bool} (hg : g.Inv d touched) (hrun : g.run ops = .ok g') :
    g'.Inv d (ops.foldl GridOp.touch touched) := by
  induction ops generalizing g touched with
  | nil =>
    rw [← Except.ok.inj hrun]
    exact hg
  | cons op ops ih =>
    simp only [GridStorage.run, forEach] at hrun
    cases hstep : g.step op with
    | error e => simp [hstep] at hrun
    | ok g1 =>
      simp only [hstep] at hrun
      exact ih (GridStorage.step_inv hg op hstep) hrun

theorem GridStorage.cellAt_of_inv {α : Type} {d : α} {g : GridStorage α}
    {touched : Index → Bool} (hg : g.Inv d touched) {idx : Index}
    (hin : inBounds g.getNumCells idx = true) (hw : touched idx = false) :
    g.getDefaultValue = d ∧ g.cellAt idx = .ok d := by
  cases g with
  | dense g0 =>
    have h0 : g0.Inv d touched := hg
    refine ⟨h0.default, ?_⟩
    have hin0 : inBounds g0.num_cells idx = true := hin
    simp only [GridStorage.cellAt, GridCell.cellAt, hin0, if_true, h0.cell idx hin0 hw]
  | sparse g0 =>
    have h0 : g0.Inv d touched := hg
    refine ⟨h0.default, ?_⟩
    have hin0 : inBounds g0.num_cells idx = true := hin
    simp only [GridStorage.cellAt, SparseGrid.cellAt, hin0, if_true, h0.default,
      h0.cell idx hw]

theorem GridStorage.default_of_inv {α : Type} {d : α} {g : GridStorage α}
    {touched : Index → Bool} (hg : g.Inv d touched) : g.getDefaultValue = d := by
  cases g with
  | dense g0 => exact GridCell.Inv.default hg
  | sparse g0 => exact SparseGrid.Inv.default hg

theorem GridOp.touched_eq_written {α : Type} (idx : Index) (ops : List (GridOp α))
    (hops : ∀ op ∈ ops, op.isMoveBy = false) (touched : Index → Bool) (w : Bool)
    (hw : touched idx = w) :
    ops.foldl GridOp.touch touched idx = ops.foldl (GridOp.markWritten idx) w := by
  induction ops generalizing touched w with
  | nil => exact hw
  | cons op ops ih =>
    refine ih (fun o ho => hops o (List.mem_cons_of_mem _ ho)) _ _ ?_
    have hop := hops op (List.mem_cons_self _ _)
    cases op with
    | write i v => simp [GridOp.touch, GridOp.markWritten, hw]
    | clear => rfl
    | resize n => exact hw
    | moveBy d => simp [GridOp.isMoveBy] at hop

/-- C16, on the failing input: on a dense storage of 3 x 1 cells with the default value 0,
a write of 7 to the cell `(1, 0)` followed by `moveBy((1, 0))` completes; no write has
named the cell `(0, 0)`, which is in bounds, and `at((0, 0))` returns 7, not the value 0
of `getDefaultValue()`. -/
theorem moveBy_carries_written_value :
    ∃ g, (GridStorage.construct .dense (3, 1) (0 : ℚ)).run shiftOps = .ok g ∧
      inBounds g.getNumCells ⟨0, 0⟩ = true ∧ GridOp.written (⟨0, 0⟩ : Index) shiftOps = false ∧
      g.cellAt ⟨0, 0⟩ = .ok 7 ∧ g.getDefaultValue = 0 ∧ (7 : ℚ) ≠ 0 :=
  ⟨_, rfl, rfl, rfl, rfl, rfl, by norm_num⟩

/-- C16, amended: untouched cells hold the default.  Let a grid storage of either backend
be constructed with the extents `num_cells` and the default value `default_value`, and let
any sequence of writes, clears, resizes and shifts that completes lead to the storage `g`.
Then `getDefaultValue()` is `default_value`, and for every index `idx` in bounds that is
not touched since construction or since the last `clear`, `at(idx)` returns the value of
`getDefaultValue()`; a cell is touched when a write has named it or when `moveBy` has
shifted a touched cell onto it.  When the sequence has no `moveBy`, this holds for every
index in bounds that no write has named since construction or since the last `clear`. -/
theorem untouched_cell_holds_default {α : Type} (b : Backend) (num_cells : Nat × Nat)
    (default_value : α) (ops : List (GridOp α)) (g : GridStorage α) (idx : Index)
    (hrun : (GridStorage.construct b num_cells default_value).run ops = .ok g)
    (hin : inBounds g.getNumCells idx = true) :
    g.getDefaultValue = default_value ∧
    (GridOp.touched ops idx = false → g.cellAt idx = .ok g.getDefaultValue) ∧
    ((∀ op ∈ ops, op.isMoveBy = false) → GridOp.written idx ops = false →
      g.cellAt idx = .ok g.getDefaultValue) := by
  have hinv := GridStorage.run_inv ops
    (GridStorage.construct_inv b num_cells default_value) hrun
  have hd := GridStorage.default_of_inv hinv
  refine ⟨hd, fun hw => ?_, fun hops hw => ?_⟩
  · rw [hd]
    exact (GridStorage.cellAt_of_inv hinv hin hw).2
  · rw [hd]
    refine (GridStorage.cellAt_of_inv hinv hin ?_).2
    rw [GridOp.touched_eq_written idx ops hops (fun _ => false) false rfl]
    exact hw

theorem untouched_cell_holds_default_witness :
    (∃ g : GridStorage ℚ,
      (GridStorage.construct .dense (2, 3) (-11 / 2)).run sampleOps = .ok g ∧
      inBounds g.getNumCells ⟨1, 2⟩ = true ∧
      GridOp.touched sampleOps (⟨1, 2⟩ : Index) = false ∧
      GridOp.touched sampleOps (⟨1, 1⟩ : Index) = true ∧
      g.getDefaultValue = -11 / 2 ∧ g.cellAt ⟨1, 2⟩ = .ok g.getDefaultValue) ∧
    ∃ g : GridStorage ℚ,
      (GridStorage.construct .sparse (3, 1) 0).run shiftOps = .ok g ∧
      inBounds g.getNumCells ⟨1, 0⟩ = true ∧
      GridOp.touched shiftOps (⟨1, 0⟩ : Index) = false ∧
      GridOp.touched shiftOps (⟨0, 0⟩ : Index) = true ∧
      g.getDefaultValue = 0 ∧ g.cellAt ⟨1, 0⟩ = .ok g.getDefaultValue :=
  ⟨⟨_, rfl, rfl, rfl, rfl,
     (untouched_cell_holds_default .dense (2, 3) (-11 / 2) sampleOps _ ⟨1, 2⟩ rfl rfl).1,
     (untouched_cell_holds_default .dense (2, 3) (-11 / 2) sampleOps _ ⟨1, 2⟩ rfl rfl).2.1
       rfl⟩,
   ⟨_, rfl, rfl, rfl, rfl,
     (untouched_cell_holds_default .sparse (3, 1) 0 shiftOps _ ⟨1, 0⟩ rfl rfl).1,
     (untouched_cell_holds_default .sparse (3, 1) 0 shiftOps _ ⟨1, 0⟩ rfl rfl).2.1 rfl⟩⟩

/-! ## Voxel traversal: adjacency -/

theorem chain'_snoc {α : Type} {R : α → α → Prop} {l : List α}
    {a b : α} (h : List.Chain' R (l ++ [a])) (hab : R a b) :
    List.Chain' R (l ++ [a] ++ [b]) := by
  rw [List.chain'_append]
  refine ⟨h, List.chain'_singleton b, fun x hx y hy => ?_⟩
  have hlast : (l ++ [a]).getLast? = some a := by simp
  rw [hlast, Option.mem_def, Option.some.injEq] at hx
  simp only [List.head?_cons, Option.mem_def, Option.some.injEq] at hy
  rw [← hx, ← hy]
  exact hab

theorem chain'_replace_last {α : Type} {R : α → α → Prop} {l : List α}
    {a a' : α} (h : List.Chain' R (l ++ [a])) (hR : ∀ p, R p a → R p a') :
    List.Chain' R (l ++ [a']) := by
  rw [List.chain'_append] at h ⊢
  refine ⟨h.1, List.chain'_singleton a', fun x hx y hy => ?_⟩
  simp only [List.head?_cons, Option.mem_def, Option.some.injEq] at hy
  rw [← hy]
  exact hR x (h.2.2 x hx a (by simp))

theorem RayAxis.init_valid (resolution origin origin_center measurement : ℚ) :
    (RayAxis.init resolution origin origin_center measurement).Valid := by
  unfold RayAxis.init RayAxis.Valid
  dsimp only
  split
  · exact fun _ => Or.inl rfl
  · split
    · exact fun _ => Or.inr rfl
    · intro h
      simp at h

theorem RayAxis.advance_valid {a : RayAxis} (h : a.Valid) : a.advance.Valid := by
  unfold RayAxis.Valid RayAxis.advance at *
  intro hs
  simp only [Option.isSome_map'] at hs
  exact h hs

theorem RayAxis.before_isSome {a b : RayAxis} (h : a.before b = true) :
    a.tMax.isSome = true := by
  unfold RayAxis.before at h
  cases ha : a.tMax with
  | none => simp [ha] at h
  | some t => rfl

theorem rayStep_inv {s s' : RayState} (hs : s.Inv) (h : rayStep s = some s') : s'.Inv := by
  unfold rayStep at h
  cases hn : nearestAxis s.ax s.ay s.az with
  | none => simp [hn] at h
  | some axis =>
    cases axis with
    | x =>
      simp only [hn, Option.some.injEq] at h
      unfold nearestAxis at hn
      have hbefore : s.ax.before s.ay = true := by
        by_cases hb : (s.ax.before s.ay && s.ax.before s.az) = true
        · exact (Bool.and_eq_true _ _ ▸ hb).1
        · rw [if_neg hb] at hn
          split at hn <;> try split at hn
          all_goals simp at hn
      have hstep := hs.validX (RayAxis.before_isSome hbefore)
      rw [← h]
      refine ⟨chain'_snoc hs.chain ⟨?_, hs.height.symm ▸ rfl⟩, rfl, rfl,
        RayAxis.advance_valid hs.validX, hs.validY⟩
      rw [hs.column]
      rcases hstep with e | e
      · exact Or.inl ⟨by rw [e], rfl⟩
      · exact Or.inr (Or.inl ⟨by rw [e]; rfl, rfl⟩)
    | y =>
      simp only [hn, Option.some.injEq] at h
      unfold nearestAxis at hn
      have hbefore : s.ay.before s.az = true := by
        by_cases hb : (s.ax.before s.ay && s.ax.before s.az) = true
        · rw [if_pos hb] at hn
          simp at hn
        · rw [if_neg hb] at hn
          by_cases hb2 : s.ay.before s.az = true
          · exact hb2
          · rw [if_neg hb2] at hn
            split at hn
            all_goals simp at hn
      have hstep := hs.validY (RayAxis.before_isSome hbefore)
      rw [← h]
      refine ⟨chain'_snoc hs.chain ⟨?_, hs.height.symm ▸ rfl⟩, rfl, rfl, hs.validX,
        RayAxis.advance_valid hs.validY⟩
      rw [hs.column]
      rcases hstep with e | e
      · exact Or.inr (Or.inr (Or.inl ⟨rfl, by rw [e]⟩))
      · exact Or.inr (Or.inr (Or.inr ⟨rfl, by rw [e]; rfl⟩))
    | z =>
      simp only [hn, Option.some.injEq] at h
      rw [← h]
      exact ⟨chain'_replace_last hs.chain fun p hp => hp, hs.column, rfl, hs.validX,
        hs.validY⟩

theorem rayLoop_chain (measurement_idx : Vector3i) (fuel : Nat) (s : RayState) (hs : s.Inv) :
    rayLoop measurement_idx fuel s ≠ [] ∧
      List.Chain' Adjacent (rayLoop measurement_idx fuel s) := by
  induction fuel generalizing s with
  | zero => exact ⟨by simp [rayLoop], hs.chain⟩
  | succ fuel ih =>
    unfold rayLoop
    by_cases hidx : s.idx = measurement_idx
    · rw [if_pos hidx]
      exact ⟨by simp, hs.chain⟩
    · rw [if_neg hidx]
      cases hstep : rayStep s with
      | none => exact ⟨by simp, hs.chain⟩
      | some s' => exact ih s' (rayStep_inv hs hstep)

/-- C13: the adjacency of the elements of a ray.  For every resolution, origin and
measurement, with their cells, `computeRay` returns a ray that is not empty and in which
every two consecutive elements are adjacent: the column of the later one is the column of
the earlier one moved by +1 or -1 in exactly one of x or y, and the `z_first` of the later
one equals the `z_last` of the earlier one. -/
theorem computeRay_adjacent (resolution origin : Vector3d) (origin_idx : Vector3i)
    (origin_center measurement : Vector3d) (measurement_idx : Vector3i) :
    computeRay resolution origin origin_idx origin_center measurement measurement_idx ≠ [] ∧
      List.Chain' Adjacent
        (computeRay resolution origin origin_idx origin_center measurement measurement_idx) :=
  rayLoop_chain _ _ _
    ⟨List.chain'_singleton _, rfl, rfl, RayAxis.init_valid _ _ _ _, RayAxis.init_valid _ _ _ _⟩

/-- When the origin and the measurement lie in the same cell, the ray is the one element of
that cell. -/
theorem computeRay_same_cell (resolution origin origin_center measurement : Vector3d)
    (idx : Vector3i) :
    computeRay resolution origin idx origin_center measurement idx =
      [⟨⟨idx.x, idx.y⟩, idx.z, idx.z⟩] := by
  simp [computeRay, rayLoop]

/-- A ray in a grid of unit voxels, from the centre of the cell `(0, 0, 0)` to a point of
the cell `(2, 1, 1)`: the traversal steps in x, then in y, then in z (folded into the run
of the column), then in x. -/
theorem computeRay_example :
    computeRay ⟨1, 1, 1⟩ ⟨1 / 2, 1 / 2, 1 / 2⟩ ⟨0, 0, 0⟩ ⟨1 / 2, 1 / 2, 1 / 2⟩
        ⟨5 / 2, 3 / 2, 5 / 4⟩ ⟨2, 1, 1⟩ =
      [⟨⟨0, 0⟩, 0, 0⟩, ⟨⟨1, 0⟩, 0, 0⟩, ⟨⟨1, 1⟩, 0, 1⟩, ⟨⟨2, 1⟩, 1, 1⟩] := by
  norm_num [computeRay, rayLoop, rayStep, nearestAxis, RayAxis.before, RayAxis.init,
    RayAxis.advance]

/-! ## `getNodePosition` -/

theorem MLSMapVisualization.setShowUncertainty_false (s : MLSMapVisualization) :
    s.setShowUncertainty false =
      (MLSMapVisualization.propertyChanged { s with showUncertainty := false }
        "show_uncertainty").setDirty := by
  rw [MLSMapVisualization.setShowUncertainty]
  simp

theorem MLSMapVisualization.setShowNormals_false (s : MLSMapVisualization) :
    s.setShowNormals false =
      (MLSMapVisualization.propertyChanged { s with showNormals := false }
        "show_normals").setDirty := by
  rw [MLSMapVisualization.setShowNormals]
  simp

theorem MLSMapVisualization.setShowPatchExtents_false (s : MLSMapVisualization) :
    s.setShowPatchExtents false =
      (MLSMapVisualization.propertyChanged { s with showPatchExtents := false }
        "show_patch_extents").setDirty := by
  rw [MLSMapVisualization.setShowPatchExtents]
  simp

theorem MLSMapVisualization.setShowUncertainty_flags (enabled : Bool)
    (s : MLSMapVisualization) :
    (s.setShowUncertainty enabled).showUncertainty = enabled ∧
      (s.setShowUncertainty enabled).showNormals = (!enabled && s.showNormals) ∧
      (s.setShowUncertainty enabled).showPatchExtents = (!enabled && s.showPatchExtents) := by
  cases enabled with
  | false =>
    rw [MLSMapVisualization.setShowUncertainty_false]
    simp [MLSMapVisualization.propertyChanged, MLSMapVisualization.setDirty]
  | true =>
    rw [MLSMapVisualization.setShowUncertainty]
    simp only [MLSMapVisualization.setShowNormals_false,
      MLSMapVisualization.setShowPatchExtents_false]
    cases hn : s.showNormals <;> cases hp : s.showPatchExtents <;>
      simp [MLSMapVisualization.propertyChanged, MLSMapVisualization.setDirty,
        MLSMapVisualization.arePatchExtentsShown, MLSMapVisualization.areNormalsShown, hn, hp]

theorem MLSMapVisualization.setShowNormals_flags (enabled : Bool) (s : MLSMapVisualization) :
    (s.setShowNormals enabled).showNormals = enabled ∧
      (s.setShowNormals enabled).showUncertainty = (!enabled && s.showUncertainty) ∧
      (s.setShowNormals enabled).showPatchExtents = (!enabled && s.showPatchExtents) := by
  cases enabled with
  | false =>
    rw [MLSMapVisualization.setShowNormals_false]
    simp [MLSMapVisualization.propertyChanged, MLSMapVisualization.setDirty]
  | true =>
    rw [MLSMapVisualization.setShowNormals]
    simp only [MLSMapVisualization.setShowUncertainty_false,
      MLSMapVisualization.setShowPatchExtents_false]
    cases hu : s.showUncertainty <;> cases hp : s.showPatchExtents <;>
      simp [MLSMapVisualization.propertyChanged, MLSMapVisualization.setDirty,
        MLSMapVisualization.arePatchExtentsShown, MLSMapVisualization.isUncertaintyShown,
        hu, hp]

theorem MLSMapVisualization.setShowPatchExtents_flags (value : Bool)
    (s : MLSMapVisualization) :
    (s.setShowPatchExtents value).showPatchExtents = value ∧
      (s.setShowPatchExtents value).showUncertainty = (!value && s.showUncertainty) ∧
      (s.setShowPatchExtents value).showNormals = (!value && s.showNormals) := by
  cases value with
  | false =>
    rw [MLSMapVisualization.setShowPatchExtents_false]
    simp [MLSMapVisualization.propertyChanged, MLSMapVisualization.setDirty]
  | true =>
    rw [MLSMapVisualization.setShowPatchExtents]
    simp only [MLSMapVisualization.setShowUncertainty_false,
      MLSMapVisualization.setShowNormals_false]
    cases hu : s.showUncertainty <;> cases hn : s.showNormals <;>
      simp [MLSMapVisualization.propertyChanged, MLSMapVisualization.setDirty,
        MLSMapVisualization.areNormalsShown, MLSMapVisualization.isUncertaintyShown, hu, hn]

theorem MLSMapVisualization.call_atMostOne (s : MLSMapVisualization) (c : SetterCall)
    (hs : s.AtMostOneOverlay) : (s.call c).AtMostOneOverlay := by
  unfold MLSMapVisualization.AtMostOneOverlay at *
  cases c with
  | setShowUncertainty b =>
    obtain ⟨h1, h2, h3⟩ := s.setShowUncertainty_flags b
    simp only [MLSMapVisualization.call, h1, h2, h3]
    revert hs
    cases b <;> cases s.showUncertainty <;> cases s.showNormals <;>
      cases s.showPatchExtents <;> decide
  | setShowNormals b =>
    obtain ⟨h1, h2, h3⟩ := s.setShowNormals_flags b
    simp only [MLSMapVisualization.call, h1, h2, h3]
    revert hs
    cases b <;> cases s.showUncertainty <;> cases s.showNormals <;>
      cases s.showPatchExtents <;> decide
  | setShowPatchExtents b =>
    obtain ⟨h1, h2, h3⟩ := s.setShowPatchExtents_flags b
    simp only [MLSMapVisualization.call, h1, h2, h3]
    revert hs
    cases b <;> cases s.showUncertainty <;> cases s.showNormals <;>
      cases s.showPatchExtents <;> decide

theorem MLSMapVisualization.calls_atMostOne (l : List SetterCall) (s : MLSMapVisualization)
    (hs : s.AtMostOneOverlay) : (s.calls l).AtMostOneOverlay := by
  induction l generalizing s with
  | nil => exact hs
  | cons c l ih => exact ih (s.call c) (s.call_atMostOne c hs)

/-- C22: the overlay options are mutually exclusive.  In every state that is reached from
the constructor by a sequence of calls to `setShowUncertainty`, `setShowNormals` and
`setShowPatchExtents`, at most one of the flags `showUncertainty`, `showNormals` and
`showPatchExtents` is true.  Every call of a setter returns, in every state: it leaves its
own flag at the value it was called with, and the two other flags false when that value is
true and unchanged when it is false. -/
theorem overlay_flags_mutually_exclusive (l : List SetterCall) :
    (MLSMapVisualization.construct.calls l).AtMostOneOverlay ∧
    ∀ (s : MLSMapVisualization) (b : Bool),
      ((s.setShowUncertainty b).showUncertainty = b ∧
        (s.setShowUncertainty b).showNormals = (!b && s.showNormals) ∧
        (s.setShowUncertainty b).showPatchExtents = (!b && s.showPatchExtents)) ∧
      ((s.setShowNormals b).showNormals = b ∧
        (s.setShowNormals b).showUncertainty = (!b && s.showUncertainty) ∧
        (s.setShowNormals b).showPatchExtents = (!b && s.showPatchExtents)) ∧
      ((s.setShowPatchExtents b).showPatchExtents = b ∧
        (s.setShowPatchExtents b).showUncertainty = (!b && s.showUncertainty) ∧
        (s.setShowPatchExtents b).showNormals = (!b && s.showNormals)) :=
  ⟨MLSMapVisualization.calls_atMostOne l _ (Nat.zero_le 1), fun s b =>
    ⟨s.setShowUncertainty_flags b, s.setShowNormals_flags b, s.setShowPatchExtents_flags b⟩⟩

/-! ## The free cells of a column -/

theorem DataHold.free_cells_step_spec (thr : ℚ) (seen : List (Int × ℚ))
    (runs : List (Int × Int))
    (c : Int × ℚ) (hinv : FreeRuns thr seen runs) (hlt : ∀ b ∈ seen, b.1 < c.1)
    (hseen : ∀ b ∈ seen, INT_MIN ≤ b.1) (hc : c.1 ≤ INT_MAX) :
    ∃ runs', DataHold.free_cells_step thr runs c = some runs' ∧
      FreeRuns thr (seen ++ [c]) runs' := by
  unfold DataHold.free_cells_step
  by_cases hfree : c.2 < thr
  swap
  · rw [if_neg hfree]
    refine ⟨runs, rfl, hinv.le, fun z => ?_, hinv.gap, fun p hp => ?_⟩
    · rw [hinv.cover z]
      constructor
      · rintro ⟨b, hb, h⟩
        exact ⟨b, List.mem_append_left _ hb, h⟩
      · rintro ⟨b, hb, h1, h2⟩
        rcases List.mem_append.mp hb with hb | hb
        · exact ⟨b, hb, h1, h2⟩
        · rw [List.mem_singleton.mp hb] at h2
          exact absurd h2 hfree
    · obtain ⟨b, hb, h⟩ := hinv.last p hp
      exact ⟨b, List.mem_append_left _ hb, h⟩
  rw [if_pos hfree]
  have hcover : ∀ z : Int, (∃ b ∈ seen ++ [c], b.1 = z ∧ b.2 < thr) ↔
      ((∃ p ∈ runs, p.1 ≤ z ∧ z ≤ p.2) ∨ z = c.1) := by
    intro z
    rw [hinv.cover z]
    constructor
    · rintro ⟨b, hb, h1, h2⟩
      rcases List.mem_append.mp hb with hb | hb
      · exact Or.inl ⟨b, hb, h1, h2⟩
      · rw [List.mem_singleton.mp hb] at h1
        exact Or.inr h1.symm
    · rintro (⟨b, hb, h⟩ | h)
      · exact ⟨b, List.mem_append_left _ hb, h⟩
      · exact ⟨c, by simp, h.symm, hfree⟩
  have hlast : ∀ p ∈ runs, ∃ b ∈ seen ++ [c], b.1 = p.2 := by
    intro p hp
    obtain ⟨b, hb, h⟩ := hinv.last p hp
    exact ⟨b, List.mem_append_left _ hb, h⟩
  rcases List.eq_nil_or_concat runs with hnil | ⟨L, back, hL⟩
  · subst hnil
    refine ⟨[(c.1, c.1)], rfl, ?_, fun z => ?_, List.chain'_singleton _, ?_⟩
    · simp
    · rw [hcover z]
      simp only [List.mem_singleton, exists_eq_left, List.not_mem_nil, false_and, exists_false,
        false_or]
      omega
    · intro p hp
      rw [List.mem_singleton.mp hp]
      exact ⟨c, by simp, rfl⟩
  · rw [List.concat_eq_append] at hL
    subst hL
    have hback : back ∈ L ++ [back] := by simp
    obtain ⟨b, hb, hbk⟩ := hinv.last back hback
    have h1 : back.2 < c.1 := hbk ▸ hlt b hb
    have h2 : INT_MIN ≤ back.2 := hbk ▸ hseen b hb
    have hadd : addInt back.2 1 = some (back.2 + 1) := by
      unfold addInt
      rw [if_pos]
      simp only [INT_MIN, INT_MAX] at h2 hc ⊢
      omega
    have hle := hinv.le back hback
    have hgl : (L ++ [back]).getLast? = some back := by simp
    have hdl : (L ++ [back]).dropLast = L := by simp
    rw [hgl]
    simp only [hadd, hdl]
    by_cases hnext : back.2 + 1 = c.1
    · refine ⟨L ++ [(back.1, back.2 + 1)], by simp [hnext], ?_, fun z => ?_, ?_, ?_⟩
      · intro p hp
        rcases List.mem_append.mp hp with hp | hp
        · exact hinv.le p (List.mem_append_left _ hp)
        · rw [List.mem_singleton.mp hp]
          show back.1 ≤ back.2 + 1
          omega
      · rw [hcover z]
        constructor
        · rintro ⟨p, hp, hz⟩
          rcases List.mem_append.mp hp with hp | hp
          · exact Or.inl ⟨p, List.mem_append_left _ hp, hz⟩
          · rw [List.mem_singleton.mp hp] at hz
            by_cases hzc : z = c.1
            · exact Or.inr hzc
            · exact Or.inl ⟨back, hback, hz.1, by have := hz.2; simp only at this; omega⟩
        · rintro (⟨p, hp, hz⟩ | hz)
          · rcases List.mem_append.mp hp with hp | hp
            · exact ⟨p, List.mem_append_left _ hp, hz⟩
            · rw [List.mem_singleton.mp hp] at hz
              exact ⟨(back.1, back.2 + 1), by simp, hz.1, by show z ≤ back.2 + 1; omega⟩
          · exact ⟨(back.1, back.2 + 1), by simp, by show back.1 ≤ z; omega,
              by show z ≤ back.2 + 1; omega⟩
      · exact chain'_replace_last hinv.gap fun p hp => hp
      · intro p hp
        rcases List.mem_append.mp hp with hp | hp
        · exact hlast p (List.mem_append_left _ hp)
        · rw [List.mem_singleton.mp hp]
          exact ⟨c, by simp, hnext.symm⟩
    · refine ⟨L ++ [back] ++ [(c.1, c.1)], by simp [hnext], ?_, fun z => ?_, ?_, ?_⟩
      · intro p hp
        rcases List.mem_append.mp hp with hp | hp
        · exact hinv.le p hp
        · rw [List.mem_singleton.mp hp]
      · rw [hcover z]
        constructor
        · rintro ⟨p, hp, hz⟩
          rcases List.mem_append.mp hp with hp | hp
          · exact Or.inl ⟨p, hp, hz⟩
          · rw [List.mem_singleton.mp hp] at hz
            exact Or.inr (by have := hz.1; have := hz.2; simp only at *; omega)
        · rintro (⟨p, hp, hz⟩ | hz)
          · exact ⟨p, List.mem_append_left _ hp, hz⟩
          · exact ⟨(c.1, c.1), by simp, by show c.1 ≤ z; omega, by show z ≤ c.1; omega⟩
      · exact chain'_snoc hinv.gap (by show back.2 + 1 < c.1; omega)
      · intro p hp
        rcases List.mem_append.mp hp with hp | hp
        · exact hlast p hp
        · rw [List.mem_singleton.mp hp]
          exact ⟨c, by simp, rfl⟩

theorem DataHold.free_cells_loop_spec (thr : ℚ) (rest seen : List (Int × ℚ))
    (runs : List (Int × Int))
    (hsorted : (seen ++ rest).Pairwise fun a b => a.1 < b.1)
    (hint : ∀ c ∈ seen ++ rest, INT_MIN ≤ c.1 ∧ c.1 ≤ INT_MAX)
    (hinv : FreeRuns thr seen runs) :
    ∃ out, DataHold.free_cells_loop thr runs rest = some out ∧
      FreeRuns thr (seen ++ rest) out := by
  induction rest generalizing seen runs with
  | nil => exact ⟨runs, rfl, by rw [List.append_nil]; exact hinv⟩
  | cons c cs ih =>
    have hlt : ∀ b ∈ seen, b.1 < c.1 := fun b hb =>
      (List.pairwise_append.mp hsorted).2.2 b hb c (List.mem_cons_self _ _)
    obtain ⟨runs', hstep, hinv'⟩ := DataHold.free_cells_step_spec thr seen runs c hinv hlt
      (fun b hb => (hint b (List.mem_append_left _ hb)).1)
      (hint c (List.mem_append_right _ (List.mem_cons_self _ _))).2
    have happ : seen ++ [c] ++ cs = seen ++ c :: cs := by simp
    obtain ⟨out, hout, hfin⟩ := ih (seen ++ [c]) runs' (by rw [happ]; exact hsorted)
      (by rw [happ]; exact hint) hinv'
    refine ⟨out, ?_, by rw [← happ]; exact hfin⟩
    simp only [DataHold.free_cells_loop, hstep]
    exact hout

/-- C23: the grouping of the free voxel cells of a column into runs.  Let the entries of
the tree of a column be iterated in strictly increasing order of their z-index, an `int`.
The loop of `visualizeNegativeInformation` over the column returns a list `free_cells` of
pairs `(first, last)` with `first ≤ last`; an integer lies in the range of one of the
pairs if and only if it is the z-index of an entry whose log-odds are below
`free_space_logodds`; and each pair starts more than one above the `last` of the pair
before it, so the pairs are the maximal runs of consecutive free z-indices, in increasing
order. -/
theorem free_cells_are_maximal_runs (free_space_logodds : ℚ) (tree : List (Int × ℚ))
    (hsorted : tree.Pairwise fun a b => a.1 < b.1)
    (hint : ∀ c ∈ tree, INT_MIN ≤ c.1 ∧ c.1 ≤ INT_MAX) :
    ∃ runs, DataHold.free_cells free_space_logodds tree = some runs ∧
      (∀ p ∈ runs, p.1 ≤ p.2) ∧
      (∀ z : Int, (∃ p ∈ runs, p.1 ≤ z ∧ z ≤ p.2) ↔
        ∃ c ∈ tree, c.1 = z ∧ c.2 < free_space_logodds) ∧
      List.Chain' (fun p q : Int × Int => p.2 + 1 < q.1) runs := by
  obtain ⟨runs, hruns, hinv⟩ := DataHold.free_cells_loop_spec free_space_logodds tree [] []
    (by simpa using hsorted) (by simpa using hint)
    ⟨fun _ hp => absurd hp (List.not_mem_nil _), fun z => by simp, List.chain'_nil,
      fun _ hp => absurd hp (List.not_mem_nil _)⟩
  rw [List.nil_append] at hinv
  exact ⟨runs, hruns, hinv.le, hinv.cover, hinv.gap⟩

theorem free_cells_are_maximal_runs_witness :
    (sampleColumn.Pairwise fun a b => a.1 < b.1) ∧
    (∀ c ∈ sampleColumn, INT_MIN ≤ c.1 ∧ c.1 ≤ INT_MAX) ∧
    DataHold.free_cells (-1 / 2) sampleColumn = some [(-1, 0), (2, 2), (4, 5)] ∧
    ∃ runs, DataHold.free_cells (-1 / 2) sampleColumn = some runs ∧
      (∀ p ∈ runs, p.1 ≤ p.2) ∧
      (∀ z : Int, (∃ p ∈ runs, p.1 ≤ z ∧ z ≤ p.2) ↔
        ∃ c ∈ sampleColumn, c.1 = z ∧ c.2 < -1 / 2) ∧
      List.Chain' (fun p q : Int × Int => p.2 + 1 < q.1) runs :=
  ⟨by simp [sampleColumn], by simp [sampleColumn, INT_MIN, INT_MAX],
   by norm_num [DataHold.free_cells, DataHold.free_cells_loop, DataHold.free_cells_step,
     sampleColumn, addInt, INT_MIN, INT_MAX],
   free_cells_are_maximal_runs (-1 / 2) sampleColumn (by simp [sampleColumn])
     (by simp [sampleColumn, INT_MIN, INT_MAX])⟩

end maps.grid
